import Mathlib

/-!
# elz4: a streaming LZ4 frame decompressor

Shallow embedding of `src/elz4/elz4.h` and `src/elz4/elz4.cpp`.

Conventions of the embedding.

* Bytes and machine integers are natural numbers; 32-bit arithmetic is written with an
  explicit reduction modulo `2 ^ 32`.  The scratch area is the list of its 15 bytes, and
  the `uint32_t` views `scratchU32[0]`, `scratchU32[1]` are little-endian reads and writes
  of bytes 0..3 and 4..7 (the code compares the magic number as a native `uint32_t`, so it
  assumes a little-endian target).
* A `span` keeps the bytes from its `data` pointer to the end of the caller's buffer, the
  distance `pos` the pointer has moved since the call started, and its `size` field.  The
  statement `size -= n` is written with truncated subtraction: a step that moved a pointer
  by more than `size` would show as `pos + size` growing, and the accounting lemmas prove
  that no step does.
* Operations the C++ language leaves undefined (a read past the end of a buffer, a store
  to `scratch[15]` and beyond, `memcpy` between overlapping regions, a shift by 32 bits or
  more, a call through a null phase pointer) give `Outcome.undef`.
* The two loops that are not bounded by the input (`while ( src_span )` in
  `elz4_decompress` and `while ( src )` in `phase_decompress_block`) take a fuel argument;
  `Outcome.fuelOut` means the loop was still running when the fuel ran out.
* The `printf` in `STATE_COPY_MATCH` writes to the standard output only and is left out.
-/

namespace Elz4

/-! ## Data model -/

/-- Result codes, `enum elz4_result` of `elz4.h`. -/
inductive elz4_result where
  | ELZ4_RESULT_OK
  | ELZ4_RESULT_EOF
  | ELZ4_RESULT_INVALID_HEADER
  | ELZ4_RESULT_INVALID_BLOCK_SIZE
deriving DecidableEq, Repr

/-- The values the `phase_func` pointer of a context takes: null or one of the five
phase functions. -/
inductive phase_func_t where
  | nullptr
  | phase_header
  | phase_block_size
  | phase_crc32
  | phase_decompress_block
  | phase_memcpy_block
deriving DecidableEq, Repr

/-- The decode context, `elz4_ctx` of `elz4.h`. -/
structure elz4_ctx where
  phase_func : phase_func_t
  current_block_size : Nat
  scratch : List Nat
  scratch_size : Nat
  flags : Nat
  current_token : Nat
deriving DecidableEq, Repr

/-- A context as the caller creates it, `elz4_ctx ctx = { 0 }`. -/
def ctx_zero : elz4_ctx :=
  { phase_func := .nullptr, current_block_size := 0, scratch := List.replicate 15 0,
    scratch_size := 0, flags := 0, current_token := 0 }

/-- What a computation does: it returns, it runs into undefined behaviour, or it is still
looping when the fuel is used up. -/
inductive Outcome (α : Type) where
  | ret (a : α)
  | undef
  | fuelOut
deriving DecidableEq, Repr

def ELZ4_FLAG_DICT : Nat := 2
def ELZ4_FLAG_CONTENT_CRC32 : Nat := 4
def ELZ4_FLAG_CONTENT_SIZE : Nat := 8
def ELZ4_FLAG_BLOCK_CRC32 : Nat := 16

/-- The input span, `span<const uint8_t>`: `data` holds the bytes from the data pointer to
the end of the buffer, `pos` is how far the pointer has moved, `size` is the size field. -/
structure span where
  data : List Nat
  pos : Nat
  size : Nat
deriving DecidableEq, Repr

/-- The output span, `span<uint8_t>`: `mem` holds the bytes of the output buffer that lie
before the data pointer (they are what a match copy reads back), `pos` is how far the
pointer has moved, `size` is the size field. -/
structure wspan where
  mem : List Nat
  pos : Nat
  size : Nat
deriving DecidableEq, Repr

/-- Member `span::next`: eat one element and return it. -/
def span.next (s : span) : Option (Nat × span) :=
  match s.data with
  | [] => none
  | b :: rest => some (b, { data := rest, pos := s.pos + 1, size := s.size - 1 })

/-- Member `span::operator+=`: skip `n` elements. -/
def span.skip (s : span) (n : Nat) : span :=
  { data := s.data.drop n, pos := s.pos + n, size := s.size - n }

/-- Member `span::operator+=` on the output span, after the `n` bytes `bs` were stored. -/
def wspan.skip (d : wspan) (bs : List Nat) (n : Nat) : wspan :=
  { mem := d.mem ++ bs, pos := d.pos + n, size := d.size - n }

/-- Little-endian `uint32_t` load from the scratch bytes `i .. i+3`. -/
def rd32 (s : List Nat) (i : Nat) : Nat :=
  s.getD i 0 + 256 * s.getD (i + 1) 0 + 65536 * s.getD (i + 2) 0 + 16777216 * s.getD (i + 3) 0

/-- Little-endian `uint32_t` store of `v` (reduced modulo `2 ^ 32`) to the scratch bytes
`i .. i+3`. -/
def wr32 (s : List Nat) (i v : Nat) : List Nat :=
  (((s.set i (v % 256)).set (i + 1) (v / 256 % 256)).set (i + 2) (v / 65536 % 256)).set
    (i + 3) (v / 16777216 % 256)

/-- Subtraction of `uint32_t` values: `a -= ( uint32_t )b`. -/
def sub32 (a b : Nat) : Nat := (a + 4294967296 - b % 4294967296) % 4294967296

/-- Function `set_phase`. -/
def set_phase (ctx : elz4_ctx) (phase_func : phase_func_t) : elz4_ctx :=
  { ctx with scratch_size := 0, phase_func := phase_func }

/-! ## The scratch accumulator -/

/-- The `while` loop of `FILL_AND_CHECK_SCRATCH_AREA( _NumBytes )`:
`while ( ctx->scratch_size < N && src ) ctx->scratch[ctx->scratch_size++] = src.next();`.
The scratch array has 15 elements, so a store at index 15 or above is undefined. -/
def fill_loop (numBytes : Nat) : List Nat → Nat → Nat → elz4_ctx → Outcome (elz4_ctx × span)
  | [], pos, size, ctx =>
    if ctx.scratch_size < numBytes ∧ 0 < size then .undef
    else .ret (ctx, { data := [], pos := pos, size := size })
  | b :: rest, pos, size, ctx =>
    if ctx.scratch_size < numBytes ∧ 0 < size then
      if ctx.scratch_size < 15 then
        fill_loop numBytes rest (pos + 1) (size - 1)
          { ctx with scratch := ctx.scratch.set ctx.scratch_size b,
                     scratch_size := ctx.scratch_size + 1 }
      else .undef
    else .ret (ctx, { data := b :: rest, pos := pos, size := size })

/-- The loop of `FILL_AND_CHECK_SCRATCH_AREA` on a context and a span; the test
`if ( ctx->scratch_size != N ) return ELZ4_RESULT_OK;` is written out in each phase. -/
def FILL_AND_CHECK_SCRATCH_AREA (numBytes : Nat) (ctx : elz4_ctx) (src : span) :
    Outcome (elz4_ctx × span) :=
  fill_loop numBytes src.data src.pos src.size ctx

/-! ## Frame-level phases -/

/-- What a phase function hands back: its result and the updated context and spans. -/
abbrev phase_ret := elz4_result × elz4_ctx × span × wspan

/-- Function `phase_header`. -/
def phase_header (ctx : elz4_ctx) (src : span) (dst : wspan) : Outcome phase_ret :=
  match FILL_AND_CHECK_SCRATCH_AREA 6 ctx src with
  | .undef => .undef
  | .fuelOut => .fuelOut
  | .ret (ctx1, src1) =>
    if ctx1.scratch_size ≠ 6 then .ret (.ELZ4_RESULT_OK, ctx1, src1, dst)
    else
      let magic := rd32 ctx1.scratch 0
      if magic ≠ 0x184D2204 then .ret (.ELZ4_RESULT_INVALID_HEADER, ctx1, src1, dst)
      else
        let ctx2 := { ctx1 with flags := ctx1.scratch.getD 4 0 }
        let additionalBytes :=
          1 + (if ctx2.flags &&& ELZ4_FLAG_CONTENT_SIZE ≠ 0 then 8 else 0)
            + (if ctx2.flags &&& ELZ4_FLAG_DICT ≠ 0 then 4 else 0)
        match FILL_AND_CHECK_SCRATCH_AREA (6 + additionalBytes) ctx2 src1 with
        | .undef => .undef
        | .fuelOut => .fuelOut
        | .ret (ctx3, src2) =>
          if ctx3.scratch_size ≠ 6 + additionalBytes then .ret (.ELZ4_RESULT_OK, ctx3, src2, dst)
          else .ret (.ELZ4_RESULT_OK, set_phase ctx3 .phase_block_size, src2, dst)

/-- Function `phase_block_size`. -/
def phase_block_size (ctx : elz4_ctx) (src : span) (dst : wspan) : Outcome phase_ret :=
  match FILL_AND_CHECK_SCRATCH_AREA 4 ctx src with
  | .undef => .undef
  | .fuelOut => .fuelOut
  | .ret (ctx1, src1) =>
    if ctx1.scratch_size ≠ 4 then .ret (.ELZ4_RESULT_OK, ctx1, src1, dst)
    else
      let blockSize := rd32 ctx1.scratch 0
      if blockSize = 0 then .ret (.ELZ4_RESULT_EOF, ctx1, src1, dst)
      else
        let ctx2 := { ctx1 with current_block_size := blockSize % 2147483648 }
        .ret (.ELZ4_RESULT_OK,
          set_phase ctx2
            (if blockSize / 2147483648 ≠ 0 then .phase_memcpy_block else .phase_decompress_block),
          src1, dst)

/-- Function `phase_crc32`. -/
def phase_crc32 (ctx : elz4_ctx) (src : span) (dst : wspan) : Outcome phase_ret :=
  match FILL_AND_CHECK_SCRATCH_AREA 4 ctx src with
  | .undef => .undef
  | .fuelOut => .fuelOut
  | .ret (ctx1, src1) =>
    if ctx1.scratch_size ≠ 4 then .ret (.ELZ4_RESULT_OK, ctx1, src1, dst)
    else .ret (.ELZ4_RESULT_OK, set_phase ctx1 .phase_block_size, src1, dst)

/-- Function `phase_memcpy_block`: the body is `return ELZ4_RESULT_OK;`. -/
def phase_memcpy_block (ctx : elz4_ctx) (src : span) (dst : wspan) : Outcome phase_ret :=
  .ret (.ELZ4_RESULT_OK, ctx, src, dst)

/-! ## The block decoder -/

def STATE_READ_TOKEN : Nat := 0
def STATE_READ_LITERALS_LENGTH : Nat := 1
def STATE_COPY_LITERALS : Nat := 2
def STATE_READ_OFFSET : Nat := 3
def STATE_READ_MATCH_LENGTH : Nat := 4
def STATE_COPY_MATCH : Nat := 5

/-- The loop shared by `STATE_READ_LITERALS_LENGTH` (on `scratchU32[0]`, byte offset 0) and
`STATE_READ_MATCH_LENGTH` (on `scratchU32[1]`, byte offset 4):
`while ( src ) { scratchU32[k] += token = src.next(); if ( token != 0xFF ) { phase = next; break; } }`. -/
def read_length_loop (slot nextPhase : Nat) :
    List Nat → Nat → Nat → elz4_ctx → Outcome (elz4_ctx × span)
  | [], pos, size, ctx =>
    if 0 < size then .undef else .ret (ctx, { data := [], pos := pos, size := size })
  | b :: rest, pos, size, ctx =>
    if 0 < size then
      if b ≠ 0xFF then
        .ret ({ ctx with scratch := wr32 ctx.scratch slot (rd32 ctx.scratch slot + b),
                         scratch_size := nextPhase },
              { data := rest, pos := pos + 1, size := size - 1 })
      else
        read_length_loop slot nextPhase rest (pos + 1) (size - 1)
          { ctx with scratch := wr32 ctx.scratch slot (rd32 ctx.scratch slot + b) }
    else .ret (ctx, { data := b :: rest, pos := pos, size := size })

/-- The closing statement of the loop body of `phase_decompress_block`:
`ctx->current_block_size -= ( uint32_t )( origSrcSize - src.size );`. -/
def account (ctx : elz4_ctx) (origSrcSize : Nat) (src : span) : elz4_ctx :=
  { ctx with current_block_size := sub32 ctx.current_block_size (origSrcSize - src.size) }

/-- The library call `memcpy( dst.data, dst.data - offset, numBytes )` of `STATE_COPY_MATCH`,
by the contract of `memcpy`: the source region must lie inside the output buffer and must
not overlap the destination, otherwise the behaviour is undefined.  The source region is
the `numBytes` bytes starting `offset` bytes before the write pointer; it overlaps the
destination exactly when `offset < numBytes`. -/
def memcpy_match (mem : List Nat) (offset numBytes : Nat) : Option (List Nat) :=
  if numBytes = 0 then some []
  else if mem.length < offset then none
  else if offset < numBytes then none
  else some ((mem.drop (mem.length - offset)).take numBytes)

/-- A step of the block decoder returns early (`some result`) or goes round the loop. -/
abbrev step_ret := Option elz4_result × elz4_ctx × span × wspan

/-- Case `STATE_READ_TOKEN`. -/
def step_read_token (ctx : elz4_ctx) (src : span) (dst : wspan) : Outcome step_ret :=
  match src.next with
  | none => .undef
  | some (token, src1) =>
    let lit := token / 16
    .ret (none,
      account
        { ctx with scratch := wr32 (List.replicate 15 0) 0 lit,
                   scratch_size := if lit < 15 then STATE_COPY_LITERALS
                                   else STATE_READ_LITERALS_LENGTH,
                   current_token := token }
        src.size src1,
      src1, dst)

/-- Case `STATE_READ_LITERALS_LENGTH`. -/
def step_read_literals_length (ctx : elz4_ctx) (src : span) (dst : wspan) : Outcome step_ret :=
  match read_length_loop 0 STATE_COPY_LITERALS src.data src.pos src.size ctx with
  | .undef => .undef
  | .fuelOut => .fuelOut
  | .ret (ctx1, src1) => .ret (none, account ctx1 src.size src1, src1, dst)

/-- Case `STATE_COPY_LITERALS`. -/
def step_copy_literals (ctx : elz4_ctx) (src : span) (dst : wspan) : Outcome step_ret :=
  let numBytes := min (min (rd32 ctx.scratch 0) src.size) dst.size
  if src.data.length < numBytes then .undef
  else
    let src1 := src.skip numBytes
    let dst1 := dst.skip (src.data.take numBytes) numBytes
    let lit1 := sub32 (rd32 ctx.scratch 0) numBytes
    let ctx1 := { ctx with scratch := wr32 ctx.scratch 0 lit1 }
    if lit1 = 0 then
      let ctx2 := account { ctx1 with scratch_size := STATE_READ_OFFSET } src.size src1
      if ctx2.current_block_size = 0 then
        .ret (some .ELZ4_RESULT_OK,
          set_phase ctx2
            (if ctx2.flags &&& ELZ4_FLAG_BLOCK_CRC32 ≠ 0 then .phase_crc32 else .phase_block_size),
          src1, dst1)
      else .ret (none, account ctx2 src1.size src1, src1, dst1)
    else .ret (none, account ctx1 src.size src1, src1, dst1)

/-- The tail of case `STATE_READ_OFFSET`: `if ( scratchU32[1] == 2 ) { ... }`. -/
def offset_done (ctx : elz4_ctx) : elz4_ctx :=
  if rd32 ctx.scratch 4 = 2 then
    let matchLength := (ctx.current_token &&& 0x0F) + 4
    { ctx with scratch := wr32 ctx.scratch 4 matchLength,
               scratch_size := if matchLength < 19 then STATE_COPY_MATCH
                               else STATE_READ_MATCH_LENGTH }
  else ctx

/-- Case `STATE_READ_OFFSET`.  In the byte-at-a-time branch the byte is shifted left by
`8 * scratchU32[1]` bits as an `int`; a shift by 32 bits or more is undefined. -/
def step_read_offset (ctx : elz4_ctx) (src : span) (dst : wspan) : Outcome step_ret :=
  if rd32 ctx.scratch 4 = 0 ∧ 2 ≤ src.size then
    match src.data with
    | b0 :: b1 :: _ =>
      let src1 := src.skip 2
      let ctx1 := { ctx with scratch := wr32 (wr32 ctx.scratch 0 (b0 + 256 * b1)) 4 2 }
      .ret (none, account (offset_done ctx1) src.size src1, src1, dst)
    | _ => .undef
  else if 0 < src.size then
    match src.next with
    | none => .undef
    | some (b, src1) =>
      let seen := rd32 ctx.scratch 4
      if 4 ≤ seen then .undef
      else
        let offset := rd32 ctx.scratch 0 ||| (b * 2 ^ (8 * seen))
        let ctx1 := { ctx with scratch := wr32 (wr32 ctx.scratch 0 offset) 4 (seen + 1) }
        .ret (none, account (offset_done ctx1) src.size src1, src1, dst)
  else .ret (none, account (offset_done ctx) src.size src, src, dst)

/-- Case `STATE_READ_MATCH_LENGTH`. -/
def step_read_match_length (ctx : elz4_ctx) (src : span) (dst : wspan) : Outcome step_ret :=
  match read_length_loop 4 STATE_COPY_MATCH src.data src.pos src.size ctx with
  | .undef => .undef
  | .fuelOut => .fuelOut
  | .ret (ctx1, src1) => .ret (none, account ctx1 src.size src1, src1, dst)

/-- Case `STATE_COPY_MATCH`. -/
def step_copy_match (ctx : elz4_ctx) (src : span) (dst : wspan) : Outcome step_ret :=
  let numBytes := min (rd32 ctx.scratch 4) dst.size
  match memcpy_match dst.mem (rd32 ctx.scratch 0) numBytes with
  | none => .undef
  | some bs =>
    let dst1 := dst.skip bs numBytes
    let len1 := sub32 (rd32 ctx.scratch 4) numBytes
    let ctx1 := { ctx with scratch := wr32 ctx.scratch 4 len1 }
    if len1 = 0 then
      .ret (none,
        account { ctx1 with scratch := wr32 ctx1.scratch 0 0, scratch_size := STATE_READ_TOKEN }
          src.size src,
        src, dst1)
    else .ret (none, account ctx1 src.size src, src, dst1)

/-- One pass through the body of the loop of `phase_decompress_block`: the `switch` on the
sub-state kept in `scratch_size`, then the block-size accounting.  A value of
`scratch_size` outside the six cases selects no case. -/
def block_step (ctx : elz4_ctx) (src : span) (dst : wspan) : Outcome step_ret :=
  if ctx.scratch_size = STATE_READ_TOKEN then step_read_token ctx src dst
  else if ctx.scratch_size = STATE_READ_LITERALS_LENGTH then step_read_literals_length ctx src dst
  else if ctx.scratch_size = STATE_COPY_LITERALS then step_copy_literals ctx src dst
  else if ctx.scratch_size = STATE_READ_OFFSET then step_read_offset ctx src dst
  else if ctx.scratch_size = STATE_READ_MATCH_LENGTH then step_read_match_length ctx src dst
  else if ctx.scratch_size = STATE_COPY_MATCH then step_copy_match ctx src dst
  else .ret (none, account ctx src.size src, src, dst)

/-- Function `phase_decompress_block`: `while ( src ) { ... } return ELZ4_RESULT_OK;`. -/
def phase_decompress_block : Nat → elz4_ctx → span → wspan → Outcome phase_ret
  | 0, ctx, src, dst =>
    if src.size = 0 then .ret (.ELZ4_RESULT_OK, ctx, src, dst) else .fuelOut
  | fuel + 1, ctx, src, dst =>
    if src.size = 0 then .ret (.ELZ4_RESULT_OK, ctx, src, dst)
    else
      match block_step ctx src dst with
      | .undef => .undef
      | .fuelOut => .fuelOut
      | .ret (some r, ctx1, src1, dst1) => .ret (r, ctx1, src1, dst1)
      | .ret (none, ctx1, src1, dst1) => phase_decompress_block fuel ctx1 src1 dst1

/-! ## The driver -/

/-- The call `phase_func( ctx, src_span, dst_span )` through the pointer kept in the
context. -/
def call_phase (fuel : Nat) (ctx : elz4_ctx) (src : span) (dst : wspan) : Outcome phase_ret :=
  match ctx.phase_func with
  | .nullptr => .undef
  | .phase_header => phase_header ctx src dst
  | .phase_block_size => phase_block_size ctx src dst
  | .phase_crc32 => phase_crc32 ctx src dst
  | .phase_decompress_block => phase_decompress_block fuel ctx src dst
  | .phase_memcpy_block => phase_memcpy_block ctx src dst

/-- The loop of `elz4_decompress`:
`while ( src_span ) { result = phase_func( ... ); if ( result != ELZ4_RESULT_OK ) break; }`. -/
def drive : Nat → elz4_result → elz4_ctx → span → wspan → Outcome phase_ret
  | 0, result, ctx, src, dst =>
    if src.size = 0 then .ret (result, ctx, src, dst) else .fuelOut
  | fuel + 1, result, ctx, src, dst =>
    if src.size = 0 then .ret (result, ctx, src, dst)
    else
      match call_phase fuel ctx src dst with
      | .undef => .undef
      | .fuelOut => .fuelOut
      | .ret (r, ctx1, src1, dst1) =>
        if r ≠ .ELZ4_RESULT_OK then .ret (r, ctx1, src1, dst1)
        else drive fuel r ctx1 src1 dst1

/-- What a call of `elz4_decompress` leaves behind: the result, the context, the values
stored to `*src_size` and `*dst_size`, and the output buffer up to the write pointer. -/
structure decompress_ret where
  result : elz4_result
  ctx : elz4_ctx
  src_size : Nat
  dst_size : Nat
  dst : List Nat
deriving DecidableEq, Repr

/-- Function `elz4_decompress`.  `src` is the input span (`*src_size` is its length), `dst`
is what the output buffer holds before the write pointer, `dst_size` is the free space
offered. -/
def elz4_decompress (fuel : Nat) (ctx : elz4_ctx) (src : List Nat) (dst : List Nat)
    (dst_size : Nat) : Outcome decompress_ret :=
  let src_span : span := { data := src, pos := 0, size := src.length }
  let dst_span : wspan := { mem := dst, pos := 0, size := dst_size }
  let ctx1 := if ctx.phase_func = .nullptr then { ctx with phase_func := .phase_header } else ctx
  match drive fuel .ELZ4_RESULT_OK ctx1 src_span dst_span with
  | .undef => .undef
  | .fuelOut => .fuelOut
  | .ret (r, ctx2, src2, dst2) =>
    .ret { result := r, ctx := ctx2, src_size := src2.pos, dst_size := dst2.pos, dst := dst2.mem }

/-! ## Concrete frames -/

/-- The 7-byte frame header `04 22 4D 18 40 40 00` (flags `0x40`, no optional field). -/
def header_plain : List Nat := [0x04, 0x22, 0x4D, 0x18, 0x40, 0x40, 0x00]

/-- An empty-payload frame whose flags byte `0x48` announces the 8-byte content size:
a 15-byte header and the end mark. -/
def frame_content_size : List Nat :=
  [0x04, 0x22, 0x4D, 0x18, 0x48, 0x40, 0, 0, 0, 0, 0, 0, 0, 0, 0, 0, 0, 0, 0]

/-- The context `frame_content_size` leaves behind once its first `n` bytes are in the
scratch area, for `6 ≤ n < 15`. -/
def ctx_in_header (n : Nat) : elz4_ctx :=
  { phase_func := .phase_header, current_block_size := 0,
    scratch := frame_content_size.take n ++ List.replicate (15 - n) 0, scratch_size := n,
    flags := 72, current_token := 0 }

/-- A frame whose flags byte `0x4A` sets both the content-size bit (bit 3) and the bit the
decoder reads as "dictionary present" (bit 1): 6 + 13 header bytes. -/
def frame_both_fields : List Nat :=
  [0x04, 0x22, 0x4D, 0x18, 0x4A, 0x40, 0, 0, 0, 0, 0, 0, 0, 0, 0, 0, 0, 0, 0]

/-- A frame with one compressed block holding the single literal `41`
(`04 22 4D 18 40 40 00 | 02 00 00 00 10 41 | 00 00 00 00`). -/
def frame_one_literal : List Nat := header_plain ++ [2, 0, 0, 0, 0x10, 0x41, 0, 0, 0, 0]

/-- A frame with one compressed block holding the two literals `41 42`. -/
def frame_two_literals : List Nat := header_plain ++ [3, 0, 0, 0, 0x20, 0x41, 0x42, 0, 0, 0, 0]

/-- A frame with one raw block (descriptor `0x80000001`) holding the byte `41`. -/
def frame_raw : List Nat := header_plain ++ [1, 0, 0, 0x80, 0x41, 0, 0, 0, 0]

/-- A frame with one compressed block: literals `41 42 43 44`, a match of offset 4 and
length 4 (source and destination of the copy do not overlap), then the literal `45`. -/
def frame_match : List Nat :=
  header_plain ++ [9, 0, 0, 0, 0x40, 0x41, 0x42, 0x43, 0x44, 0x04, 0x00, 0x10, 0x45, 0, 0, 0, 0]

/-- A frame with one compressed block: literal `41`, a match of offset 1 and length 5
(token `0x11`), then the literal `42`. -/
def frame_run : List Nat :=
  header_plain ++ [7, 0, 0, 0, 0x11, 0x41, 0x01, 0x00, 0x10, 0x42, 0, 0, 0, 0]

/-- The context after the end mark has been read in a frame with flags `f`, last token
`t` and scratch bytes 4..14 equal to `tail`. -/
def ctx_at_eof (f t : Nat) (tail : List Nat) : elz4_ctx :=
  { phase_func := .phase_block_size, current_block_size := 0, scratch := [0, 0, 0, 0] ++ tail,
    scratch_size := 4, flags := f, current_token := t }

/-- The state in which the end of the frame has been seen: the phase is `phase_block_size`,
four descriptor bytes are in the scratch area and their little-endian value is 0. -/
def at_eof (c : elz4_ctx) : Prop :=
  c.phase_func = .phase_block_size ∧ c.scratch_size = 4 ∧ rd32 c.scratch 0 = 0

/-- A sequence of calls of `elz4_decompress` on one context; each call comes with its input
span, the output buffer contents before the write pointer, and the free output space.  The
sequence stops at the first call that does not return. -/
def session (fuel : Nat) : elz4_ctx → List (List Nat × List Nat × Nat) →
    List (Outcome decompress_ret)
  | _, [] => []
  | ctx, (src, dst, dst_size) :: rest =>
    match elz4_decompress fuel ctx src dst dst_size with
    | .ret r => .ret r :: session fuel r.ctx rest
    | .undef => [.undef]
    | .fuelOut => [.fuelOut]

/-- The token of a sequence with `L` literals and no match: literal nibble `min L 15`,
match nibble 0. -/
def literals_token (L : Nat) : Nat := 16 * min L 15

/-- The length bytes that follow the token when `L ≥ 15`: the value `L - 15` written as
bytes `FF` followed by one final byte below `FF`. -/
def literal_length_bytes (L : Nat) : List Nat :=
  if L < 15 then [] else List.replicate ((L - 15) / 255) 0xFF ++ [(L - 15) % 255]

/-- The four bytes of the 32-bit value `d`, least significant first. -/
def le32_bytes (d : Nat) : List Nat :=
  [d % 256, d / 256 % 256, d / 65536 % 256, d / 16777216 % 256]

/-- A compressed block made of one sequence that carries the literals `P` and no match. -/
def literals_block (P : List Nat) : List Nat :=
  literals_token P.length :: (literal_length_bytes P.length ++ P)

/-- The frame of a literals-only block: plain header, block descriptor with the length of
the block, the block, and the end mark `00 00 00 00`. -/
def literals_frame (P : List Nat) : List Nat :=
  header_plain ++ (le32_bytes (literals_block P).length ++ (literals_block P ++ [0, 0, 0, 0]))

/-- The context once the plain header `04 22 4D 18 40 40 00` has been read. -/
def ctx_after_header : elz4_ctx :=
  { phase_func := .phase_block_size, current_block_size := 0,
    scratch := [0x04, 0x22, 0x4D, 0x18, 0x40, 0x40, 0x00, 0, 0, 0, 0, 0, 0, 0, 0],
    scratch_size := 0, flags := 0x40, current_token := 0 }

/-- The header has been accepted: the phase pointer is neither null nor `phase_header`. -/
def past_header (c : elz4_ctx) : Prop :=
  c.phase_func ≠ .nullptr ∧ c.phase_func ≠ .phase_header

/-- The facts about a step that the claims on block accounting and on the end of a block
share: the flags are kept, the block size goes down by the bytes consumed (modulo `2^32`),
the input span does not grow, a step that goes round the loop keeps the phase, and a step
that returns is a literal copy that ended with block size 0. -/
def step_facts (ctx : elz4_ctx) (src : span) (o : Option elz4_result) (c : elz4_ctx) (s : span) :
    Prop :=
  c.flags = ctx.flags ∧
  c.current_block_size = sub32 ctx.current_block_size (src.size - s.size) ∧
  s.size ≤ src.size ∧
  (o = none → c.phase_func = ctx.phase_func) ∧
  (∀ r, o = some r →
    r = .ELZ4_RESULT_OK ∧ ctx.scratch_size = STATE_COPY_LITERALS ∧ c.current_block_size = 0 ∧
      c.scratch_size = 0 ∧
      c.phase_func =
        if ctx.flags &&& ELZ4_FLAG_BLOCK_CRC32 ≠ 0 then .phase_crc32 else .phase_block_size)

/-- The context after the plain header, a descriptor of 9 bytes, the token `40`, four
literals and the offset `04 00`: a match of 4 bytes at offset 4 is waiting to be copied. -/
def ctx_match_pending : elz4_ctx :=
  { phase_func := .phase_decompress_block, current_block_size := 2,
    scratch := [4, 0, 0, 0, 4, 0, 0, 0, 0, 0, 0, 0, 0, 0, 0],
    scratch_size := STATE_COPY_MATCH, flags := 0x40, current_token := 0x40 }

/-- The plain header and a block whose descriptor announces 7 bytes: the token `40`, four
literals and the offset `04 00`, so that the announced size ends after the offset. -/
def frame_block_ends_in_match : List Nat :=
  header_plain ++ [7, 0, 0, 0, 0x40, 0x41, 0x42, 0x43, 0x44, 0x04, 0x00]

/-- The context `frame_block_ends_in_match` leaves behind: the block size is used up and a
match of 4 bytes at offset 4 is waiting to be copied. -/
def ctx_block_spent : elz4_ctx :=
  { phase_func := .phase_decompress_block, current_block_size := 0,
    scratch := [4, 0, 0, 0, 4, 0, 0, 0, 0, 0, 0, 0, 0, 0, 0],
    scratch_size := STATE_COPY_MATCH, flags := 0x40, current_token := 0x40 }

/-- A context inside a block of a frame with block checksums (flags `0x50`): the token `10`
has been read, one literal is to be copied and the block size stands at 1. -/
def ctx_last_literal : elz4_ctx :=
  { phase_func := .phase_decompress_block, current_block_size := 1,
    scratch := [1, 0, 0, 0, 0, 0, 0, 0, 0, 0, 0, 0, 0, 0, 0],
    scratch_size := STATE_COPY_LITERALS, flags := 0x50, current_token := 0x10 }

/-- The context `ctx_last_literal` turns into once its literal is copied: the block is
over and its checksum is expected. -/
def ctx_block_checksum : elz4_ctx :=
  { phase_func := .phase_crc32, current_block_size := 0,
    scratch := [0, 0, 0, 0, 0, 0, 0, 0, 0, 0, 0, 0, 0, 0, 0],
    scratch_size := 0, flags := 0x50, current_token := 0x10 }

/-- The context after the first 16 bytes of `frame_match` (header, descriptor, token `40`,
four literals): the two offset bytes are expected next. -/
def ctx_offset_pending : elz4_ctx :=
  { phase_func := .phase_decompress_block, current_block_size := 4,
    scratch := [0, 0, 0, 0, 0, 0, 0, 0, 0, 0, 0, 0, 0, 0, 0],
    scratch_size := STATE_READ_OFFSET, flags := 0x40, current_token := 0x40 }

/-- The context after the plain header and the descriptor `01 00 00 80` of a raw block of
one byte. -/
def ctx_raw_block : elz4_ctx :=
  { phase_func := .phase_memcpy_block, current_block_size := 1,
    scratch := [1, 0, 0, 0x80, 0x40, 0x40, 0, 0, 0, 0, 0, 0, 0, 0, 0],
    scratch_size := 0, flags := 0x40, current_token := 0 }

/-- The twenty literals `41 42 .. 54`. -/
def twenty_literals : List Nat := (List.range 20).map fun i => 0x41 + i

/-- A frame with one compressed block of 27 bytes: token `FF`, literal length byte `05`
(20 literals), the literals `41 .. 54`, offset `14 00` (20), match length byte `01`
(match length 15 + 4 + 1 = 20, so the copy does not overlap), then token `10` and the
literal `5A`. -/
def frame_long_match : List Nat :=
  header_plain ++ [27, 0, 0, 0, 0xFF, 0x05] ++ twenty_literals ++
    [0x14, 0x00, 0x01, 0x10, 0x5A, 0, 0, 0, 0]

/-- The context after the first 15 bytes of `frame_both_fields`: the scratch area is full
and the header phase still asks for 19 bytes. -/
def ctx_scratch_full : elz4_ctx :=
  { phase_func := .phase_header, current_block_size := 0,
    scratch := [0x04, 0x22, 0x4D, 0x18, 0x4A, 0x40, 0, 0, 0, 0, 0, 0, 0, 0, 0],
    scratch_size := 15, flags := 0x4A, current_token := 0 }

/-- The unread part of a block payload, read the way the block decoder reads it from
sub-state `st`, ends with the last literal of a sequence.  `v` is the literal count in the
sub-states `STATE_READ_LITERALS_LENGTH` and `STATE_COPY_LITERALS` and the number of offset
bytes seen in `STATE_READ_OFFSET`; `tok` is the current token where it is still needed.
Every element has to be a byte.  The literal count is added up modulo `2 ^ 32`, as the
decoder does; a pending match copy reads no input, so `STATE_COPY_MATCH` is followed by a
token like `STATE_READ_TOKEN`; a payload that runs out anywhere but after the last literal
of a literal copy is refused. -/
def ends_with_literals : List Nat → Nat → Nat → Nat → Bool
  | [], _, _, _ => false
  | b :: r, st, v, tok =>
    if 256 ≤ b then false
    else if st = STATE_READ_TOKEN ∨ st = STATE_COPY_MATCH then
      ends_with_literals r
        (if b / 16 < 15 then STATE_COPY_LITERALS else STATE_READ_LITERALS_LENGTH) (b / 16) b
    else if st = STATE_READ_LITERALS_LENGTH then
      ends_with_literals r (if b ≠ 0xFF then STATE_COPY_LITERALS else STATE_READ_LITERALS_LENGTH)
        ((v + b) % 4294967296) tok
    else if st = STATE_COPY_LITERALS then
      if v = 0 then ends_with_literals r STATE_READ_OFFSET 1 tok
      else if v = 1 then r.isEmpty || ends_with_literals r STATE_READ_OFFSET 0 tok
      else ends_with_literals r STATE_COPY_LITERALS (v - 1) tok
    else if st = STATE_READ_OFFSET then
      if v = 0 then ends_with_literals r STATE_READ_OFFSET 1 tok
      else if v = 1 then
        ends_with_literals r
          (if (tok &&& 0x0F) + 4 < 19 then STATE_COPY_MATCH else STATE_READ_MATCH_LENGTH) 0 0
      else false
    else if st = STATE_READ_MATCH_LENGTH then
      ends_with_literals r (if b ≠ 0xFF then STATE_COPY_MATCH else STATE_READ_MATCH_LENGTH) 0 0
    else false

/-- A block payload that ends with the last literal of a sequence, read from the start of
the block. -/
def well_formed_block (payload : List Nat) : Bool :=
  ends_with_literals payload STATE_READ_TOKEN 0 0

/-- The scratch word the current sub-state counts with: the literal count while literals
are read or copied, the number of offset bytes seen while the offset is read. -/
def sub_state_count (ctx : elz4_ctx) : Nat :=
  if ctx.scratch_size = STATE_READ_LITERALS_LENGTH ∨ ctx.scratch_size = STATE_COPY_LITERALS then
    rd32 ctx.scratch 0
  else if ctx.scratch_size = STATE_READ_OFFSET then rd32 ctx.scratch 4
  else 0

/-- The current token, in the sub-states between the token and the end of the offset. -/
def sub_state_token (ctx : elz4_ctx) : Nat :=
  if ctx.scratch_size = STATE_READ_LITERALS_LENGTH ∨ ctx.scratch_size = STATE_COPY_LITERALS ∨
      ctx.scratch_size = STATE_READ_OFFSET then ctx.current_token
  else 0

/-- The context is inside a block whose unread payload `rest` ends with the last literal of
a sequence: the scratch area has its 15 bytes, the second scratch word is still 0 while
literals are read or copied, and `rest` is accepted from the current sub-state. -/
def inside_well_formed_block (ctx : elz4_ctx) (rest : List Nat) : Prop :=
  ctx.scratch.length = 15 ∧
  ((ctx.scratch_size = STATE_READ_LITERALS_LENGTH ∨ ctx.scratch_size = STATE_COPY_LITERALS) →
    rd32 ctx.scratch 4 = 0) ∧
  ends_with_literals rest ctx.scratch_size (sub_state_count ctx) (sub_state_token ctx) = true

/-- What a sub-state step that took the input span from `src` to `s` does to a block whose
unread payload `rest` ends with the last literal of a sequence (`future` are the bytes that
arrive in later calls, `more` the bytes that follow the block): it consumes bytes of the
payload only; if it goes round the loop, the payload that is left is again accepted from the
new sub-state and the span still continues it; if it returns, all pending literals were
copied in this step. -/
def step_stays_in_block (ctx : elz4_ctx) (src : span) (rest future more : List Nat)
    (o : Option elz4_result) (c : elz4_ctx) (s : span) : Prop :=
  src.size - s.size ≤ rest.length ∧
  (o = none →
    inside_well_formed_block c (rest.drop (src.size - s.size)) ∧
      s.data ++ future = rest.drop (src.size - s.size) ++ more) ∧
  (∀ r, o = some r → rd32 ctx.scratch 0 = src.size - s.size)

/-- The context after the first 12 bytes of `frame_two_literals` (header, descriptor, token
`20`): two literals are to be copied and the block size stands at 2. -/
def ctx_two_literals_pending : elz4_ctx :=
  { phase_func := .phase_decompress_block, current_block_size := 2,
    scratch := [2, 0, 0, 0, 0, 0, 0, 0, 0, 0, 0, 0, 0, 0, 0],
    scratch_size := STATE_COPY_LITERALS, flags := 0x40, current_token := 0x20 }

/-! ## Unrolling the two fuelled loops -/

theorem drive_step_ok {fuel : Nat} {r : elz4_result} {ctx c1 : elz4_ctx} {src s1 : span}
    {dst d1 : wspan} (hs : src.size ≠ 0)
    (h : call_phase fuel ctx src dst = .ret (.ELZ4_RESULT_OK, c1, s1, d1)) :
    drive (fuel + 1) r ctx src dst = drive fuel .ELZ4_RESULT_OK c1 s1 d1 := by
  simp [drive, hs, h]

theorem drive_step_stop {fuel : Nat} {r r1 : elz4_result} {ctx c1 : elz4_ctx} {src s1 : span}
    {dst d1 : wspan} (hs : src.size ≠ 0) (hr : r1 ≠ .ELZ4_RESULT_OK)
    (h : call_phase fuel ctx src dst = .ret (r1, c1, s1, d1)) :
    drive (fuel + 1) r ctx src dst = .ret (r1, c1, s1, d1) := by
  simp [drive, hs, h, hr]

theorem drive_step_fuelOut {fuel : Nat} {r : elz4_result} {ctx : elz4_ctx} {src : span}
    {dst : wspan} (h : call_phase fuel ctx src dst = .fuelOut) (hs : src.size ≠ 0) :
    drive (fuel + 1) r ctx src dst = .fuelOut := by
  simp [drive, hs, h]

theorem drive_step_undef {fuel : Nat} {r : elz4_result} {ctx : elz4_ctx} {src : span}
    {dst : wspan} (h : call_phase fuel ctx src dst = .undef) (hs : src.size ≠ 0) :
    drive (fuel + 1) r ctx src dst = .undef := by
  simp [drive, hs, h]

theorem drive_done {fuel : Nat} {r : elz4_result} {ctx : elz4_ctx} {src : span} {dst : wspan}
    (hs : src.size = 0) : drive fuel r ctx src dst = .ret (r, ctx, src, dst) := by
  cases fuel <;> simp [drive, hs]

theorem block_loop_step {fuel : Nat} {ctx c1 : elz4_ctx} {src s1 : span} {dst d1 : wspan}
    (hs : src.size ≠ 0) (h : block_step ctx src dst = .ret (none, c1, s1, d1)) :
    phase_decompress_block (fuel + 1) ctx src dst = phase_decompress_block fuel c1 s1 d1 := by
  simp [phase_decompress_block, hs, h]

theorem block_loop_return {fuel : Nat} {r : elz4_result} {ctx c1 : elz4_ctx} {src s1 : span}
    {dst d1 : wspan} (hs : src.size ≠ 0) (h : block_step ctx src dst = .ret (some r, c1, s1, d1)) :
    phase_decompress_block (fuel + 1) ctx src dst = .ret (r, c1, s1, d1) := by
  simp [phase_decompress_block, hs, h]

theorem block_loop_undef {fuel : Nat} {ctx : elz4_ctx} {src : span} {dst : wspan}
    (hs : src.size ≠ 0) (h : block_step ctx src dst = .undef) :
    phase_decompress_block (fuel + 1) ctx src dst = .undef := by
  simp [phase_decompress_block, hs, h]

theorem block_loop_done {fuel : Nat} {ctx : elz4_ctx} {src : span} {dst : wspan}
    (hs : src.size = 0) :
    phase_decompress_block fuel ctx src dst = .ret (.ELZ4_RESULT_OK, ctx, src, dst) := by
  cases fuel <;> simp [phase_decompress_block, hs]

/-! ## Loops that make no progress -/

/-- A phase that hands back the context and both spans unchanged, on a non-empty input
span, keeps the driver loop running for ever. -/
theorem drive_stuck (ctx : elz4_ctx) (src : span) (dst : wspan) (hs : src.size ≠ 0)
    (h : ∀ f, call_phase f ctx src dst = .ret (.ELZ4_RESULT_OK, ctx, src, dst)) :
    ∀ fuel r, drive fuel r ctx src dst = .fuelOut := by
  intro fuel
  induction fuel with
  | zero => intro r; simp [drive, hs]
  | succ n ih => intro r; rw [drive_step_ok hs (h n)]; exact ih _

/-- A sub-state step that changes nothing, on a non-empty input span, keeps the loop of
the block decoder running for ever. -/
theorem block_stuck (ctx : elz4_ctx) (src : span) (dst : wspan) (hs : src.size ≠ 0)
    (h : block_step ctx src dst = .ret (none, ctx, src, dst)) :
    ∀ fuel, phase_decompress_block fuel ctx src dst = .fuelOut := by
  intro fuel
  induction fuel with
  | zero => simp [phase_decompress_block, hs]
  | succ n ih => rw [block_loop_step hs h]; exact ih

/-- The driver never returns when its phase never does. -/
theorem drive_fuelOut_of_phase (ctx : elz4_ctx) (src : span) (dst : wspan) (hs : src.size ≠ 0)
    (h : ∀ f, call_phase f ctx src dst = .fuelOut) :
    ∀ fuel r, drive fuel r ctx src dst = .fuelOut := by
  intro fuel r
  cases fuel with
  | zero => simp [drive, hs]
  | succ n => exact drive_step_fuelOut (h n) hs

theorem elz4_decompress_of_drive (fuel : Nat) (ctx : elz4_ctx) (src dst : List Nat)
    (dst_size : Nat) :
    elz4_decompress fuel ctx src dst dst_size =
      match drive fuel .ELZ4_RESULT_OK
          (if ctx.phase_func = .nullptr then { ctx with phase_func := .phase_header } else ctx)
          { data := src, pos := 0, size := src.length } { mem := dst, pos := 0, size := dst_size } with
      | .undef => .undef
      | .fuelOut => .fuelOut
      | .ret (r, ctx2, src2, dst2) =>
        .ret { result := r, ctx := ctx2, src_size := src2.pos, dst_size := dst2.pos,
               dst := dst2.mem } := rfl

/-- Resuming the header phase with more than six bytes in the scratch area and input
waiting never returns. -/
theorem header_resume_stuck (n : Nat) (h6 : 6 < n) (src dst : List Nat) (dst_size : Nat)
    (hsrc : src ≠ []) (ctx : elz4_ctx) (hp : ctx.phase_func = .phase_header)
    (hn : ctx.scratch_size = n) :
    ∀ fuel, elz4_decompress fuel ctx src dst dst_size = .fuelOut := by
  intro fuel
  rw [elz4_decompress_of_drive]
  have hnn : ctx.phase_func ≠ .nullptr := by rw [hp]; decide
  rw [if_neg hnn]
  have hlen : src.length ≠ 0 := by
    cases src with
    | nil => exact absurd rfl hsrc
    | cons a t => simp
  rw [drive_stuck ctx _ _ hlen]
  intro f
  have hfill : ∀ (data : List Nat) (pos size : Nat),
      fill_loop 6 data pos size ctx = .ret (ctx, { data := data, pos := pos, size := size }) := by
    intro data pos size
    have : ¬ (ctx.scratch_size < 6 ∧ 0 < size) := by omega
    cases data <;> simp [fill_loop, this]
  have hne : ctx.scratch_size ≠ 6 := by omega
  simp [call_phase, hp, phase_header, FILL_AND_CHECK_SCRATCH_AREA, hfill, hne]

theorem elz4_decompress_fuelOut {fuel : Nat} {ctx : elz4_ctx} {src dst : List Nat}
    {dst_size : Nat}
    (h : drive fuel .ELZ4_RESULT_OK
          (if ctx.phase_func = .nullptr then { ctx with phase_func := .phase_header } else ctx)
          { data := src, pos := 0, size := src.length } { mem := dst, pos := 0, size := dst_size }
        = .fuelOut) :
    elz4_decompress fuel ctx src dst dst_size = .fuelOut := by
  rw [elz4_decompress_of_drive, h]

theorem elz4_decompress_undef {fuel : Nat} {ctx : elz4_ctx} {src dst : List Nat}
    {dst_size : Nat}
    (h : drive fuel .ELZ4_RESULT_OK
          (if ctx.phase_func = .nullptr then { ctx with phase_func := .phase_header } else ctx)
          { data := src, pos := 0, size := src.length } { mem := dst, pos := 0, size := dst_size }
        = .undef) :
    elz4_decompress fuel ctx src dst dst_size = .undef := by
  rw [elz4_decompress_of_drive, h]

/-! ## The scratch accumulator: basic facts -/

theorem fill_loop_full (n : Nat) (data : List Nat) (pos size : Nat) (ctx : elz4_ctx)
    (h : n ≤ ctx.scratch_size) :
    fill_loop n data pos size ctx = .ret (ctx, { data := data, pos := pos, size := size }) := by
  have h1 : ¬ (ctx.scratch_size < n ∧ 0 < size) := by omega
  cases data <;> simp [fill_loop, h1]

theorem fill_loop_drained (n : Nat) (data : List Nat) (pos : Nat) (ctx : elz4_ctx) :
    fill_loop n data pos 0 ctx = .ret (ctx, { data := data, pos := pos, size := 0 }) := by
  cases data <;> simp [fill_loop]

/-! ## More fuel does not change a result -/

theorem phase_decompress_block_fuel_succ (fuel : Nat) :
    ∀ (ctx : elz4_ctx) (src : span) (dst : wspan) (v : Outcome phase_ret),
      phase_decompress_block fuel ctx src dst = v → v ≠ .fuelOut →
        phase_decompress_block (fuel + 1) ctx src dst = v := by
  induction fuel with
  | zero =>
    intro ctx src dst v h hv
    by_cases hs : src.size = 0
    · rw [block_loop_done hs] at h
      rw [block_loop_done hs, h]
    · simp [phase_decompress_block, hs] at h
      exact absurd h.symm hv
  | succ n ih =>
    intro ctx src dst v h hv
    by_cases hs : src.size = 0
    · rw [block_loop_done hs] at h
      rw [block_loop_done hs, h]
    · cases hb : block_step ctx src dst with
      | undef => rw [block_loop_undef hs hb] at h; rw [block_loop_undef hs hb, h]
      | fuelOut =>
        simp [phase_decompress_block, hs, hb] at h
        exact absurd h.symm hv
      | ret p =>
        obtain ⟨o, c1, s1, d1⟩ := p
        cases o with
        | some r => rw [block_loop_return hs hb] at h; rw [block_loop_return hs hb, h]
        | none =>
          rw [block_loop_step hs hb] at h
          rw [block_loop_step hs hb]
          exact ih _ _ _ _ h hv

theorem call_phase_fuel_succ (fuel : Nat) (ctx : elz4_ctx) (src : span) (dst : wspan)
    (v : Outcome phase_ret) (h : call_phase fuel ctx src dst = v) (hv : v ≠ .fuelOut) :
    call_phase (fuel + 1) ctx src dst = v := by
  unfold call_phase at h ⊢
  cases hp : ctx.phase_func <;> simp only [hp] at h ⊢ <;> try exact h
  exact phase_decompress_block_fuel_succ _ _ _ _ _ h hv

theorem drive_fuel_succ (fuel : Nat) :
    ∀ (r : elz4_result) (ctx : elz4_ctx) (src : span) (dst : wspan) (v : Outcome phase_ret),
      drive fuel r ctx src dst = v → v ≠ .fuelOut → drive (fuel + 1) r ctx src dst = v := by
  induction fuel with
  | zero =>
    intro r ctx src dst v h hv
    by_cases hs : src.size = 0
    · rw [drive_done hs] at h
      rw [drive_done hs, h]
    · simp [drive, hs] at h
      exact absurd h.symm hv
  | succ n ih =>
    intro r ctx src dst v h hv
    by_cases hs : src.size = 0
    · rw [drive_done hs] at h
      rw [drive_done hs, h]
    · cases hc : call_phase n ctx src dst with
      | undef =>
        rw [drive_step_undef hc hs] at h
        rw [drive_step_undef (call_phase_fuel_succ _ _ _ _ _ hc (by simp)) hs, h]
      | fuelOut =>
        rw [drive_step_fuelOut hc hs] at h
        exact absurd h.symm hv
      | ret p =>
        obtain ⟨r1, c1, s1, d1⟩ := p
        have hc1 := call_phase_fuel_succ _ _ _ _ _ hc (by simp)
        by_cases hr : r1 = .ELZ4_RESULT_OK
        · subst hr
          rw [drive_step_ok hs hc] at h
          rw [drive_step_ok hs hc1]
          exact ih _ _ _ _ _ h hv
        · rw [drive_step_stop hs hr hc] at h
          rw [drive_step_stop hs hr hc1, h]

/-- Once `elz4_decompress` returns (or runs into undefined behaviour) with some amount of
fuel, it does the same with any larger amount. -/
theorem elz4_decompress_fuel_mono (n : Nat) (ctx : elz4_ctx) (src dst : List Nat)
    (dst_size : Nat) (v : Outcome decompress_ret)
    (h : elz4_decompress n ctx src dst dst_size = v) (hv : v ≠ .fuelOut) (k : Nat) :
    elz4_decompress (k + n) ctx src dst dst_size = v := by
  induction k with
  | zero => rw [Nat.zero_add]; exact h
  | succ k ih =>
    rw [elz4_decompress_of_drive] at ih ⊢
    rw [show k + 1 + n = (k + n) + 1 by omega]
    cases hd : drive (k + n) .ELZ4_RESULT_OK
        (if ctx.phase_func = .nullptr then { ctx with phase_func := .phase_header } else ctx)
        { data := src, pos := 0, size := src.length }
        { mem := dst, pos := 0, size := dst_size } with
    | fuelOut =>
      rw [hd] at ih
      exact absurd ih.symm hv
    | undef =>
      rw [drive_fuel_succ _ _ _ _ _ _ hd (by simp)]
      rw [hd] at ih
      exact ih
    | ret p =>
      rw [drive_fuel_succ _ _ _ _ _ _ hd (by simp)]
      rw [hd] at ih
      exact ih

theorem elz4_decompress_fuel_ret (n : Nat) (ctx : elz4_ctx) (src dst : List Nat)
    (dst_size : Nat) (r : decompress_ret)
    (h : elz4_decompress n ctx src dst dst_size = .ret r) (k : Nat) :
    elz4_decompress (k + n) ctx src dst dst_size = .ret r :=
  elz4_decompress_fuel_mono n ctx src dst dst_size _ h (by simp) k

theorem elz4_decompress_fuel_undef (n : Nat) (ctx : elz4_ctx) (src dst : List Nat)
    (dst_size : Nat) (h : elz4_decompress n ctx src dst dst_size = .undef) (k : Nat) :
    elz4_decompress (k + n) ctx src dst dst_size = .undef :=
  elz4_decompress_fuel_mono n ctx src dst dst_size _ h (by simp) k

theorem set_take_succ (s : List Nat) (i b : Nat) (h : i < s.length) :
    (s.set i b).take (i + 1) = s.take i ++ [b] := by
  rw [List.set_eq_take_append_cons_drop, if_pos h]
  rw [List.take_append_eq_append_take]
  simp [List.take_take, List.length_take, Nat.min_eq_left (Nat.le_of_lt h)]

/-- The scratch accumulator stores the bytes it is given one after the other: with `k`
bytes in the scratch area, input `xs ++ rest`, and `xs` either completing the `n` bytes
asked for or draining the span, the bytes `xs` land at indices `k ..` and the span moves
past them. -/
theorem fill_loop_append (n : Nat) (xs : List Nat) :
    ∀ (rest : List Nat) (pos size : Nat) (ctx : elz4_ctx),
      ctx.scratch_size + xs.length ≤ n → n ≤ 15 → ctx.scratch.length = 15 → xs.length ≤ size →
      (ctx.scratch_size + xs.length = n ∨ size = xs.length) →
      fill_loop n (xs ++ rest) pos size ctx =
        .ret ({ ctx with
                  scratch := ctx.scratch.take ctx.scratch_size ++ xs ++
                    ctx.scratch.drop (ctx.scratch_size + xs.length),
                  scratch_size := ctx.scratch_size + xs.length },
              { data := rest, pos := pos + xs.length, size := size - xs.length }) := by
  induction xs with
  | nil =>
    intro rest pos size ctx h1 h2 h3 h4 h5
    simp only [List.length_nil, Nat.add_zero, List.nil_append, List.append_nil,
      List.take_append_drop, Nat.sub_zero]
    rcases h5 with h5 | h5
    · exact fill_loop_full _ _ _ _ _ (by simp at h5; omega)
    · simp only [List.length_nil] at h5
      subst h5
      exact fill_loop_drained _ _ _ _
  | cons x xs ih =>
    intro rest pos size ctx h1 h2 h3 h4 h5
    simp only [List.length_cons] at h1 h4 h5
    have hc : ctx.scratch_size < n ∧ 0 < size := by omega
    have h15 : ctx.scratch_size < 15 := by omega
    rw [List.cons_append, fill_loop, if_pos hc, if_pos h15]
    rw [ih]
    · simp only [List.length_cons, Outcome.ret.injEq, Prod.mk.injEq, span.mk.injEq,
        elz4_ctx.mk.injEq, true_and, and_true]
      refine ⟨⟨?_, by omega⟩, by omega, by omega⟩
      rw [set_take_succ _ _ _ (by omega), List.drop_set_of_lt _ _ (by omega)]
      simp [Nat.add_assoc, Nat.add_comm 1]
    · simp only; omega
    · exact h2
    · simp only [List.length_set]; exact h3
    · omega
    · simp only; omega

/-! ## Little-endian words in the scratch area -/

theorem getD_lt_of_bytes (s : List Nat) (h : ∀ b ∈ s, b < 256) (i : Nat) : s.getD i 0 < 256 := by
  by_cases hi : i < s.length
  · rw [List.getD_eq_getElem _ _ hi]
    exact h _ (List.getElem_mem _)
  · rw [List.getD_eq_default _ _ (by omega)]
    decide

theorem rd32_lt (s : List Nat) (h : ∀ b ∈ s, b < 256) (i : Nat) : rd32 s i < 4294967296 := by
  have h0 := getD_lt_of_bytes s h i
  have h1 := getD_lt_of_bytes s h (i + 1)
  have h2 := getD_lt_of_bytes s h (i + 2)
  have h3 := getD_lt_of_bytes s h (i + 3)
  unfold rd32
  omega

theorem rd32_append_left (s t : List Nat) (i : Nat) (h : i + 4 ≤ s.length) :
    rd32 (s ++ t) i = rd32 s i := by
  unfold rd32
  rw [List.getD_append _ _ _ _ (by omega), List.getD_append _ _ _ _ (by omega),
    List.getD_append _ _ _ _ (by omega), List.getD_append _ _ _ _ (by omega)]

theorem getD_set_same (s : List Nat) (i b : Nat) (h : i < s.length) : (s.set i b).getD i 0 = b := by
  simp [List.getD_eq_getElem?_getD, List.getElem?_set, h]

theorem getD_set_other (s : List Nat) (i j b : Nat) (h : i ≠ j) :
    (s.set i b).getD j 0 = s.getD j 0 := by
  simp [List.getD_eq_getElem?_getD, List.getElem?_set, h]

theorem rd32_wr32_same (s : List Nat) (i v : Nat) (h : i + 4 ≤ s.length) :
    rd32 (wr32 s i v) i = v % 4294967296 := by
  unfold rd32 wr32
  rw [getD_set_other _ _ _ _ (by omega), getD_set_other _ _ _ _ (by omega),
    getD_set_other _ _ _ _ (by omega), getD_set_same _ _ _ (by omega),
    getD_set_other _ _ _ _ (by omega), getD_set_other _ _ _ _ (by omega),
    getD_set_same _ _ _ (by simp; omega),
    getD_set_other _ _ _ _ (by omega), getD_set_same _ _ _ (by simp; omega),
    getD_set_same _ _ _ (by simp; omega)]
  omega

theorem rd32_wr32_other (s : List Nat) (i j v : Nat) (h : i + 4 ≤ j ∨ j + 4 ≤ i) :
    rd32 (wr32 s i v) j = rd32 s j := by
  unfold rd32 wr32
  simp only [getD_set_other _ _ _ _ (show i ≠ j by omega),
    getD_set_other _ _ _ _ (show i ≠ j + 1 by omega),
    getD_set_other _ _ _ _ (show i ≠ j + 2 by omega),
    getD_set_other _ _ _ _ (show i ≠ j + 3 by omega),
    getD_set_other _ _ _ _ (show i + 1 ≠ j by omega),
    getD_set_other _ _ _ _ (show i + 1 ≠ j + 1 by omega),
    getD_set_other _ _ _ _ (show i + 1 ≠ j + 2 by omega),
    getD_set_other _ _ _ _ (show i + 1 ≠ j + 3 by omega),
    getD_set_other _ _ _ _ (show i + 2 ≠ j by omega),
    getD_set_other _ _ _ _ (show i + 2 ≠ j + 1 by omega),
    getD_set_other _ _ _ _ (show i + 2 ≠ j + 2 by omega),
    getD_set_other _ _ _ _ (show i + 2 ≠ j + 3 by omega),
    getD_set_other _ _ _ _ (show i + 3 ≠ j by omega),
    getD_set_other _ _ _ _ (show i + 3 ≠ j + 1 by omega),
    getD_set_other _ _ _ _ (show i + 3 ≠ j + 2 by omega),
    getD_set_other _ _ _ _ (show i + 3 ≠ j + 3 by omega)]

theorem wr32_wr32_same (s : List Nat) (i v w : Nat) : wr32 (wr32 s i v) i w = wr32 s i w := by
  unfold wr32
  apply List.ext_getElem?
  intro n
  simp only [List.getElem?_set, List.length_set]
  by_cases h3 : i + 3 = n <;> by_cases h2 : i + 2 = n <;> by_cases h1 : i + 1 = n <;>
    by_cases h0 : i = n <;> simp [h0, h1, h2, h3]

theorem wr32_mod (s : List Nat) (i v : Nat) : wr32 s i (v % 4294967296) = wr32 s i v := by
  unfold wr32
  have e0 : v % 4294967296 % 256 = v % 256 := by omega
  have e1 : v % 4294967296 / 256 % 256 = v / 256 % 256 := by omega
  have e2 : v % 4294967296 / 65536 % 256 = v / 65536 % 256 := by omega
  have e3 : v % 4294967296 / 16777216 % 256 = v / 16777216 % 256 := by omega
  rw [e0, e1, e2, e3]

theorem wr32_length (s : List Nat) (i v : Nat) : (wr32 s i v).length = s.length := by
  simp [wr32]

theorem wr32_congr (s : List Nat) (i v w : Nat) (h : v % 4294967296 = w % 4294967296) :
    wr32 s i v = wr32 s i w := by
  rw [← wr32_mod s i v, ← wr32_mod s i w, h]

theorem sub32_self (a : Nat) : sub32 a a = 0 := by
  unfold sub32
  have : a % 4294967296 ≤ a := Nat.mod_le _ _
  omega

theorem sub32_of_le (a b : Nat) (ha : a < 4294967296) (hb : b ≤ a) : sub32 a b = a - b := by
  unfold sub32
  omega

/-! ## Accounting: the spans never move past their ends -/

theorem fill_loop_span (n : Nat) (data : List Nat) :
    ∀ (pos size : Nat) (ctx c : elz4_ctx) (s : span),
      fill_loop n data pos size ctx = .ret (c, s) → s.pos + s.size = pos + size := by
  induction data with
  | nil =>
    intro pos size ctx c s h
    unfold fill_loop at h
    split at h
    · cases h
    · injection h with h; injection h with _ h; subst h; rfl
  | cons b rest ih =>
    intro pos size ctx c s h
    unfold fill_loop at h
    split at h
    · rename_i hc
      split at h
      · have := ih _ _ _ _ _ h
        omega
      · cases h
    · injection h with h; injection h with _ h; subst h; rfl

theorem read_length_loop_span (slot nextPhase : Nat) (data : List Nat) :
    ∀ (pos size : Nat) (ctx c : elz4_ctx) (s : span),
      read_length_loop slot nextPhase data pos size ctx = .ret (c, s) →
        s.pos + s.size = pos + size := by
  induction data with
  | nil =>
    intro pos size ctx c s h
    unfold read_length_loop at h
    split at h
    · cases h
    · injection h with h; injection h with _ h; subst h; rfl
  | cons b rest ih =>
    intro pos size ctx c s h
    unfold read_length_loop at h
    split at h
    · rename_i hc
      split at h
      · injection h with h; injection h with _ h; subst h
        show pos + 1 + (size - 1) = pos + size
        omega
      · have := ih _ _ _ _ _ h
        omega
    · injection h with h; injection h with _ h; subst h; rfl

theorem span_next_span (src : span) (b : Nat) (s : span) (hs : src.size ≠ 0)
    (h : src.next = some (b, s)) : s.pos + s.size = src.pos + src.size := by
  unfold span.next at h
  split at h
  · cases h
  · injection h with h; injection h with _ h; subst h
    show src.pos + 1 + (src.size - 1) = src.pos + src.size
    omega

theorem span_skip_span (src : span) (n : Nat) (hn : n ≤ src.size) :
    (src.skip n).pos + (src.skip n).size = src.pos + src.size := by
  show src.pos + n + (src.size - n) = src.pos + src.size
  omega

theorem wspan_skip_span (dst : wspan) (bs : List Nat) (n : Nat) (hn : n ≤ dst.size) :
    (dst.skip bs n).pos + (dst.skip bs n).size = dst.pos + dst.size := by
  show dst.pos + n + (dst.size - n) = dst.pos + dst.size
  omega

theorem phase_header_span (ctx c : elz4_ctx) (src s : span) (dst d : wspan) (r : elz4_result)
    (h : phase_header ctx src dst = .ret (r, c, s, d)) :
    s.pos + s.size = src.pos + src.size ∧ d = dst := by
  unfold phase_header FILL_AND_CHECK_SCRATCH_AREA at h
  split at h
  · cases h
  · cases h
  · rename_i c1 s1 h1
    have e1 := fill_loop_span _ _ _ _ _ _ _ h1
    split at h
    · simp only [Outcome.ret.injEq, Prod.mk.injEq] at h
      obtain ⟨-, -, rfl, rfl⟩ := h
      exact ⟨e1, rfl⟩
    · simp only at h
      split at h
      · simp only [Outcome.ret.injEq, Prod.mk.injEq] at h
        obtain ⟨-, -, rfl, rfl⟩ := h
        exact ⟨e1, rfl⟩
      · split at h
        · cases h
        · cases h
        · rename_i c3 s3 h3
          have e3 := fill_loop_span _ _ _ _ _ _ _ h3
          split_ifs at h <;>
          · simp only [Outcome.ret.injEq, Prod.mk.injEq] at h
            obtain ⟨-, -, rfl, rfl⟩ := h
            exact ⟨by omega, rfl⟩

theorem phase_block_size_span (ctx c : elz4_ctx) (src s : span) (dst d : wspan) (r : elz4_result)
    (h : phase_block_size ctx src dst = .ret (r, c, s, d)) :
    s.pos + s.size = src.pos + src.size ∧ d = dst := by
  unfold phase_block_size FILL_AND_CHECK_SCRATCH_AREA at h
  cases h1 : fill_loop 4 src.data src.pos src.size ctx with
  | undef => rw [h1] at h; cases h
  | fuelOut => rw [h1] at h; cases h
  | ret p =>
    obtain ⟨c1, s1⟩ := p
    rw [h1] at h
    have e1 := fill_loop_span _ _ _ _ _ _ _ h1
    simp only at h
    split_ifs at h <;>
    · simp only [Outcome.ret.injEq, Prod.mk.injEq] at h
      obtain ⟨-, -, rfl, rfl⟩ := h
      exact ⟨e1, rfl⟩

theorem phase_crc32_span (ctx c : elz4_ctx) (src s : span) (dst d : wspan) (r : elz4_result)
    (h : phase_crc32 ctx src dst = .ret (r, c, s, d)) :
    s.pos + s.size = src.pos + src.size ∧ d = dst := by
  unfold phase_crc32 FILL_AND_CHECK_SCRATCH_AREA at h
  cases h1 : fill_loop 4 src.data src.pos src.size ctx with
  | undef => rw [h1] at h; cases h
  | fuelOut => rw [h1] at h; cases h
  | ret p =>
    obtain ⟨c1, s1⟩ := p
    rw [h1] at h
    have e1 := fill_loop_span _ _ _ _ _ _ _ h1
    simp only at h
    split_ifs at h <;>
    · simp only [Outcome.ret.injEq, Prod.mk.injEq] at h
      obtain ⟨-, -, rfl, rfl⟩ := h
      exact ⟨e1, rfl⟩

theorem step_read_token_span (ctx c : elz4_ctx) (src s : span) (dst d : wspan)
    (o : Option elz4_result) (hs : src.size ≠ 0)
    (h : step_read_token ctx src dst = .ret (o, c, s, d)) :
    s.pos + s.size = src.pos + src.size ∧ d = dst := by
  unfold step_read_token at h
  split at h
  · cases h
  · rename_i token s1 h1
    simp only [Outcome.ret.injEq, Prod.mk.injEq] at h
    obtain ⟨-, -, rfl, rfl⟩ := h
    exact ⟨span_next_span _ _ _ hs h1, rfl⟩

theorem step_read_literals_length_span (ctx c : elz4_ctx) (src s : span) (dst d : wspan)
    (o : Option elz4_result)
    (h : step_read_literals_length ctx src dst = .ret (o, c, s, d)) :
    s.pos + s.size = src.pos + src.size ∧ d = dst := by
  unfold step_read_literals_length at h
  split at h
  · cases h
  · cases h
  · rename_i c1 s1 h1
    simp only [Outcome.ret.injEq, Prod.mk.injEq] at h
    obtain ⟨-, -, rfl, rfl⟩ := h
    exact ⟨read_length_loop_span _ _ _ _ _ _ _ _ h1, rfl⟩

theorem step_read_match_length_span (ctx c : elz4_ctx) (src s : span) (dst d : wspan)
    (o : Option elz4_result)
    (h : step_read_match_length ctx src dst = .ret (o, c, s, d)) :
    s.pos + s.size = src.pos + src.size ∧ d = dst := by
  unfold step_read_match_length at h
  split at h
  · cases h
  · cases h
  · rename_i c1 s1 h1
    simp only [Outcome.ret.injEq, Prod.mk.injEq] at h
    obtain ⟨-, -, rfl, rfl⟩ := h
    exact ⟨read_length_loop_span _ _ _ _ _ _ _ _ h1, rfl⟩

theorem step_copy_literals_span (ctx c : elz4_ctx) (src s : span) (dst d : wspan)
    (o : Option elz4_result)
    (h : step_copy_literals ctx src dst = .ret (o, c, s, d)) :
    s.pos + s.size = src.pos + src.size ∧ d.pos + d.size = dst.pos + dst.size := by
  unfold step_copy_literals at h
  simp only at h
  split_ifs at h <;>
  · simp only [Outcome.ret.injEq, Prod.mk.injEq] at h
    obtain ⟨-, -, rfl, rfl⟩ := h
    exact ⟨span_skip_span _ _ (by omega), wspan_skip_span _ _ _ (by omega)⟩

theorem step_read_offset_span (ctx c : elz4_ctx) (src s : span) (dst d : wspan)
    (o : Option elz4_result)
    (h : step_read_offset ctx src dst = .ret (o, c, s, d)) :
    s.pos + s.size = src.pos + src.size ∧ d = dst := by
  unfold step_read_offset at h
  split_ifs at h with h1 h2
  · split at h
    · simp only [Outcome.ret.injEq, Prod.mk.injEq] at h
      obtain ⟨-, -, rfl, rfl⟩ := h
      exact ⟨span_skip_span _ _ h1.2, rfl⟩
    · cases h
  · split at h
    · cases h
    · rename_i b s1 hn
      simp only at h
      split_ifs at h
      simp only [Outcome.ret.injEq, Prod.mk.injEq] at h
      obtain ⟨-, -, rfl, rfl⟩ := h
      exact ⟨span_next_span _ _ _ (by omega) hn, rfl⟩
  · simp only [Outcome.ret.injEq, Prod.mk.injEq] at h
    obtain ⟨-, -, rfl, rfl⟩ := h
    exact ⟨rfl, rfl⟩

theorem step_copy_match_span (ctx c : elz4_ctx) (src s : span) (dst d : wspan)
    (o : Option elz4_result)
    (h : step_copy_match ctx src dst = .ret (o, c, s, d)) :
    s = src ∧ d.pos + d.size = dst.pos + dst.size := by
  unfold step_copy_match at h
  simp only at h
  split at h
  · cases h
  · split_ifs at h <;>
    · simp only [Outcome.ret.injEq, Prod.mk.injEq] at h
      obtain ⟨-, -, rfl, rfl⟩ := h
      exact ⟨rfl, wspan_skip_span _ _ _ (by omega)⟩

theorem block_step_span (ctx c : elz4_ctx) (src s : span) (dst d : wspan)
    (o : Option elz4_result) (hs : src.size ≠ 0)
    (h : block_step ctx src dst = .ret (o, c, s, d)) :
    s.pos + s.size = src.pos + src.size ∧ d.pos + d.size = dst.pos + dst.size := by
  unfold block_step at h
  split_ifs at h
  · obtain ⟨h1, rfl⟩ := step_read_token_span _ _ _ _ _ _ _ hs h
    exact ⟨h1, rfl⟩
  · obtain ⟨h1, rfl⟩ := step_read_literals_length_span _ _ _ _ _ _ _ h
    exact ⟨h1, rfl⟩
  · exact step_copy_literals_span _ _ _ _ _ _ _ h
  · obtain ⟨h1, rfl⟩ := step_read_offset_span _ _ _ _ _ _ _ h
    exact ⟨h1, rfl⟩
  · obtain ⟨h1, rfl⟩ := step_read_match_length_span _ _ _ _ _ _ _ h
    exact ⟨h1, rfl⟩
  · obtain ⟨rfl, h1⟩ := step_copy_match_span _ _ _ _ _ _ _ h
    exact ⟨rfl, h1⟩
  · simp only [Outcome.ret.injEq, Prod.mk.injEq] at h
    obtain ⟨-, -, rfl, rfl⟩ := h
    exact ⟨rfl, rfl⟩

theorem phase_decompress_block_span (fuel : Nat) :
    ∀ (ctx c : elz4_ctx) (src s : span) (dst d : wspan) (r : elz4_result),
      phase_decompress_block fuel ctx src dst = .ret (r, c, s, d) →
        s.pos + s.size = src.pos + src.size ∧ d.pos + d.size = dst.pos + dst.size := by
  induction fuel with
  | zero =>
    intro ctx c src s dst d r h
    unfold phase_decompress_block at h
    split_ifs at h
    simp only [Outcome.ret.injEq, Prod.mk.injEq] at h
    obtain ⟨-, -, rfl, rfl⟩ := h
    exact ⟨rfl, rfl⟩
  | succ n ih =>
    intro ctx c src s dst d r h
    unfold phase_decompress_block at h
    split_ifs at h with hs
    · simp only [Outcome.ret.injEq, Prod.mk.injEq] at h
      obtain ⟨-, -, rfl, rfl⟩ := h
      exact ⟨rfl, rfl⟩
    · split at h
      · cases h
      · cases h
      · rename_i r1 c1 s1 d1 hb
        simp only [Outcome.ret.injEq, Prod.mk.injEq] at h
        obtain ⟨-, -, rfl, rfl⟩ := h
        exact block_step_span _ _ _ _ _ _ _ hs hb
      · rename_i c1 s1 d1 hb
        have e1 := block_step_span _ _ _ _ _ _ _ hs hb
        have e2 := ih _ _ _ _ _ _ _ h
        omega

theorem call_phase_span (fuel : Nat) (ctx c : elz4_ctx) (src s : span) (dst d : wspan)
    (r : elz4_result) (h : call_phase fuel ctx src dst = .ret (r, c, s, d)) :
    s.pos + s.size = src.pos + src.size ∧ d.pos + d.size = dst.pos + dst.size := by
  unfold call_phase at h
  split at h
  · cases h
  · obtain ⟨h1, rfl⟩ := phase_header_span _ _ _ _ _ _ _ h
    exact ⟨h1, rfl⟩
  · obtain ⟨h1, rfl⟩ := phase_block_size_span _ _ _ _ _ _ _ h
    exact ⟨h1, rfl⟩
  · obtain ⟨h1, rfl⟩ := phase_crc32_span _ _ _ _ _ _ _ h
    exact ⟨h1, rfl⟩
  · exact phase_decompress_block_span _ _ _ _ _ _ _ _ h
  · unfold phase_memcpy_block at h
    simp only [Outcome.ret.injEq, Prod.mk.injEq] at h
    obtain ⟨-, -, rfl, rfl⟩ := h
    exact ⟨rfl, rfl⟩

theorem drive_span (fuel : Nat) :
    ∀ (r0 r : elz4_result) (ctx c : elz4_ctx) (src s : span) (dst d : wspan),
      drive fuel r0 ctx src dst = .ret (r, c, s, d) →
        s.pos + s.size = src.pos + src.size ∧ d.pos + d.size = dst.pos + dst.size := by
  induction fuel with
  | zero =>
    intro r0 r ctx c src s dst d h
    unfold drive at h
    split_ifs at h
    simp only [Outcome.ret.injEq, Prod.mk.injEq] at h
    obtain ⟨-, -, rfl, rfl⟩ := h
    exact ⟨rfl, rfl⟩
  | succ n ih =>
    intro r0 r ctx c src s dst d h
    unfold drive at h
    split_ifs at h with hs
    · simp only [Outcome.ret.injEq, Prod.mk.injEq] at h
      obtain ⟨-, -, rfl, rfl⟩ := h
      exact ⟨rfl, rfl⟩
    · split at h
      · cases h
      · cases h
      · rename_i r1 c1 s1 d1 hb
        have e1 := call_phase_span _ _ _ _ _ _ _ _ hb
        split_ifs at h
        · simp only [Outcome.ret.injEq, Prod.mk.injEq] at h
          obtain ⟨-, -, rfl, rfl⟩ := h
          exact e1
        · have e2 := ih _ _ _ _ _ _ _ _ h
          omega

/-! ## Where `ELZ4_RESULT_EOF` comes from -/

theorem fill_loop_phase_func (n : Nat) (data : List Nat) :
    ∀ (pos size : Nat) (ctx c : elz4_ctx) (s : span),
      fill_loop n data pos size ctx = .ret (c, s) → c.phase_func = ctx.phase_func := by
  induction data with
  | nil =>
    intro pos size ctx c s h
    unfold fill_loop at h
    split_ifs at h
    simp only [Outcome.ret.injEq, Prod.mk.injEq] at h
    rw [← h.1]
  | cons b rest ih =>
    intro pos size ctx c s h
    unfold fill_loop at h
    split_ifs at h
    · have e := ih _ _ _ _ _ h
      exact e
    · simp only [Outcome.ret.injEq, Prod.mk.injEq] at h
      rw [← h.1]

theorem phase_header_result (ctx c : elz4_ctx) (src s : span) (dst d : wspan) (r : elz4_result)
    (h : phase_header ctx src dst = .ret (r, c, s, d)) :
    r = .ELZ4_RESULT_OK ∨ r = .ELZ4_RESULT_INVALID_HEADER := by
  unfold phase_header at h
  split at h
  · cases h
  · cases h
  · split at h
    · simp only [Outcome.ret.injEq, Prod.mk.injEq] at h
      exact Or.inl h.1.symm
    · simp only at h
      split at h
      · simp only [Outcome.ret.injEq, Prod.mk.injEq] at h
        exact Or.inr h.1.symm
      · split at h
        · cases h
        · cases h
        · split_ifs at h <;>
          · simp only [Outcome.ret.injEq, Prod.mk.injEq] at h
            exact Or.inl h.1.symm

theorem phase_crc32_result (ctx c : elz4_ctx) (src s : span) (dst d : wspan) (r : elz4_result)
    (h : phase_crc32 ctx src dst = .ret (r, c, s, d)) : r = .ELZ4_RESULT_OK := by
  unfold phase_crc32 at h
  cases h1 : FILL_AND_CHECK_SCRATCH_AREA 4 ctx src with
  | undef => rw [h1] at h; cases h
  | fuelOut => rw [h1] at h; cases h
  | ret p =>
    obtain ⟨c1, s1⟩ := p
    rw [h1] at h
    simp only at h
    split_ifs at h <;>
    · simp only [Outcome.ret.injEq, Prod.mk.injEq] at h
      exact h.1.symm

theorem phase_block_size_result (ctx c : elz4_ctx) (src s : span) (dst d : wspan)
    (r : elz4_result) (h : phase_block_size ctx src dst = .ret (r, c, s, d)) :
    (r = .ELZ4_RESULT_OK ∨ r = .ELZ4_RESULT_EOF) ∧
    (r = .ELZ4_RESULT_EOF →
      c.phase_func = ctx.phase_func ∧ c.scratch_size = 4 ∧ rd32 c.scratch 0 = 0 ∧ d = dst) := by
  unfold phase_block_size FILL_AND_CHECK_SCRATCH_AREA at h
  cases h1 : fill_loop 4 src.data src.pos src.size ctx with
  | undef => rw [h1] at h; cases h
  | fuelOut => rw [h1] at h; cases h
  | ret p =>
    obtain ⟨c1, s1⟩ := p
    rw [h1] at h
    have hp := fill_loop_phase_func _ _ _ _ _ _ _ h1
    simp only at h
    split_ifs at h with h4 h0 <;>
    · simp only [Outcome.ret.injEq, Prod.mk.injEq] at h
      obtain ⟨rfl, rfl, -, rfl⟩ := h
      first
        | exact ⟨Or.inl rfl, fun hh => by cases hh⟩
        | exact ⟨Or.inr rfl, fun _ => ⟨hp, by omega, h0, rfl⟩⟩

theorem step_read_token_option (ctx c : elz4_ctx) (src s : span) (dst d : wspan)
    (o : Option elz4_result) (h : step_read_token ctx src dst = .ret (o, c, s, d)) : o = none := by
  unfold step_read_token at h
  split at h
  · cases h
  · simp only [Outcome.ret.injEq, Prod.mk.injEq] at h
    exact h.1.symm

theorem step_read_literals_length_option (ctx c : elz4_ctx) (src s : span) (dst d : wspan)
    (o : Option elz4_result) (h : step_read_literals_length ctx src dst = .ret (o, c, s, d)) :
    o = none := by
  unfold step_read_literals_length at h
  split at h
  · cases h
  · cases h
  · simp only [Outcome.ret.injEq, Prod.mk.injEq] at h
    exact h.1.symm

theorem step_read_match_length_option (ctx c : elz4_ctx) (src s : span) (dst d : wspan)
    (o : Option elz4_result) (h : step_read_match_length ctx src dst = .ret (o, c, s, d)) :
    o = none := by
  unfold step_read_match_length at h
  split at h
  · cases h
  · cases h
  · simp only [Outcome.ret.injEq, Prod.mk.injEq] at h
    exact h.1.symm

theorem step_copy_literals_option (ctx c : elz4_ctx) (src s : span) (dst d : wspan)
    (o : Option elz4_result) (h : step_copy_literals ctx src dst = .ret (o, c, s, d)) :
    o = none ∨ o = some .ELZ4_RESULT_OK := by
  unfold step_copy_literals at h
  simp only at h
  split_ifs at h <;>
  · simp only [Outcome.ret.injEq, Prod.mk.injEq] at h
    first
      | exact Or.inl h.1.symm
      | exact Or.inr h.1.symm

theorem step_read_offset_option (ctx c : elz4_ctx) (src s : span) (dst d : wspan)
    (o : Option elz4_result) (h : step_read_offset ctx src dst = .ret (o, c, s, d)) :
    o = none := by
  unfold step_read_offset at h
  split_ifs at h
  · split at h
    · simp only [Outcome.ret.injEq, Prod.mk.injEq] at h
      exact h.1.symm
    · cases h
  · split at h
    · cases h
    · simp only at h
      split_ifs at h
      simp only [Outcome.ret.injEq, Prod.mk.injEq] at h
      exact h.1.symm
  · simp only [Outcome.ret.injEq, Prod.mk.injEq] at h
    exact h.1.symm

theorem step_copy_match_option (ctx c : elz4_ctx) (src s : span) (dst d : wspan)
    (o : Option elz4_result) (h : step_copy_match ctx src dst = .ret (o, c, s, d)) :
    o = none := by
  unfold step_copy_match at h
  simp only at h
  split at h
  · cases h
  · split_ifs at h <;>
    · simp only [Outcome.ret.injEq, Prod.mk.injEq] at h
      exact h.1.symm

theorem block_step_option (ctx c : elz4_ctx) (src s : span) (dst d : wspan)
    (o : Option elz4_result) (h : block_step ctx src dst = .ret (o, c, s, d)) :
    o = none ∨ o = some .ELZ4_RESULT_OK := by
  unfold block_step at h
  split_ifs at h
  · exact Or.inl (step_read_token_option _ _ _ _ _ _ _ h)
  · exact Or.inl (step_read_literals_length_option _ _ _ _ _ _ _ h)
  · exact step_copy_literals_option _ _ _ _ _ _ _ h
  · exact Or.inl (step_read_offset_option _ _ _ _ _ _ _ h)
  · exact Or.inl (step_read_match_length_option _ _ _ _ _ _ _ h)
  · exact Or.inl (step_copy_match_option _ _ _ _ _ _ _ h)
  · simp only [Outcome.ret.injEq, Prod.mk.injEq] at h
    exact Or.inl h.1.symm

/-- The block decoder returns no result other than `ELZ4_RESULT_OK`. -/
theorem phase_decompress_block_result (fuel : Nat) :
    ∀ (ctx c : elz4_ctx) (src s : span) (dst d : wspan) (r : elz4_result),
      phase_decompress_block fuel ctx src dst = .ret (r, c, s, d) → r = .ELZ4_RESULT_OK := by
  induction fuel with
  | zero =>
    intro ctx c src s dst d r h
    unfold phase_decompress_block at h
    split_ifs at h
    simp only [Outcome.ret.injEq, Prod.mk.injEq] at h
    exact h.1.symm
  | succ n ih =>
    intro ctx c src s dst d r h
    by_cases hs : src.size = 0
    · rw [block_loop_done hs] at h
      simp only [Outcome.ret.injEq, Prod.mk.injEq] at h
      exact h.1.symm
    · cases hb : block_step ctx src dst with
      | undef => rw [block_loop_undef hs hb] at h; cases h
      | fuelOut => simp [phase_decompress_block, hs, hb] at h
      | ret p =>
        obtain ⟨o, c1, s1, d1⟩ := p
        rcases block_step_option _ _ _ _ _ _ _ hb with rfl | rfl
        · rw [block_loop_step hs hb] at h
          exact ih _ _ _ _ _ _ _ h
        · rw [block_loop_return hs hb] at h
          simp only [Outcome.ret.injEq, Prod.mk.injEq] at h
          exact h.1.symm

/-- A phase returns `ELZ4_RESULT_EOF` only as `phase_block_size` with the four bytes of a
zero descriptor in the scratch area. -/
theorem call_phase_eof (fuel : Nat) (ctx c : elz4_ctx) (src s : span) (dst d : wspan)
    (h : call_phase fuel ctx src dst = .ret (.ELZ4_RESULT_EOF, c, s, d)) : at_eof c := by
  unfold call_phase at h
  split at h
  · cases h
  · rcases phase_header_result _ _ _ _ _ _ _ h with hh | hh <;> cases hh
  · rename_i hp
    obtain ⟨h1, h2, h3, -⟩ := (phase_block_size_result _ _ _ _ _ _ _ h).2 rfl
    exact ⟨h1.trans hp, h2, h3⟩
  · cases phase_crc32_result _ _ _ _ _ _ _ h
  · cases phase_decompress_block_result _ _ _ _ _ _ _ _ h
  · unfold phase_memcpy_block at h
    simp only [Outcome.ret.injEq, Prod.mk.injEq] at h
    cases h.1

theorem drive_eof (fuel : Nat) :
    ∀ (ctx c : elz4_ctx) (src s : span) (dst d : wspan),
      drive fuel .ELZ4_RESULT_OK ctx src dst = .ret (.ELZ4_RESULT_EOF, c, s, d) → at_eof c := by
  induction fuel with
  | zero =>
    intro ctx c src s dst d h
    unfold drive at h
    split_ifs at h
    simp only [Outcome.ret.injEq, Prod.mk.injEq] at h
    cases h.1
  | succ n ih =>
    intro ctx c src s dst d h
    by_cases hs : src.size = 0
    · rw [drive_done hs] at h
      simp only [Outcome.ret.injEq, Prod.mk.injEq] at h
      cases h.1
    · cases hc : call_phase n ctx src dst with
      | undef => rw [drive_step_undef hc hs] at h; cases h
      | fuelOut => rw [drive_step_fuelOut hc hs] at h; cases h
      | ret p =>
        obtain ⟨r1, c1, s1, d1⟩ := p
        by_cases hr : r1 = .ELZ4_RESULT_OK
        · subst hr
          rw [drive_step_ok hs hc] at h
          exact ih _ _ _ _ _ _ h
        · rw [drive_step_stop hs hr hc] at h
          simp only [Outcome.ret.injEq, Prod.mk.injEq] at h
          obtain ⟨rfl, rfl, -, -⟩ := h
          exact call_phase_eof _ _ _ _ _ _ _ hc

theorem elz4_decompress_eof (fuel : Nat) (ctx : elz4_ctx) (src dst : List Nat) (dst_size : Nat)
    (r : decompress_ret) (h : elz4_decompress fuel ctx src dst dst_size = .ret r)
    (hr : r.result = .ELZ4_RESULT_EOF) : at_eof r.ctx := by
  rw [elz4_decompress_of_drive] at h
  split at h
  · cases h
  · cases h
  · rename_i r1 c1 s1 d1 hd
    simp only [Outcome.ret.injEq] at h
    subst h
    simp only at hr
    subst hr
    exact drive_eof _ _ _ _ _ _ _ hd

/-- A call on a context that has seen the end of the frame: with input it returns
`ELZ4_RESULT_EOF` again, without input it returns `ELZ4_RESULT_OK`; it consumes nothing,
produces nothing and leaves the context as it is. -/
theorem elz4_decompress_at_eof (c : elz4_ctx) (hc : at_eof c) (fuel : Nat) (src dst : List Nat)
    (dst_size : Nat) :
    elz4_decompress (fuel + 1) c src dst dst_size =
      .ret { result := if src = [] then .ELZ4_RESULT_OK else .ELZ4_RESULT_EOF, ctx := c,
             src_size := 0, dst_size := 0, dst := dst } := by
  obtain ⟨h1, h2, h3⟩ := hc
  have hnn : c.phase_func ≠ .nullptr := by rw [h1]; decide
  rw [elz4_decompress_of_drive, if_neg hnn]
  cases src with
  | nil => rw [drive_done rfl]; simp
  | cons b t =>
    have hcall : call_phase fuel c { data := b :: t, pos := 0, size := (b :: t).length }
        { mem := dst, pos := 0, size := dst_size } =
        .ret (.ELZ4_RESULT_EOF, c, { data := b :: t, pos := 0, size := (b :: t).length },
          { mem := dst, pos := 0, size := dst_size }) := by
      simp [call_phase, h1, phase_block_size, FILL_AND_CHECK_SCRATCH_AREA,
        fill_loop_full 4 _ _ _ c (by omega), h2, h3]
    rw [drive_step_stop (by simp) (by decide) hcall]
    simp

/-! ## The block-size phase -/

/-- The block-size phase when the input completes the four descriptor bytes. -/
theorem phase_block_size_complete (ctx : elz4_ctx) (xs rest : List Nat) (pos size : Nat)
    (dst : wspan) (hlen : ctx.scratch.length = 15) (hk : ctx.scratch_size + xs.length = 4)
    (hsz : xs.length ≤ size) (hb : ∀ b ∈ ctx.scratch.take ctx.scratch_size ++ xs, b < 256) :
    phase_block_size ctx { data := xs ++ rest, pos := pos, size := size } dst =
      .ret
        (if rd32 (ctx.scratch.take ctx.scratch_size ++ xs) 0 = 0 then
          (.ELZ4_RESULT_EOF,
            { ctx with scratch := ctx.scratch.take ctx.scratch_size ++ xs ++ ctx.scratch.drop 4,
                       scratch_size := 4 },
            { data := rest, pos := pos + xs.length, size := size - xs.length }, dst)
        else
          (.ELZ4_RESULT_OK,
            { ctx with
                scratch := ctx.scratch.take ctx.scratch_size ++ xs ++ ctx.scratch.drop 4,
                scratch_size := 0,
                current_block_size :=
                  rd32 (ctx.scratch.take ctx.scratch_size ++ xs) 0 % 2147483648,
                phase_func :=
                  if rd32 (ctx.scratch.take ctx.scratch_size ++ xs) 0 / 2147483648 % 2 = 1
                  then .phase_memcpy_block else .phase_decompress_block },
            { data := rest, pos := pos + xs.length, size := size - xs.length }, dst)) := by
  have hfill := fill_loop_append 4 xs rest pos size ctx (by omega) (by omega) hlen hsz
    (Or.inl hk)
  have hl4 : (ctx.scratch.take ctx.scratch_size ++ xs).length = 4 := by
    rw [List.length_append, List.length_take, hlen]
    omega
  have hd := rd32_lt _ hb 0
  have hrd : rd32 (ctx.scratch.take ctx.scratch_size ++ xs ++ ctx.scratch.drop 4) 0 =
      rd32 (ctx.scratch.take ctx.scratch_size ++ xs) 0 :=
    rd32_append_left _ _ _ (by omega)
  unfold phase_block_size FILL_AND_CHECK_SCRATCH_AREA
  rw [hfill]
  simp only [hk, ne_eq, not_true_eq_false, if_false, hrd]
  by_cases h0 : rd32 (ctx.scratch.take ctx.scratch_size ++ xs) 0 = 0
  · simp only [h0, if_true]
  · have hbit : (rd32 (ctx.scratch.take ctx.scratch_size ++ xs) 0 / 2147483648 = 0) ↔
        ¬ (rd32 (ctx.scratch.take ctx.scratch_size ++ xs) 0 / 2147483648 % 2 = 1) := by
      omega
    simp only [h0, if_false, set_phase, hbit]
    by_cases h31 : rd32 (ctx.scratch.take ctx.scratch_size ++ xs) 0 / 2147483648 % 2 = 1
    · simp [h31]
    · simp [h31]

/-- The block-size phase when the input runs out before the descriptor is complete. -/
theorem phase_block_size_partial (ctx : elz4_ctx) (ys : List Nat) (pos : Nat) (dst : wspan)
    (hlen : ctx.scratch.length = 15) (hys : ctx.scratch_size + ys.length < 4) :
    phase_block_size ctx { data := ys, pos := pos, size := ys.length } dst =
      .ret (.ELZ4_RESULT_OK,
        { ctx with
            scratch := ctx.scratch.take ctx.scratch_size ++ ys ++
              ctx.scratch.drop (ctx.scratch_size + ys.length),
            scratch_size := ctx.scratch_size + ys.length },
        { data := [], pos := pos + ys.length, size := 0 }, dst) := by
  have hfill := fill_loop_append 4 ys [] pos ys.length ctx (by omega) (by omega) hlen
    (Nat.le_refl _) (Or.inr rfl)
  rw [List.append_nil] at hfill
  unfold phase_block_size FILL_AND_CHECK_SCRATCH_AREA
  rw [hfill]
  have hne : ctx.scratch_size + ys.length ≠ 4 := by omega
  simp [hne]

/-! ## Decoding a literals-only block -/

theorem rd32_le32_bytes (d : Nat) (t : List Nat) (h : d < 4294967296) :
    rd32 (le32_bytes d ++ t) 0 = d := by
  simp only [le32_bytes, rd32, List.cons_append, List.nil_append, List.getD_cons_zero,
    List.getD_cons_succ]
  omega

theorem le32_bytes_lt (d : Nat) : ∀ b ∈ le32_bytes d, b < 256 := by
  intro b hb
  simp only [le32_bytes, List.mem_cons, List.mem_singleton, List.not_mem_nil, or_false] at hb
  omega

/-- The header phase on the plain 7-byte header. -/
theorem call_phase_header_plain (f : Nat) (rest : List Nat) (dst : wspan) :
    call_phase f { ctx_zero with phase_func := .phase_header }
        { data := header_plain ++ rest, pos := 0, size := (header_plain ++ rest).length } dst =
      .ret (.ELZ4_RESULT_OK, ctx_after_header,
        { data := rest, pos := 7, size := rest.length }, dst) := by
  have e8 : (64 &&& 8 : Nat) = 0 := by decide
  have e2 : (64 &&& 2 : Nat) = 0 := by decide
  simp [call_phase, phase_header, FILL_AND_CHECK_SCRATCH_AREA, fill_loop, fill_loop_full,
    ctx_zero, header_plain, rd32, ctx_after_header, set_phase, ELZ4_FLAG_CONTENT_SIZE,
    ELZ4_FLAG_DICT, e8, e2]

/-- The block-size phase on the descriptor of a compressed block of `d` bytes. -/
theorem call_phase_descriptor (f d : Nat) (rest : List Nat) (pos size : Nat) (dst : wspan)
    (hd0 : 0 < d) (hd : d < 2147483648) (hsz : 4 ≤ size) :
    call_phase f ctx_after_header
        { data := le32_bytes d ++ rest, pos := pos, size := size } dst =
      .ret (.ELZ4_RESULT_OK,
        { ctx_after_header with
            phase_func := .phase_decompress_block, current_block_size := d,
            scratch := le32_bytes d ++ [0x40, 0x40, 0x00, 0, 0, 0, 0, 0, 0, 0, 0] },
        { data := rest, pos := pos + 4, size := size - 4 }, dst) := by
  have h := phase_block_size_complete ctx_after_header (le32_bytes d) rest pos size dst rfl rfl
    hsz (by simpa [ctx_after_header] using le32_bytes_lt d)
  have hv : rd32 (List.take ctx_after_header.scratch_size ctx_after_header.scratch
      ++ le32_bytes d) 0 = d := by
    have := rd32_le32_bytes d [] (by omega)
    simpa [ctx_after_header] using this
  rw [hv] at h
  have h0 : d ≠ 0 := by omega
  have h31 : ¬ (d / 2147483648 % 2 = 1) := by omega
  have hm : d % 2147483648 = d := by omega
  rw [if_neg h0, if_neg h31, hm] at h
  simp only [call_phase, ctx_after_header] at h ⊢
  rw [h]
  simp [le32_bytes]
/-- The length loop on `q` bytes `FF` followed by a byte `r` below `FF`: the length slot
grows by `255 * q + r`, the sub-state advances and the span moves past the `q + 1` bytes. -/
theorem read_length_loop_run (slot nextPhase r : Nat) (rest : List Nat) (hr : r ≠ 255) (q : Nat) :
    ∀ (pos size : Nat) (ctx : elz4_ctx), q + 1 ≤ size → slot + 4 ≤ ctx.scratch.length →
      read_length_loop slot nextPhase (List.replicate q 255 ++ r :: rest) pos size ctx =
        .ret ({ ctx with scratch := wr32 ctx.scratch slot (rd32 ctx.scratch slot + 255 * q + r),
                         scratch_size := nextPhase },
              { data := rest, pos := pos + (q + 1), size := size - (q + 1) }) := by
  induction q with
  | zero =>
    intro pos size ctx hs hl
    have h0 : 0 < size := by omega
    simp [read_length_loop, h0, hr]
  | succ q ih =>
    intro pos size ctx hs hl
    have h0 : 0 < size := by omega
    rw [List.replicate_succ, List.cons_append, read_length_loop, if_pos h0,
      if_neg (by simp), ih _ _ _ (by omega) (by simpa [wr32_length] using hl)]
    simp only [Outcome.ret.injEq, Prod.mk.injEq, elz4_ctx.mk.injEq, span.mk.injEq, true_and,
      and_true]
    refine ⟨?_, by omega, by omega⟩
    rw [wr32_wr32_same, rd32_wr32_same _ _ _ hl]
    apply wr32_congr
    omega

theorem block_step_read_token (ctx : elz4_ctx) (t : Nat) (rest : List Nat) (pos size : Nat)
    (dst : wspan) (hss : ctx.scratch_size = 0) (hs : 0 < size) :
    block_step ctx { data := t :: rest, pos := pos, size := size } dst =
      .ret (none,
        { ctx with scratch := wr32 (List.replicate 15 0) 0 (t / 16),
                   scratch_size := if t / 16 < 15 then 2 else 1,
                   current_token := t,
                   current_block_size := sub32 ctx.current_block_size 1 },
        { data := rest, pos := pos + 1, size := size - 1 }, dst) := by
  have h1 : size - (size - 1) = 1 := by omega
  simp [block_step, hss, step_read_token, span.next, account, STATE_READ_TOKEN,
    STATE_COPY_LITERALS, STATE_READ_LITERALS_LENGTH, h1]

theorem block_step_read_literals_length (ctx : elz4_ctx) (q r : Nat) (rest : List Nat)
    (pos size : Nat) (dst : wspan) (hss : ctx.scratch_size = 1) (hr : r ≠ 255)
    (hs : q + 1 ≤ size) (hl : ctx.scratch.length = 15) :
    block_step ctx { data := List.replicate q 255 ++ r :: rest, pos := pos, size := size } dst =
      .ret (none,
        { ctx with scratch := wr32 ctx.scratch 0 (rd32 ctx.scratch 0 + 255 * q + r),
                   scratch_size := 2,
                   current_block_size := sub32 ctx.current_block_size (q + 1) },
        { data := rest, pos := pos + (q + 1), size := size - (q + 1) }, dst) := by
  have h1 : size - (size - (q + 1)) = q + 1 := by omega
  simp [block_step, hss, step_read_literals_length, account, STATE_READ_TOKEN,
    STATE_COPY_LITERALS, STATE_READ_LITERALS_LENGTH,
    read_length_loop_run 0 2 r rest hr q pos size ctx hs (by omega), h1]

theorem block_step_copy_last_literals (ctx : elz4_ctx) (P tail : List Nat) (pos size : Nat)
    (dst : wspan) (hss : ctx.scratch_size = 2) (hlit : rd32 ctx.scratch 0 = P.length)
    (hcbs : ctx.current_block_size = P.length) (hP : P.length < 4294967296)
    (hs : P.length ≤ size) (hd : P.length ≤ dst.size)
    (hf : ctx.flags &&& ELZ4_FLAG_BLOCK_CRC32 = 0) :
    block_step ctx { data := P ++ tail, pos := pos, size := size } dst =
      .ret (some .ELZ4_RESULT_OK,
        { ctx with scratch := wr32 ctx.scratch 0 0, scratch_size := 0,
                   phase_func := .phase_block_size, current_block_size := 0 },
        { data := tail, pos := pos + P.length, size := size - P.length },
        { mem := dst.mem ++ P, pos := dst.pos + P.length, size := dst.size - P.length }) := by
  have hmin : min (min P.length size) dst.size = P.length := by omega
  have h1 : size - (size - P.length) = P.length := by omega
  simp [block_step, hss, step_copy_literals, account, STATE_READ_TOKEN, STATE_COPY_LITERALS,
    STATE_READ_LITERALS_LENGTH, STATE_READ_OFFSET, hlit, hmin, sub32_self, span.skip, wspan.skip,
    set_phase, hcbs, h1, hf]

theorem literals_block_length (P : List Nat) :
    (literals_block P).length = 1 + (literal_length_bytes P.length).length + P.length := by
  simp [literals_block]
  omega

theorem wr32_zero_zero : wr32 (List.replicate 15 0) 0 0 = List.replicate 15 0 := by decide

/-- The block decoder on a literals-only block: the literals are copied to the output, the
block size reaches 0 at the end of the copy, and the decoder hands over to the block-size
phase. -/
theorem decode_literals_block (f : Nat) (ctx : elz4_ctx) (P tail : List Nat) (pos size : Nat)
    (dst : wspan) (hss : ctx.scratch_size = 0)
    (hcbs : ctx.current_block_size = (literals_block P).length)
    (hlen : (literals_block P).length < 2147483648) (hL : 1 ≤ P.length)
    (hs : (literals_block P).length ≤ size) (hd : P.length ≤ dst.size)
    (hf : ctx.flags &&& ELZ4_FLAG_BLOCK_CRC32 = 0) :
    phase_decompress_block (f + 3) ctx
        { data := literals_block P ++ tail, pos := pos, size := size } dst =
      .ret (.ELZ4_RESULT_OK,
        { ctx with scratch := List.replicate 15 0, scratch_size := 0,
                   phase_func := .phase_block_size, current_block_size := 0,
                   current_token := literals_token P.length },
        { data := tail, pos := pos + (literals_block P).length,
          size := size - (literals_block P).length },
        { mem := dst.mem ++ P, pos := dst.pos + P.length, size := dst.size - P.length }) := by
  have hbl := literals_block_length P
  by_cases h15 : P.length < 15
  · have hlb : literal_length_bytes P.length = [] := by simp [literal_length_bytes, h15]
    have htok : literals_token P.length = 16 * P.length := by
      simp [literals_token, Nat.min_eq_left (Nat.le_of_lt h15)]
    rw [hlb] at hbl
    simp only [List.length_nil, Nat.add_zero] at hbl
    have hdata : literals_block P ++ tail = (16 * P.length) :: (P ++ tail) := by
      simp [literals_block, hlb, htok]
    have hdiv : 16 * P.length / 16 = P.length := by omega
    rw [hdata]
    refine Eq.trans (block_loop_step ?_
      (block_step_read_token ctx _ _ pos size dst hss ?_)) ?_
    · simp only; omega
    · omega
    refine Eq.trans (block_loop_return ?_
      (block_step_copy_last_literals _ P tail _ _ dst ?_ ?_ ?_ ?_ ?_ hd ?_)) ?_
    · simp only; omega
    · simp [hdiv, h15]
    · simp only [hdiv]
      rw [rd32_wr32_same _ _ _ (by simp)]
      omega
    · simp only [hcbs, hbl]
      rw [sub32_of_le _ _ (by omega) (by omega)]
      omega
    · omega
    · omega
    · simpa using hf
    simp only [hdiv, wr32_wr32_same, wr32_zero_zero, htok, hbl, Outcome.ret.injEq, Prod.mk.injEq,
      elz4_ctx.mk.injEq, span.mk.injEq, true_and, and_true]
    omega
  · have hlb : literal_length_bytes P.length =
        List.replicate ((P.length - 15) / 255) 255 ++ [(P.length - 15) % 255] := by
      simp [literal_length_bytes, h15]
    have htok : literals_token P.length = 240 := by
      simp [literals_token, Nat.min_eq_right (Nat.le_of_not_lt h15)]
    rw [hlb] at hbl
    simp only [List.length_append, List.length_replicate, List.length_singleton] at hbl
    have hdata : literals_block P ++ tail =
        240 :: (List.replicate ((P.length - 15) / 255) 255 ++
          ((P.length - 15) % 255) :: (P ++ tail)) := by
      simp [literals_block, hlb, htok]
    have hr : (P.length - 15) % 255 ≠ 255 := by omega
    have hsum : 15 + 255 * ((P.length - 15) / 255) + (P.length - 15) % 255 = P.length := by
      omega
    rw [hdata]
    refine Eq.trans (block_loop_step ?_
      (block_step_read_token ctx _ _ pos size dst hss ?_)) ?_
    · simp only; omega
    · omega
    refine Eq.trans (block_loop_step ?_
      (block_step_read_literals_length _ _ _ _ _ _ dst ?_ hr ?_ ?_)) ?_
    · simp only; omega
    · simp
    · omega
    · simp [wr32_length]
    refine Eq.trans (block_loop_return ?_
      (block_step_copy_last_literals _ P tail _ _ dst ?_ ?_ ?_ ?_ ?_ hd ?_)) ?_
    · simp only; omega
    · simp
    · simp only [show (240 : Nat) / 16 = 15 by decide]
      rw [rd32_wr32_same _ _ _ (by rw [wr32_length]; simp), rd32_wr32_same _ _ _ (by simp)]
      omega
    · simp only [hcbs, hbl]
      have e1 : sub32 (1 + ((P.length - 15) / 255 + 1) + P.length) 1 =
          (P.length - 15) / 255 + 1 + P.length := by
        rw [sub32_of_le _ _ (by omega) (by omega)]
        omega
      rw [e1, sub32_of_le _ _ (by omega) (by omega)]
      omega
    · omega
    · omega
    · simpa using hf
    simp only [wr32_wr32_same, wr32_zero_zero, htok, hbl, Outcome.ret.injEq, Prod.mk.injEq,
      elz4_ctx.mk.injEq, span.mk.injEq, true_and, and_true]
    omega

/-- The block-size phase on the end mark `00 00 00 00`, entered with an empty, zeroed
scratch area. -/
theorem call_phase_end_mark (f : Nat) (ctx : elz4_ctx) (rest : List Nat) (pos size : Nat)
    (dst : wspan) (hp : ctx.phase_func = .phase_block_size) (hss : ctx.scratch_size = 0)
    (hsc : ctx.scratch = List.replicate 15 0) (hs : 4 ≤ size) :
    call_phase f ctx { data := 0 :: 0 :: 0 :: 0 :: rest, pos := pos, size := size } dst =
      .ret (.ELZ4_RESULT_EOF, { ctx with scratch_size := 4 },
        { data := rest, pos := pos + 4, size := size - 4 }, dst) := by
  have h1 : 0 < size := by omega
  have h2 : 0 < size - 1 := by omega
  have h3 : 0 < size - 1 - 1 := by omega
  have h4 : 0 < size - 1 - 1 - 1 := by omega
  have h5 : size - 1 - 1 - 1 - 1 = size - 4 := by omega
  simp [call_phase, hp, phase_block_size, FILL_AND_CHECK_SCRATCH_AREA, fill_loop, fill_loop_full,
    hss, hsc, rd32, h1, h2, h3, h4, h5]

/-- The driver on the frame of a literals-only block: four phase calls (header, block
size, block decoder, block size) and the end mark stops the loop. -/
theorem drive_literals_frame (P dst : List Nat) (dst_size : Nat) (hL : 1 ≤ P.length)
    (hlen : (literals_block P).length < 2147483648) (hcap : P.length ≤ dst_size) :
    drive 6 .ELZ4_RESULT_OK { ctx_zero with phase_func := .phase_header }
        { data := literals_frame P, pos := 0, size := (literals_frame P).length }
        { mem := dst, pos := 0, size := dst_size } =
      .ret (.ELZ4_RESULT_EOF, ctx_at_eof 0x40 (literals_token P.length) (List.replicate 11 0),
        { data := [], pos := (literals_frame P).length, size := 0 },
        { mem := dst ++ P, pos := P.length, size := dst_size - P.length }) := by
  have hbl := literals_block_length P
  unfold literals_frame
  refine Eq.trans (drive_step_ok ?_ (call_phase_header_plain 5 _ _)) ?_
  · simp [header_plain]
  refine Eq.trans (drive_step_ok ?_
    (call_phase_descriptor 4 (literals_block P).length _ 7 _ _ ?_ hlen ?_)) ?_
  · simp [le32_bytes]
  · omega
  · simp [le32_bytes]
  refine Eq.trans (drive_step_ok ?_
    (decode_literals_block 0 _ P [0, 0, 0, 0] _ _ _ rfl rfl hlen hL ?_ hcap ?_)) ?_
  · simp [le32_bytes]
  · simp [le32_bytes]
  · simp only [ctx_after_header]
    decide
  refine Eq.trans (drive_step_stop ?_ (by decide)
    (call_phase_end_mark 2 _ [] _ _ _ rfl rfl rfl ?_)) ?_
  · simp [le32_bytes]
  · simp [le32_bytes]
  · simp [ctx_at_eof, ctx_after_header, le32_bytes, header_plain]
    omega

/-! ## The header phase on a complete header -/

theorem getD_sum4 (a b c d : Nat) (t : List Nat) :
    (a :: b :: c :: d :: t).getD 0 0 + 256 * (a :: b :: c :: d :: t).getD 1 0 +
      65536 * (a :: b :: c :: d :: t).getD 2 0 + 16777216 * (a :: b :: c :: d :: t).getD 3 0 =
    a + 256 * b + 65536 * c + 16777216 * d := rfl

/-- The magic number `0x184D2204` is the little-endian value of the bytes `04 22 4D 18`. -/
theorem magic_sum : 0x04 + 256 * 0x22 + 65536 * 0x4D + 16777216 * 0x18 = 407708164 := by decide

/-- The number of header bytes that follow the six fixed ones, for the flags byte `f`. -/
theorem additional_le_nine (f : Nat)
    (hnb : ¬ (f &&& ELZ4_FLAG_CONTENT_SIZE ≠ 0 ∧ f &&& ELZ4_FLAG_DICT ≠ 0)) :
    (1 + (if f &&& ELZ4_FLAG_CONTENT_SIZE ≠ 0 then 8 else 0)
        + (if f &&& ELZ4_FLAG_DICT ≠ 0 then 4 else 0)) ≤ 9 := by
  by_cases h8 : f &&& ELZ4_FLAG_CONTENT_SIZE ≠ 0 <;> by_cases h2 : f &&& ELZ4_FLAG_DICT ≠ 0 <;>
    simp_all

/-- The header phase on a complete header whose flags do not ask for both optional
fields: the `6 + extra.length` bytes are consumed, the flags are recorded and the phase
becomes `phase_block_size` with an empty scratch area. -/
theorem call_phase_header_complete (fu f bd : Nat) (extra rest : List Nat) (size : Nat)
    (dst : wspan)
    (hnb : ¬ (f &&& ELZ4_FLAG_CONTENT_SIZE ≠ 0 ∧ f &&& ELZ4_FLAG_DICT ≠ 0))
    (hx : extra.length = 1 + (if f &&& ELZ4_FLAG_CONTENT_SIZE ≠ 0 then 8 else 0)
        + (if f &&& ELZ4_FLAG_DICT ≠ 0 then 4 else 0))
    (hs : 6 + extra.length ≤ size) :
    call_phase fu { ctx_zero with phase_func := .phase_header }
        { data := 0x04 :: 0x22 :: 0x4D :: 0x18 :: f :: bd :: (extra ++ rest), pos := 0,
          size := size } dst =
      .ret (.ELZ4_RESULT_OK,
        { phase_func := .phase_block_size, current_block_size := 0,
          scratch := [0x04, 0x22, 0x4D, 0x18, f, bd] ++ extra ++
            List.replicate (9 - extra.length) 0,
          scratch_size := 0, flags := f, current_token := 0 },
        { data := rest, pos := 6 + extra.length, size := size - (6 + extra.length) }, dst) := by
  have h9 := additional_le_nine f hnb
  have h1 : 0 < size := by omega
  have h2 : 0 < size - 1 := by omega
  have h3 : 0 < size - 1 - 1 := by omega
  have h4 : 0 < size - 1 - 1 - 1 := by omega
  have h5 : 0 < size - 1 - 1 - 1 - 1 := by omega
  have h6 : 0 < size - 1 - 1 - 1 - 1 - 1 := by omega
  have hfill := fill_loop_append
    (6 + (1 + (if f &&& ELZ4_FLAG_CONTENT_SIZE ≠ 0 then 8 else 0)
        + (if f &&& ELZ4_FLAG_DICT ≠ 0 then 4 else 0)))
    extra rest 6 (size - 1 - 1 - 1 - 1 - 1 - 1)
    { phase_func := .phase_header, current_block_size := 0,
      scratch := [0x04, 0x22, 0x4D, 0x18, f, bd, 0, 0, 0, 0, 0, 0, 0, 0, 0],
      scratch_size := 6, flags := f, current_token := 0 }
    (by simp only; omega) (by omega) rfl (by omega) (Or.inl (by simp only; omega))
  have hdrop : List.drop (6 + extra.length) [0x04, 0x22, 0x4D, 0x18, f, bd, 0, 0, 0, 0, 0, 0, 0, 0, 0]
      = List.replicate (9 - extra.length) 0 := by
    have e : [0x04, 0x22, 0x4D, 0x18, f, bd, 0, 0, 0, 0, 0, 0, 0, 0, 0]
        = [0x04, 0x22, 0x4D, 0x18, f, bd] ++ List.replicate 9 0 := rfl
    rw [e, List.drop_append_eq_append_drop, List.drop_eq_nil_of_le (by simp), List.nil_append,
      List.drop_replicate]
    simp
  simp only [List.take, hdrop] at hfill
  simp only [call_phase, phase_header, FILL_AND_CHECK_SCRATCH_AREA, fill_loop, ctx_zero,
    List.replicate, List.set, h1, h2, h3, h4, h5, h6, and_self, if_true, Nat.lt_irrefl,
    false_and, if_false, Nat.zero_add, Nat.reduceAdd, Nat.reduceLT, ne_eq, not_true_eq_false,
    rd32, List.getD_cons_zero, List.getD_cons_succ, Nat.reduceMul, true_and]
  have hf6 := fill_loop_full 6 (extra ++ rest) 6 (size - 1 - 1 - 1 - 1 - 1 - 1)
    { phase_func := .phase_header, current_block_size := 0,
      scratch := [0x04, 0x22, 0x4D, 0x18, f, bd, 0, 0, 0, 0, 0, 0, 0, 0, 0],
      scratch_size := 6, flags := 0, current_token := 0 } (Nat.le_refl 6)
  rw [hf6]
  have hmag : [0x04, 0x22, 0x4D, 0x18, f, bd, 0, 0, 0, 0, 0, 0, 0, 0, 0].getD 0 0 +
      256 * [0x04, 0x22, 0x4D, 0x18, f, bd, 0, 0, 0, 0, 0, 0, 0, 0, 0].getD 1 0 +
      65536 * [0x04, 0x22, 0x4D, 0x18, f, bd, 0, 0, 0, 0, 0, 0, 0, 0, 0].getD 2 0 +
      16777216 * [0x04, 0x22, 0x4D, 0x18, f, bd, 0, 0, 0, 0, 0, 0, 0, 0, 0].getD 3 0 =
      407708164 := (getD_sum4 _ _ _ _ _).trans magic_sum
  have hflag : [0x04, 0x22, 0x4D, 0x18, f, bd, 0, 0, 0, 0, 0, 0, 0, 0, 0].getD 4 0 = f := rfl
  simp only [hmag, hflag, not_true_eq_false, if_false]
  simp only [ne_eq] at hfill
  rw [hfill]
  have hsz : size - 1 - 1 - 1 - 1 - 1 - 1 - extra.length = size - (6 + extra.length) := by omega
  simp only [set_phase, hsz]
  have hx2 : 6 + extra.length = 6 + ((1 + if ¬ f &&& ELZ4_FLAG_CONTENT_SIZE = 0 then 8 else 0) +
      if ¬ f &&& ELZ4_FLAG_DICT = 0 then 4 else 0) := by
    simp only [ne_eq] at hx
    omega
  rw [if_neg (not_not.mpr hx2)]

/-- A complete header whose flags do not ask for both optional fields, fed in one call to a
zero-initialised context: the call consumes the `7`, `11` or `15` header bytes, produces
nothing, returns `OK`, records the flags and leaves the context in the block-size phase
with `scratch_size = 0`; with the end mark `00 00 00 00` behind the header the call
returns `EOF` with no output. -/
theorem header_without_both_fields (k f bd : Nat) (extra dst : List Nat) (n : Nat)
    (hnb : ¬ (f &&& ELZ4_FLAG_CONTENT_SIZE ≠ 0 ∧ f &&& ELZ4_FLAG_DICT ≠ 0))
    (hx : extra.length = 1 + (if f &&& ELZ4_FLAG_CONTENT_SIZE ≠ 0 then 8 else 0)
        + (if f &&& ELZ4_FLAG_DICT ≠ 0 then 4 else 0)) :
    elz4_decompress (k + 1) ctx_zero (0x04 :: 0x22 :: 0x4D :: 0x18 :: f :: bd :: extra) dst n =
      .ret { result := .ELZ4_RESULT_OK,
             ctx :=
              { phase_func := .phase_block_size, current_block_size := 0,
                scratch := [0x04, 0x22, 0x4D, 0x18, f, bd] ++ extra ++
                  List.replicate (9 - extra.length) 0,
                scratch_size := 0, flags := f, current_token := 0 },
             src_size := 6 + extra.length, dst_size := 0, dst := dst } ∧
    elz4_decompress (k + 2) ctx_zero
        (0x04 :: 0x22 :: 0x4D :: 0x18 :: f :: bd :: (extra ++ [0, 0, 0, 0])) dst n =
      .ret { result := .ELZ4_RESULT_EOF,
             ctx :=
              { phase_func := .phase_block_size, current_block_size := 0,
                scratch := [0, 0, 0, 0] ++
                  ([0x04, 0x22, 0x4D, 0x18, f, bd] ++ extra ++
                    List.replicate (9 - extra.length) 0).drop 4,
                scratch_size := 4, flags := f, current_token := 0 },
             src_size := 6 + extra.length + 4, dst_size := 0, dst := dst } := by
  have h9 := additional_le_nine f hnb
  have hz : (if ctx_zero.phase_func = .nullptr then { ctx_zero with phase_func := .phase_header }
      else ctx_zero) = { ctx_zero with phase_func := .phase_header } := rfl
  constructor
  · apply elz4_decompress_fuel_ret 1
    have hc := call_phase_header_complete 0 f bd extra [] (6 + extra.length)
      { mem := dst, pos := 0, size := n } hnb hx (Nat.le_refl _)
    rw [List.append_nil] at hc
    rw [elz4_decompress_of_drive, hz]
    have hl : (0x04 :: 0x22 :: 0x4D :: 0x18 :: f :: bd :: extra).length = 6 + extra.length := by
      simp only [List.length_cons]
      omega
    rw [hl, drive_step_ok (by simp only; omega) hc, drive_done (by simp only; omega)]
  · apply elz4_decompress_fuel_ret 2
    have hc := call_phase_header_complete 1 f bd extra [0, 0, 0, 0] (6 + extra.length + 4)
      { mem := dst, pos := 0, size := n } hnb hx (by omega)
    have hb := phase_block_size_complete
      { phase_func := .phase_block_size, current_block_size := 0,
        scratch := [0x04, 0x22, 0x4D, 0x18, f, bd] ++ extra ++
          List.replicate (9 - extra.length) 0,
        scratch_size := 0, flags := f, current_token := 0 }
      [0, 0, 0, 0] [] (6 + extra.length) (6 + extra.length + 4 - (6 + extra.length))
      { mem := dst, pos := 0, size := n }
      (by simp only [List.length_append, List.length_cons, List.length_nil,
            List.length_replicate]; omega)
      rfl (by simp only [List.length_cons, List.length_nil]; omega)
      (by
        intro b hb
        simp only [List.take_zero, List.nil_append, List.mem_cons, List.mem_singleton,
          List.not_mem_nil, or_false, or_self] at hb
        omega)
    have hrd : rd32 [0, 0, 0, 0] 0 = 0 := rfl
    simp only [List.take_zero, List.nil_append, hrd, if_true] at hb
    have hb2 : call_phase 0
        { phase_func := .phase_block_size, current_block_size := 0,
          scratch := [0x04, 0x22, 0x4D, 0x18, f, bd] ++ extra ++
            List.replicate (9 - extra.length) 0,
          scratch_size := 0, flags := f, current_token := 0 }
        { data := [0, 0, 0, 0], pos := 6 + extra.length,
          size := 6 + extra.length + 4 - (6 + extra.length) }
        { mem := dst, pos := 0, size := n } = _ := hb
    rw [elz4_decompress_of_drive, hz]
    have hl : (0x04 :: 0x22 :: 0x4D :: 0x18 :: f :: bd :: (extra ++ [0, 0, 0, 0])).length =
        6 + extra.length + 4 := by
      simp only [List.length_cons, List.length_append, List.length_nil]
      omega
    rw [hl, drive_step_ok (by simp only; omega) hc,
      drive_step_stop (by simp only; omega) (by decide) hb2]
    simp only [List.length_cons, List.length_nil]

/-! ## Which results a call can return -/

theorem read_length_loop_phase_func (slot nextPhase : Nat) (data : List Nat) :
    ∀ (pos size : Nat) (ctx c : elz4_ctx) (s : span),
      read_length_loop slot nextPhase data pos size ctx = .ret (c, s) →
        c.phase_func = ctx.phase_func ∧ c.current_block_size = ctx.current_block_size ∧
          c.flags = ctx.flags := by
  induction data with
  | nil =>
    intro pos size ctx c s h
    unfold read_length_loop at h
    split_ifs at h
    simp only [Outcome.ret.injEq, Prod.mk.injEq] at h
    rw [← h.1]
    exact ⟨rfl, rfl, rfl⟩
  | cons b rest ih =>
    intro pos size ctx c s h
    unfold read_length_loop at h
    split_ifs at h
    · simp only [Outcome.ret.injEq, Prod.mk.injEq] at h
      rw [← h.1]
      exact ⟨rfl, rfl, rfl⟩
    · have e := ih _ _ _ _ _ h
      exact e
    · simp only [Outcome.ret.injEq, Prod.mk.injEq] at h
      rw [← h.1]
      exact ⟨rfl, rfl, rfl⟩

theorem past_header_of_eq {c ctx : elz4_ctx} (h : c.phase_func = ctx.phase_func)
    (hp : past_header ctx) : past_header c := by
  unfold past_header at hp ⊢
  rw [h]
  exact hp

theorem phase_block_size_past_header (ctx c : elz4_ctx) (src s : span) (dst d : wspan)
    (r : elz4_result) (hp : past_header ctx)
    (h : phase_block_size ctx src dst = .ret (r, c, s, d)) : past_header c := by
  unfold phase_block_size FILL_AND_CHECK_SCRATCH_AREA at h
  cases h1 : fill_loop 4 src.data src.pos src.size ctx with
  | undef => rw [h1] at h; cases h
  | fuelOut => rw [h1] at h; cases h
  | ret p =>
    obtain ⟨c1, s1⟩ := p
    rw [h1] at h
    have hf := fill_loop_phase_func _ _ _ _ _ _ _ h1
    simp only at h
    split_ifs at h <;>
    · simp only [Outcome.ret.injEq, Prod.mk.injEq] at h
      obtain ⟨-, rfl, -, -⟩ := h
      first
        | exact past_header_of_eq hf hp
        | exact ⟨by simp [set_phase], by simp [set_phase]⟩

theorem phase_crc32_past_header (ctx c : elz4_ctx) (src s : span) (dst d : wspan)
    (r : elz4_result) (hp : past_header ctx)
    (h : phase_crc32 ctx src dst = .ret (r, c, s, d)) : past_header c := by
  unfold phase_crc32 FILL_AND_CHECK_SCRATCH_AREA at h
  cases h1 : fill_loop 4 src.data src.pos src.size ctx with
  | undef => rw [h1] at h; cases h
  | fuelOut => rw [h1] at h; cases h
  | ret p =>
    obtain ⟨c1, s1⟩ := p
    rw [h1] at h
    have hf := fill_loop_phase_func _ _ _ _ _ _ _ h1
    simp only at h
    split_ifs at h <;>
    · simp only [Outcome.ret.injEq, Prod.mk.injEq] at h
      obtain ⟨-, rfl, -, -⟩ := h
      first
        | exact past_header_of_eq hf hp
        | exact ⟨by simp [set_phase], by simp [set_phase]⟩

/-! ## What one step of the block decoder does to the context -/

theorem sub32_lt (a b : Nat) : sub32 a b < 4294967296 := by
  unfold sub32
  omega

theorem sub32_zero (a : Nat) (h : a < 4294967296) : sub32 a 0 = a := by
  unfold sub32
  omega

theorem sub32_sub32 (a x y : Nat) : sub32 (sub32 a x) y = sub32 a (x + y) := by
  unfold sub32
  omega

theorem read_length_loop_size_le (slot nextPhase : Nat) (data : List Nat) :
    ∀ (pos size : Nat) (ctx c : elz4_ctx) (s : span),
      read_length_loop slot nextPhase data pos size ctx = .ret (c, s) → s.size ≤ size := by
  induction data with
  | nil =>
    intro pos size ctx c s h
    unfold read_length_loop at h
    split_ifs at h
    simp only [Outcome.ret.injEq, Prod.mk.injEq] at h
    rw [← h.2]
  | cons b rest ih =>
    intro pos size ctx c s h
    unfold read_length_loop at h
    split_ifs at h
    · simp only [Outcome.ret.injEq, Prod.mk.injEq] at h
      rw [← h.2]
      exact Nat.sub_le _ _
    · have e := ih _ _ _ _ _ h
      omega
    · simp only [Outcome.ret.injEq, Prod.mk.injEq] at h
      rw [← h.2]

theorem step_read_token_facts (ctx c : elz4_ctx) (src s : span) (dst d : wspan)
    (o : Option elz4_result) (h : step_read_token ctx src dst = .ret (o, c, s, d)) :
    step_facts ctx src o c s := by
  unfold step_read_token span.next at h
  split at h
  · cases h
  · rename_i token s1 h1
    split at h1
    · cases h1
    · simp only [Option.some.injEq, Prod.mk.injEq] at h1
      obtain ⟨-, rfl⟩ := h1
      simp only [Outcome.ret.injEq, Prod.mk.injEq] at h
      obtain ⟨rfl, rfl, rfl, -⟩ := h
      exact ⟨rfl, rfl, Nat.sub_le _ _, fun _ => rfl, fun r hr => by cases hr⟩

theorem step_read_literals_length_facts (ctx c : elz4_ctx) (src s : span) (dst d : wspan)
    (o : Option elz4_result) (h : step_read_literals_length ctx src dst = .ret (o, c, s, d)) :
    step_facts ctx src o c s := by
  unfold step_read_literals_length at h
  cases h1 : read_length_loop 0 STATE_COPY_LITERALS src.data src.pos src.size ctx with
  | undef => rw [h1] at h; cases h
  | fuelOut => rw [h1] at h; cases h
  | ret p =>
    obtain ⟨c1, s1⟩ := p
    rw [h1] at h
    obtain ⟨e1, e2, e3⟩ := read_length_loop_phase_func _ _ _ _ _ _ _ _ h1
    have e4 := read_length_loop_size_le _ _ _ _ _ _ _ _ h1
    simp only [Outcome.ret.injEq, Prod.mk.injEq] at h
    obtain ⟨rfl, rfl, rfl, -⟩ := h
    exact ⟨e3, by simp only [account, e2], e4, fun _ => e1, fun r hr => by cases hr⟩

theorem step_read_match_length_facts (ctx c : elz4_ctx) (src s : span) (dst d : wspan)
    (o : Option elz4_result) (h : step_read_match_length ctx src dst = .ret (o, c, s, d)) :
    step_facts ctx src o c s := by
  unfold step_read_match_length at h
  cases h1 : read_length_loop 4 STATE_COPY_MATCH src.data src.pos src.size ctx with
  | undef => rw [h1] at h; cases h
  | fuelOut => rw [h1] at h; cases h
  | ret p =>
    obtain ⟨c1, s1⟩ := p
    rw [h1] at h
    obtain ⟨e1, e2, e3⟩ := read_length_loop_phase_func _ _ _ _ _ _ _ _ h1
    have e4 := read_length_loop_size_le _ _ _ _ _ _ _ _ h1
    simp only [Outcome.ret.injEq, Prod.mk.injEq] at h
    obtain ⟨rfl, rfl, rfl, -⟩ := h
    exact ⟨e3, by simp only [account, e2], e4, fun _ => e1, fun r hr => by cases hr⟩

theorem step_copy_literals_facts (ctx c : elz4_ctx) (src s : span) (dst d : wspan)
    (o : Option elz4_result) (hss : ctx.scratch_size = STATE_COPY_LITERALS)
    (h : step_copy_literals ctx src dst = .ret (o, c, s, d)) :
    step_facts ctx src o c s := by
  unfold step_copy_literals at h
  simp only at h
  split_ifs at h with h1 h2 h3 h4
  · simp only [Outcome.ret.injEq, Prod.mk.injEq] at h
    obtain ⟨rfl, rfl, rfl, -⟩ := h
    refine ⟨rfl, rfl, Nat.sub_le _ _, (fun hn => by cases hn), fun r hr => ?_⟩
    simp only [Option.some.injEq] at hr
    subst hr
    exact ⟨rfl, hss, h3, rfl, (if_pos h4).symm⟩
  · simp only [Outcome.ret.injEq, Prod.mk.injEq] at h
    obtain ⟨rfl, rfl, rfl, -⟩ := h
    refine ⟨rfl, rfl, Nat.sub_le _ _, (fun hn => by cases hn), fun r hr => ?_⟩
    simp only [Option.some.injEq] at hr
    subst hr
    exact ⟨rfl, hss, h3, rfl, (if_neg h4).symm⟩
  · simp only [Outcome.ret.injEq, Prod.mk.injEq] at h
    obtain ⟨rfl, rfl, rfl, -⟩ := h
    refine ⟨rfl, ?_, Nat.sub_le _ _, (fun _ => rfl), fun r hr => by cases hr⟩
    simp only [account, Nat.sub_self]
    exact sub32_zero _ (sub32_lt _ _)
  · simp only [Outcome.ret.injEq, Prod.mk.injEq] at h
    obtain ⟨rfl, rfl, rfl, -⟩ := h
    exact ⟨rfl, rfl, Nat.sub_le _ _, (fun _ => rfl), fun r hr => by cases hr⟩

theorem offset_done_fields (ctx : elz4_ctx) :
    (offset_done ctx).phase_func = ctx.phase_func ∧ (offset_done ctx).flags = ctx.flags ∧
      (offset_done ctx).current_block_size = ctx.current_block_size := by
  unfold offset_done
  split_ifs <;> exact ⟨rfl, rfl, rfl⟩

theorem account_offset_done_facts (ctx0 ctx : elz4_ctx) (src s : span)
    (hp : ctx.phase_func = ctx0.phase_func) (hf : ctx.flags = ctx0.flags)
    (hc : ctx.current_block_size = ctx0.current_block_size) (hle : s.size ≤ src.size) :
    step_facts ctx0 src none (account (offset_done ctx) src.size s) s := by
  obtain ⟨e1, e2, e3⟩ := offset_done_fields ctx
  refine ⟨?_, ?_, hle, (fun _ => ?_), fun r hr => by cases hr⟩
  · exact e2.trans hf
  · simp only [account, e3, hc]
  · exact e1.trans hp

theorem step_read_offset_facts (ctx c : elz4_ctx) (src s : span) (dst d : wspan)
    (o : Option elz4_result) (h : step_read_offset ctx src dst = .ret (o, c, s, d)) :
    step_facts ctx src o c s := by
  unfold step_read_offset at h
  split_ifs at h with h1 h2
  · split at h
    · simp only [Outcome.ret.injEq, Prod.mk.injEq] at h
      obtain ⟨rfl, rfl, rfl, -⟩ := h
      exact account_offset_done_facts _ _ _ _ rfl rfl rfl (Nat.sub_le _ _)
    · cases h
  · split at h
    · cases h
    · rename_i b s1 hn
      simp only at h
      split_ifs at h
      simp only [Outcome.ret.injEq, Prod.mk.injEq] at h
      obtain ⟨rfl, rfl, rfl, -⟩ := h
      refine account_offset_done_facts _ _ _ _ rfl rfl rfl ?_
      unfold span.next at hn
      split at hn
      · cases hn
      · simp only [Option.some.injEq, Prod.mk.injEq] at hn
        rw [← hn.2]
        exact Nat.sub_le _ _
  · simp only [Outcome.ret.injEq, Prod.mk.injEq] at h
    obtain ⟨rfl, rfl, rfl, -⟩ := h
    exact account_offset_done_facts _ _ _ _ rfl rfl rfl (le_refl _)

theorem step_copy_match_facts (ctx c : elz4_ctx) (src s : span) (dst d : wspan)
    (o : Option elz4_result) (h : step_copy_match ctx src dst = .ret (o, c, s, d)) :
    step_facts ctx src o c s := by
  unfold step_copy_match at h
  simp only at h
  split at h
  · cases h
  · split_ifs at h <;>
    · simp only [Outcome.ret.injEq, Prod.mk.injEq] at h
      obtain ⟨rfl, rfl, rfl, -⟩ := h
      exact ⟨rfl, rfl, le_refl _, (fun _ => rfl), fun r hr => by cases hr⟩

theorem block_step_facts (ctx c : elz4_ctx) (src s : span) (dst d : wspan)
    (o : Option elz4_result) (h : block_step ctx src dst = .ret (o, c, s, d)) :
    step_facts ctx src o c s := by
  unfold block_step at h
  split_ifs at h with h0 h1 h2 h3 h4 h5
  · exact step_read_token_facts _ _ _ _ _ _ _ h
  · exact step_read_literals_length_facts _ _ _ _ _ _ _ h
  · exact step_copy_literals_facts _ _ _ _ _ _ _ h2 h
  · exact step_read_offset_facts _ _ _ _ _ _ _ h
  · exact step_read_match_length_facts _ _ _ _ _ _ _ h
  · exact step_copy_match_facts _ _ _ _ _ _ _ h
  · simp only [Outcome.ret.injEq, Prod.mk.injEq] at h
    obtain ⟨rfl, rfl, rfl, -⟩ := h
    exact ⟨rfl, rfl, le_refl _, (fun _ => rfl), fun r hr => by cases hr⟩

/-- For any payload: a sub-state step that consumes `k` input bytes replaces the block size
`b` by `(b - k) mod 2^32`, so the block size does not increase when `k ≤ b` and wraps round
to `b + 2^32 - k` when `b < k < 2^32`; a step returns a result only in
`STATE_COPY_LITERALS`, with block size 0, and every other step keeps the phase. -/
theorem block_size_step (ctx c : elz4_ctx) (src s : span) (dst d : wspan)
    (o : Option elz4_result) (hlt : ctx.current_block_size < 4294967296)
    (h : block_step ctx src dst = .ret (o, c, s, d)) :
    (src.size - s.size ≤ ctx.current_block_size →
      c.current_block_size = ctx.current_block_size - (src.size - s.size) ∧
        c.current_block_size ≤ ctx.current_block_size) ∧
    (ctx.current_block_size < src.size - s.size → src.size - s.size < 4294967296 →
      c.current_block_size = ctx.current_block_size + 4294967296 - (src.size - s.size) ∧
        ctx.current_block_size < c.current_block_size) ∧
    (∀ r, o = some r →
      r = .ELZ4_RESULT_OK ∧ ctx.scratch_size = STATE_COPY_LITERALS ∧
        c.current_block_size = 0) ∧
    (o = none → c.phase_func = ctx.phase_func) := by
  obtain ⟨-, f2, -, f4, f5⟩ := block_step_facts _ _ _ _ _ _ _ h
  refine ⟨fun hle => ?_, fun h1 h2 => ?_, fun r hr => ?_, f4⟩
  · rw [f2, sub32_of_le _ _ hlt hle]
    exact ⟨rfl, Nat.sub_le _ _⟩
  · rw [f2]
    unfold sub32
    omega
  · obtain ⟨k1, k2, k3, -, -⟩ := f5 r hr
    exact ⟨k1, k2, k3⟩

/-! ## What a run of the block decoder does to the context -/

theorem phase_decompress_block_facts (fuel : Nat) :
    ∀ (ctx c : elz4_ctx) (src s : span) (dst d : wspan) (r : elz4_result),
      phase_decompress_block fuel ctx src dst = .ret (r, c, s, d) →
      c.flags = ctx.flags ∧
      (ctx.current_block_size < 4294967296 →
        c.current_block_size = sub32 ctx.current_block_size (src.size - s.size)) ∧
      s.size ≤ src.size ∧
      (c.phase_func = ctx.phase_func ∨
        (c.current_block_size = 0 ∧ c.scratch_size = 0 ∧
          c.phase_func =
            if ctx.flags &&& ELZ4_FLAG_BLOCK_CRC32 ≠ 0 then .phase_crc32
            else .phase_block_size)) := by
  induction fuel with
  | zero =>
    intro ctx c src s dst d r h
    unfold phase_decompress_block at h
    split_ifs at h
    simp only [Outcome.ret.injEq, Prod.mk.injEq] at h
    obtain ⟨-, rfl, rfl, -⟩ := h
    refine ⟨rfl, (fun hlt => ?_), le_refl _, Or.inl rfl⟩
    rw [Nat.sub_self, sub32_zero _ hlt]
  | succ n ih =>
    intro ctx c src s dst d r h
    by_cases hs : src.size = 0
    · rw [block_loop_done hs] at h
      simp only [Outcome.ret.injEq, Prod.mk.injEq] at h
      obtain ⟨-, rfl, rfl, -⟩ := h
      refine ⟨rfl, (fun hlt => ?_), le_refl _, Or.inl rfl⟩
      rw [Nat.sub_self, sub32_zero _ hlt]
    · cases hb : block_step ctx src dst with
      | undef => rw [block_loop_undef hs hb] at h; cases h
      | fuelOut => simp [phase_decompress_block, hs, hb] at h
      | ret p =>
        obtain ⟨o, c1, s1, d1⟩ := p
        obtain ⟨f1, f2, f3, f4, f5⟩ := block_step_facts _ _ _ _ _ _ _ hb
        cases o with
        | none =>
          rw [block_loop_step hs hb] at h
          obtain ⟨g1, g2, g3, g4⟩ := ih _ _ _ _ _ _ _ h
          refine ⟨g1.trans f1, (fun _ => ?_), le_trans g3 f3, ?_⟩
          · rw [g2 (by rw [f2]; exact sub32_lt _ _), f2, sub32_sub32]
            congr 1
            omega
          · rcases g4 with g4 | g4
            · exact Or.inl (g4.trans (f4 rfl))
            · rw [f1] at g4
              exact Or.inr g4
        | some r1 =>
          rw [block_loop_return hs hb] at h
          simp only [Outcome.ret.injEq, Prod.mk.injEq] at h
          obtain ⟨-, rfl, rfl, -⟩ := h
          obtain ⟨-, -, k1, k2, k3⟩ := f5 r1 rfl
          exact ⟨f1, (fun _ => f2), f3, Or.inr ⟨k1, k2, k3⟩⟩

theorem phase_decompress_block_past_header (fuel : Nat) (ctx c : elz4_ctx) (src s : span)
    (dst d : wspan) (r : elz4_result) (hp : past_header ctx)
    (h : phase_decompress_block fuel ctx src dst = .ret (r, c, s, d)) : past_header c := by
  obtain ⟨-, -, -, g⟩ := phase_decompress_block_facts _ _ _ _ _ _ _ _ h
  rcases g with g | ⟨-, -, g⟩
  · exact past_header_of_eq g hp
  · unfold past_header
    rw [g]
    split_ifs <;> exact ⟨by decide, by decide⟩

/-- A phase returns `ELZ4_RESULT_OK`, `ELZ4_RESULT_EOF` or `ELZ4_RESULT_INVALID_HEADER`. -/
theorem call_phase_result (fuel : Nat) (ctx c : elz4_ctx) (src s : span) (dst d : wspan)
    (r : elz4_result) (h : call_phase fuel ctx src dst = .ret (r, c, s, d)) :
    r = .ELZ4_RESULT_OK ∨ r = .ELZ4_RESULT_EOF ∨ r = .ELZ4_RESULT_INVALID_HEADER := by
  unfold call_phase at h
  split at h
  · cases h
  · rcases phase_header_result _ _ _ _ _ _ _ h with hh | hh
    · exact Or.inl hh
    · exact Or.inr (Or.inr hh)
  · rcases (phase_block_size_result _ _ _ _ _ _ _ h).1 with hh | hh
    · exact Or.inl hh
    · exact Or.inr (Or.inl hh)
  · exact Or.inl (phase_crc32_result _ _ _ _ _ _ _ h)
  · exact Or.inl (phase_decompress_block_result _ _ _ _ _ _ _ _ h)
  · unfold phase_memcpy_block at h
    simp only [Outcome.ret.injEq, Prod.mk.injEq] at h
    exact Or.inl h.1.symm

/-- Past the header a phase returns `ELZ4_RESULT_OK` or `ELZ4_RESULT_EOF` and the context
stays past the header. -/
theorem call_phase_past_header (fuel : Nat) (ctx c : elz4_ctx) (src s : span) (dst d : wspan)
    (r : elz4_result) (hp : past_header ctx)
    (h : call_phase fuel ctx src dst = .ret (r, c, s, d)) :
    past_header c ∧ (r = .ELZ4_RESULT_OK ∨ r = .ELZ4_RESULT_EOF) := by
  unfold call_phase at h
  split at h
  · cases h
  · rename_i hf
    exact absurd hf hp.2
  · exact ⟨phase_block_size_past_header _ _ _ _ _ _ _ hp h,
      (phase_block_size_result _ _ _ _ _ _ _ h).1⟩
  · exact ⟨phase_crc32_past_header _ _ _ _ _ _ _ hp h,
      Or.inl (phase_crc32_result _ _ _ _ _ _ _ h)⟩
  · exact ⟨phase_decompress_block_past_header _ _ _ _ _ _ _ _ hp h,
      Or.inl (phase_decompress_block_result _ _ _ _ _ _ _ _ h)⟩
  · unfold phase_memcpy_block at h
    simp only [Outcome.ret.injEq, Prod.mk.injEq] at h
    obtain ⟨rfl, rfl, -, -⟩ := h
    exact ⟨hp, Or.inl rfl⟩

/-- The driver returns what it started with when there was no input, `ELZ4_RESULT_OK` with
the input drained, or the non-OK result of the phase it stopped at. -/
theorem drive_result (fuel : Nat) :
    ∀ (r0 r : elz4_result) (ctx c : elz4_ctx) (src s : span) (dst d : wspan),
      drive fuel r0 ctx src dst = .ret (r, c, s, d) →
      (src.size = 0 ∧ r = r0 ∧ c = ctx ∧ s = src ∧ d = dst) ∨
      (src.size ≠ 0 ∧ r = .ELZ4_RESULT_OK ∧ s.size = 0) ∨
      (src.size ≠ 0 ∧ r ≠ .ELZ4_RESULT_OK ∧
        ∃ (k : Nat) (c0 : elz4_ctx) (s0 : span) (d0 : wspan),
          s0.size ≠ 0 ∧ call_phase k c0 s0 d0 = .ret (r, c, s, d)) := by
  induction fuel with
  | zero =>
    intro r0 r ctx c src s dst d h
    unfold drive at h
    split_ifs at h with hs
    simp only [Outcome.ret.injEq, Prod.mk.injEq] at h
    obtain ⟨rfl, rfl, rfl, rfl⟩ := h
    exact Or.inl ⟨hs, rfl, rfl, rfl, rfl⟩
  | succ n ih =>
    intro r0 r ctx c src s dst d h
    by_cases hs : src.size = 0
    · rw [drive_done hs] at h
      simp only [Outcome.ret.injEq, Prod.mk.injEq] at h
      obtain ⟨rfl, rfl, rfl, rfl⟩ := h
      exact Or.inl ⟨hs, rfl, rfl, rfl, rfl⟩
    · cases hc : call_phase n ctx src dst with
      | undef => rw [drive_step_undef hc hs] at h; cases h
      | fuelOut => rw [drive_step_fuelOut hc hs] at h; cases h
      | ret p =>
        obtain ⟨r1, c1, s1, d1⟩ := p
        by_cases hr : r1 = .ELZ4_RESULT_OK
        · subst hr
          rw [drive_step_ok hs hc] at h
          rcases ih _ _ _ _ _ _ _ _ h with ⟨a1, a2, -, a4, -⟩ | ⟨-, a2, a3⟩ | ⟨-, a2, a3⟩
          · subst a2 a4
            exact Or.inr (Or.inl ⟨hs, rfl, a1⟩)
          · exact Or.inr (Or.inl ⟨hs, a2, a3⟩)
          · exact Or.inr (Or.inr ⟨hs, a2, a3⟩)
        · rw [drive_step_stop hs hr hc] at h
          simp only [Outcome.ret.injEq, Prod.mk.injEq] at h
          obtain ⟨rfl, rfl, rfl, rfl⟩ := h
          exact Or.inr (Or.inr ⟨hs, hr, n, ctx, src, dst, hs, hc⟩)

theorem drive_result_set (fuel : Nat) :
    ∀ (r : elz4_result) (ctx c : elz4_ctx) (src s : span) (dst d : wspan),
      drive fuel .ELZ4_RESULT_OK ctx src dst = .ret (r, c, s, d) →
      (r = .ELZ4_RESULT_OK ∨ r = .ELZ4_RESULT_EOF ∨ r = .ELZ4_RESULT_INVALID_HEADER) ∧
      (past_header ctx → past_header c ∧ (r = .ELZ4_RESULT_OK ∨ r = .ELZ4_RESULT_EOF)) := by
  induction fuel with
  | zero =>
    intro r ctx c src s dst d h
    unfold drive at h
    split_ifs at h with hs
    simp only [Outcome.ret.injEq, Prod.mk.injEq] at h
    obtain ⟨rfl, rfl, rfl, rfl⟩ := h
    exact ⟨Or.inl rfl, fun hp => ⟨hp, Or.inl rfl⟩⟩
  | succ n ih =>
    intro r ctx c src s dst d h
    by_cases hs : src.size = 0
    · rw [drive_done hs] at h
      simp only [Outcome.ret.injEq, Prod.mk.injEq] at h
      obtain ⟨rfl, rfl, rfl, rfl⟩ := h
      exact ⟨Or.inl rfl, fun hp => ⟨hp, Or.inl rfl⟩⟩
    · cases hc : call_phase n ctx src dst with
      | undef => rw [drive_step_undef hc hs] at h; cases h
      | fuelOut => rw [drive_step_fuelOut hc hs] at h; cases h
      | ret p =>
        obtain ⟨r1, c1, s1, d1⟩ := p
        by_cases hr : r1 = .ELZ4_RESULT_OK
        · subst hr
          rw [drive_step_ok hs hc] at h
          obtain ⟨a1, a2⟩ := ih _ _ _ _ _ _ _ h
          exact ⟨a1, fun hp => a2 (call_phase_past_header _ _ _ _ _ _ _ _ hp hc).1⟩
        · rw [drive_step_stop hs hr hc] at h
          simp only [Outcome.ret.injEq, Prod.mk.injEq] at h
          obtain ⟨rfl, rfl, rfl, rfl⟩ := h
          exact ⟨call_phase_result _ _ _ _ _ _ _ _ hc,
            fun hp => call_phase_past_header _ _ _ _ _ _ _ _ hp hc⟩

/-! ## The end of a literal copy and the block checksum -/

/-- A literal copy that finds all its bytes in the input span and room for them in the
output span: the literal count drops to 0, the block size goes down by the bytes copied,
and the block size decides between leaving the block decoder and reading an offset. -/
theorem step_copy_literals_complete (ctx : elz4_ctx) (src : span) (dst : wspan)
    (h1 : rd32 ctx.scratch 0 ≤ src.size) (h2 : rd32 ctx.scratch 0 ≤ dst.size)
    (h3 : rd32 ctx.scratch 0 ≤ src.data.length) :
    step_copy_literals ctx src dst =
      .ret
        (if sub32 ctx.current_block_size (rd32 ctx.scratch 0) = 0 then some .ELZ4_RESULT_OK
          else none,
        { ctx with
            scratch := wr32 ctx.scratch 0 0,
            current_block_size := sub32 ctx.current_block_size (rd32 ctx.scratch 0),
            scratch_size :=
              if sub32 ctx.current_block_size (rd32 ctx.scratch 0) = 0 then 0
              else STATE_READ_OFFSET,
            phase_func :=
              if sub32 ctx.current_block_size (rd32 ctx.scratch 0) = 0 then
                (if ctx.flags &&& ELZ4_FLAG_BLOCK_CRC32 ≠ 0 then .phase_crc32
                  else .phase_block_size)
              else ctx.phase_func },
        src.skip (rd32 ctx.scratch 0),
        dst.skip (src.data.take (rd32 ctx.scratch 0)) (rd32 ctx.scratch 0)) := by
  have hmin : min (min (rd32 ctx.scratch 0) src.size) dst.size = rd32 ctx.scratch 0 := by omega
  have hk : src.size - (src.size - rd32 ctx.scratch 0) = rd32 ctx.scratch 0 := by omega
  have hnl : ¬ src.data.length < rd32 ctx.scratch 0 := by omega
  unfold step_copy_literals
  simp only [hmin, hnl, if_false, sub32_self, if_true, account, span.skip, hk, set_phase]
  by_cases hz : sub32 ctx.current_block_size (rd32 ctx.scratch 0) = 0
  · simp only [hz, if_true]
  · simp only [hz, if_false, Nat.sub_self, sub32_zero _ (sub32_lt _ _)]

theorem phase_crc32_complete (ctx : elz4_ctx) (xs rest : List Nat) (pos size : Nat)
    (dst : wspan) (hlen : ctx.scratch.length = 15) (hk : ctx.scratch_size + xs.length = 4)
    (hsz : xs.length ≤ size) :
    phase_crc32 ctx { data := xs ++ rest, pos := pos, size := size } dst =
      .ret (.ELZ4_RESULT_OK,
        { ctx with scratch := ctx.scratch.take ctx.scratch_size ++ xs ++ ctx.scratch.drop 4,
                   scratch_size := 0, phase_func := .phase_block_size },
        { data := rest, pos := pos + xs.length, size := size - xs.length }, dst) := by
  have hfill := fill_loop_append 4 xs rest pos size ctx (by omega) (by omega) hlen hsz
    (Or.inl hk)
  unfold phase_crc32 FILL_AND_CHECK_SCRATCH_AREA
  rw [hfill]
  simp only [hk, ne_eq, not_true_eq_false, if_false, set_phase]

theorem phase_crc32_partial (ctx : elz4_ctx) (ys : List Nat) (pos : Nat) (dst : wspan)
    (hlen : ctx.scratch.length = 15) (hys : ctx.scratch_size + ys.length < 4) :
    phase_crc32 ctx { data := ys, pos := pos, size := ys.length } dst =
      .ret (.ELZ4_RESULT_OK,
        { ctx with
            scratch := ctx.scratch.take ctx.scratch_size ++ ys ++
              ctx.scratch.drop (ctx.scratch_size + ys.length),
            scratch_size := ctx.scratch_size + ys.length },
        { data := [], pos := pos + ys.length, size := 0 }, dst) := by
  have hfill := fill_loop_append 4 ys [] pos ys.length ctx (by omega) (by omega) hlen
    (Nat.le_refl _) (Or.inr rfl)
  rw [List.append_nil] at hfill
  unfold phase_crc32 FILL_AND_CHECK_SCRATCH_AREA
  rw [hfill]
  have hne : ctx.scratch_size + ys.length ≠ 4 := by omega
  simp [hne]

/-! ## The two ways of reading the offset -/

theorem lor_second_byte (b0 b1 : Nat) (h : b0 < 256) : b0 ||| (b1 * 2 ^ (8 * 1)) = b0 + 256 * b1 := by
  have e := Nat.mul_add_lt_is_or (show b0 < 2 ^ 8 by omega) b1
  rw [Nat.lor_comm, Nat.mul_comm b1, show 8 * 1 = 8 from rfl, ← e]
  omega

theorem lor_first_byte (b0 : Nat) : 0 ||| (b0 * 2 ^ (8 * 0)) = b0 := by
  simp

theorem wr32_offset_words (s : List Nat) (a u b w : Nat) :
    wr32 (wr32 (wr32 (wr32 s 0 a) 4 u) 0 b) 4 w = wr32 (wr32 s 0 b) 4 w := by
  unfold wr32
  apply List.ext_getElem?
  intro n
  simp only [List.getElem?_set, List.length_set]
  match n with
  | 0 => simp
  | 1 => simp
  | 2 => simp
  | 3 => simp
  | 4 => simp
  | 5 => simp
  | 6 => simp
  | 7 => simp
  | n + 8 => simp

theorem offset_done_two (c : elz4_ctx) (h : rd32 c.scratch 4 = 2) :
    offset_done c =
      { c with
          scratch := wr32 c.scratch 4 ((c.current_token &&& 0x0F) + 4),
          scratch_size := if (c.current_token &&& 0x0F) + 4 < 19 then STATE_COPY_MATCH
                          else STATE_READ_MATCH_LENGTH } := by
  unfold offset_done
  rw [if_pos h]

theorem offset_done_other (c : elz4_ctx) (h : rd32 c.scratch 4 ≠ 2) : offset_done c = c := by
  unfold offset_done
  rw [if_neg h]

/-- The two-byte path of `STATE_READ_OFFSET`. -/
theorem block_step_offset_fast (ctx : elz4_ctx) (b0 b1 : Nat) (rest : List Nat) (pos size : Nat)
    (dst : wspan) (hss : ctx.scratch_size = STATE_READ_OFFSET) (h4 : rd32 ctx.scratch 4 = 0)
    (hsz : 2 ≤ size) (hlen : ctx.scratch.length = 15) :
    block_step ctx { data := b0 :: b1 :: rest, pos := pos, size := size } dst =
      .ret (none,
        { ctx with
            scratch := wr32 (wr32 ctx.scratch 0 (b0 + 256 * b1)) 4
              ((ctx.current_token &&& 0x0F) + 4),
            scratch_size := if (ctx.current_token &&& 0x0F) + 4 < 19 then STATE_COPY_MATCH
                            else STATE_READ_MATCH_LENGTH,
            current_block_size := sub32 ctx.current_block_size 2 },
        { data := rest, pos := pos + 2, size := size - 2 }, dst) := by
  have hb : block_step ctx { data := b0 :: b1 :: rest, pos := pos, size := size } dst =
      step_read_offset ctx { data := b0 :: b1 :: rest, pos := pos, size := size } dst := by
    unfold block_step
    rw [hss]
    rfl
  have h2 : rd32 (wr32 (wr32 ctx.scratch 0 (b0 + 256 * b1)) 4 2) 4 = 2 := by
    rw [rd32_wr32_same _ _ _ (by rw [wr32_length]; omega)]
  have hk : size - (size - 2) = 2 := by omega
  rw [hb]
  unfold step_read_offset
  simp only [h4, hsz, and_self, if_true, span.skip, List.drop_succ_cons, List.drop_zero]
  rw [offset_done_two { ctx with scratch := wr32 (wr32 ctx.scratch 0 (b0 + 256 * b1)) 4 2 } h2]
  simp only [account, wr32_wr32_same, hk]

/-- The byte-at-a-time path of `STATE_READ_OFFSET` on the first offset byte, when it is the
last byte of the input span. -/
theorem block_step_offset_first (ctx : elz4_ctx) (b0 : Nat) (rest : List Nat) (pos : Nat)
    (dst : wspan) (hss : ctx.scratch_size = STATE_READ_OFFSET) (h0 : rd32 ctx.scratch 0 = 0)
    (h4 : rd32 ctx.scratch 4 = 0) (hlen : ctx.scratch.length = 15) :
    block_step ctx { data := b0 :: rest, pos := pos, size := 1 } dst =
      .ret (none,
        { ctx with
            scratch := wr32 (wr32 ctx.scratch 0 b0) 4 1,
            current_block_size := sub32 ctx.current_block_size 1 },
        { data := rest, pos := pos + 1, size := 0 }, dst) := by
  have hb : block_step ctx { data := b0 :: rest, pos := pos, size := 1 } dst =
      step_read_offset ctx { data := b0 :: rest, pos := pos, size := 1 } dst := by
    unfold block_step
    rw [hss]
    rfl
  have h1 : rd32 (wr32 (wr32 ctx.scratch 0 b0) 4 1) 4 ≠ 2 := by
    rw [rd32_wr32_same _ _ _ (by rw [wr32_length]; omega)]
    decide
  rw [hb]
  unfold step_read_offset
  simp only [h4, h0, span.next, lor_first_byte]
  simp only [show ¬ (2 ≤ 1) by decide, and_false, if_false, show (0 : Nat) < 1 by decide, if_true,
    show ¬ (4 ≤ 0) by decide, Nat.zero_add]
  rw [offset_done_other { ctx with scratch := wr32 (wr32 ctx.scratch 0 b0) 4 1 } h1]
  simp only [account]

/-- The byte-at-a-time path of `STATE_READ_OFFSET` on the second offset byte. -/
theorem block_step_offset_second (ctx : elz4_ctx) (b0 b1 : Nat) (rest : List Nat)
    (pos size : Nat) (dst : wspan) (hss : ctx.scratch_size = STATE_READ_OFFSET)
    (h0 : rd32 ctx.scratch 0 = b0) (h4 : rd32 ctx.scratch 4 = 1) (hb0 : b0 < 256)
    (hsz : 1 ≤ size) (hlen : ctx.scratch.length = 15) :
    block_step ctx { data := b1 :: rest, pos := pos, size := size } dst =
      .ret (none,
        { ctx with
            scratch := wr32 (wr32 ctx.scratch 0 (b0 + 256 * b1)) 4
              ((ctx.current_token &&& 0x0F) + 4),
            scratch_size := if (ctx.current_token &&& 0x0F) + 4 < 19 then STATE_COPY_MATCH
                            else STATE_READ_MATCH_LENGTH,
            current_block_size := sub32 ctx.current_block_size 1 },
        { data := rest, pos := pos + 1, size := size - 1 }, dst) := by
  have hb : block_step ctx { data := b1 :: rest, pos := pos, size := size } dst =
      step_read_offset ctx { data := b1 :: rest, pos := pos, size := size } dst := by
    unfold block_step
    rw [hss]
    rfl
  have h2 : rd32 (wr32 (wr32 ctx.scratch 0 (b0 + 256 * b1)) 4 2) 4 = 2 := by
    rw [rd32_wr32_same _ _ _ (by rw [wr32_length]; omega)]
  have hk : size - (size - 1) = 1 := by omega
  have hpos : 0 < size := by omega
  rw [hb]
  unfold step_read_offset
  simp only [h4, h0, span.next, lor_second_byte b0 b1 hb0]
  simp only [show ¬ ((1 : Nat) = 0) by decide, false_and, if_false, hpos, if_true,
    show ¬ (4 ≤ 1) by decide]
  rw [offset_done_two { ctx with scratch := wr32 (wr32 ctx.scratch 0 (b0 + 256 * b1)) 4 2 } h2]
  simp only [account, wr32_wr32_same, hk]

/-- A call inside a block whose first sub-state step drains the input span. -/
theorem elz4_decompress_one_step (k : Nat) (ctx c : elz4_ctx) (src dst : List Nat) (n : Nat)
    (s1 : span) (d1 : wspan) (hp : ctx.phase_func = .phase_decompress_block)
    (hne : src.length ≠ 0)
    (hstep : block_step ctx { data := src, pos := 0, size := src.length }
      { mem := dst, pos := 0, size := n } = .ret (none, c, s1, d1))
    (hs1 : s1.size = 0) :
    elz4_decompress (k + 2) ctx src dst n =
      .ret { result := .ELZ4_RESULT_OK, ctx := c, src_size := s1.pos, dst_size := d1.pos,
             dst := d1.mem } := by
  have hnn : ¬ ctx.phase_func = .nullptr := by
    rw [hp]
    decide
  have hcall : call_phase (k + 1) ctx { data := src, pos := 0, size := src.length }
      { mem := dst, pos := 0, size := n } = .ret (.ELZ4_RESULT_OK, c, s1, d1) := by
    unfold call_phase
    rw [hp]
    exact (block_loop_step hne hstep).trans (block_loop_done hs1)
  rw [elz4_decompress_of_drive, if_neg hnn, drive_step_ok hne hcall, drive_done hs1]

/-- The scratch words on the way into `STATE_READ_OFFSET`: the token step clears the second
word, and the step that completes the literal copy leaves the first word at 0 and the second
as it was. -/
theorem scratch_words_before_offset (s : List Nat) (lit : Nat) (hs : s.length = 15) :
    rd32 (wr32 (List.replicate 15 0) 0 lit) 4 = 0 ∧ rd32 (wr32 s 0 0) 0 = 0 ∧
      rd32 (wr32 s 0 0) 4 = rd32 s 4 ∧ (wr32 s 0 0).length = 15 := by
  refine ⟨?_, ?_, ?_, ?_⟩
  · rw [rd32_wr32_other _ _ _ _ (Or.inl (by decide))]
    rfl
  · rw [rd32_wr32_same _ _ _ (by omega)]
  · rw [rd32_wr32_other _ _ _ _ (Or.inl (by decide))]
  · rw [wr32_length, hs]

/-! ## The match length bytes and the stores of the scratch accumulator -/

theorem block_step_read_match_length (ctx : elz4_ctx) (q r : Nat) (rest : List Nat)
    (pos size : Nat) (dst : wspan) (hss : ctx.scratch_size = STATE_READ_MATCH_LENGTH)
    (hr : r ≠ 255) (hs : q + 1 ≤ size) (hl : ctx.scratch.length = 15) :
    block_step ctx { data := List.replicate q 255 ++ r :: rest, pos := pos, size := size } dst =
      .ret (none,
        { ctx with scratch := wr32 ctx.scratch 4 (rd32 ctx.scratch 4 + 255 * q + r),
                   scratch_size := STATE_COPY_MATCH,
                   current_block_size := sub32 ctx.current_block_size (q + 1) },
        { data := rest, pos := pos + (q + 1), size := size - (q + 1) }, dst) := by
  have h1 : size - (size - (q + 1)) = q + 1 := by omega
  simp [block_step, hss, step_read_match_length, account, STATE_READ_TOKEN,
    STATE_COPY_LITERALS, STATE_READ_LITERALS_LENGTH, STATE_READ_OFFSET, STATE_READ_MATCH_LENGTH,
    STATE_COPY_MATCH,
    read_length_loop_run 4 5 r rest hr q pos size ctx hs (by omega), h1]

/-- With the scratch area full, a request for more bytes on a non-empty span stores at
index 15. -/
theorem fill_loop_past_the_end (n b : Nat) (rest : List Nat) (pos size : Nat) (ctx : elz4_ctx)
    (h15 : ctx.scratch_size = 15) (hn : 15 < n) (hs : 0 < size) :
    fill_loop n (b :: rest) pos size ctx = .undef := by
  unfold fill_loop
  rw [if_pos ⟨by omega, hs⟩, if_neg (by omega)]

/-! ## Blocks that end with the last literal of a sequence -/

theorem ends_with_literals_cons {rest : List Nat} {st v tok : Nat}
    (h : ends_with_literals rest st v tok = true) :
    ∃ b r, rest = b :: r ∧ b < 256 := by
  cases rest with
  | nil => simp [ends_with_literals] at h
  | cons b r =>
    refine ⟨b, r, rfl, ?_⟩
    by_contra hb
    simp [ends_with_literals, show 256 ≤ b by omega] at h

theorem ends_with_literals_token (b : Nat) (r : List Nat) (st v tok : Nat)
    (hst : st = STATE_READ_TOKEN ∨ st = STATE_COPY_MATCH)
    (h : ends_with_literals (b :: r) st v tok = true) :
    ends_with_literals r
      (if b / 16 < 15 then STATE_COPY_LITERALS else STATE_READ_LITERALS_LENGTH) (b / 16) b = true := by
  obtain ⟨b1, r1, e, hb⟩ := ends_with_literals_cons h
  simp only [List.cons.injEq] at e
  obtain ⟨rfl, rfl⟩ := e
  unfold ends_with_literals at h
  rw [if_neg (by omega), if_pos hst] at h
  exact h

theorem ends_with_literals_length (b : Nat) (r : List Nat) (v tok : Nat)
    (h : ends_with_literals (b :: r) STATE_READ_LITERALS_LENGTH v tok = true) :
    ends_with_literals r (if b ≠ 0xFF then STATE_COPY_LITERALS else STATE_READ_LITERALS_LENGTH)
      ((v + b) % 4294967296) tok = true := by
  obtain ⟨b1, r1, e, hb⟩ := ends_with_literals_cons h
  simp only [List.cons.injEq] at e
  obtain ⟨rfl, rfl⟩ := e
  unfold ends_with_literals at h
  rw [if_neg (by omega), if_neg (by decide), if_pos rfl] at h
  exact h

theorem ends_with_literals_match_length (b : Nat) (r : List Nat) (v tok : Nat)
    (h : ends_with_literals (b :: r) STATE_READ_MATCH_LENGTH v tok = true) :
    ends_with_literals r (if b ≠ 0xFF then STATE_COPY_MATCH else STATE_READ_MATCH_LENGTH) 0 0 =
      true := by
  obtain ⟨b1, r1, e, hb⟩ := ends_with_literals_cons h
  simp only [List.cons.injEq] at e
  obtain ⟨rfl, rfl⟩ := e
  unfold ends_with_literals at h
  rw [if_neg (by omega), if_neg (by decide), if_neg (by decide), if_neg (by decide),
    if_neg (by decide), if_pos rfl] at h
  exact h

theorem ends_with_literals_offset_first (b : Nat) (r : List Nat) (tok : Nat)
    (h : ends_with_literals (b :: r) STATE_READ_OFFSET 0 tok = true) :
    ends_with_literals r STATE_READ_OFFSET 1 tok = true := by
  obtain ⟨b1, r1, e, hb⟩ := ends_with_literals_cons h
  simp only [List.cons.injEq] at e
  obtain ⟨rfl, rfl⟩ := e
  unfold ends_with_literals at h
  rw [if_neg (by omega), if_neg (by decide), if_neg (by decide), if_neg (by decide),
    if_pos rfl, if_pos rfl] at h
  exact h

theorem ends_with_literals_offset_second (b : Nat) (r : List Nat) (tok : Nat)
    (h : ends_with_literals (b :: r) STATE_READ_OFFSET 1 tok = true) :
    ends_with_literals r
      (if (tok &&& 0x0F) + 4 < 19 then STATE_COPY_MATCH else STATE_READ_MATCH_LENGTH) 0 0 =
        true := by
  obtain ⟨b1, r1, e, hb⟩ := ends_with_literals_cons h
  simp only [List.cons.injEq] at e
  obtain ⟨rfl, rfl⟩ := e
  unfold ends_with_literals at h
  rw [if_neg (by omega), if_neg (by decide), if_neg (by decide), if_neg (by decide),
    if_pos rfl, if_neg (by decide), if_pos rfl] at h
  exact h

theorem ends_with_literals_offset_seen (rest : List Nat) (v tok : Nat)
    (h : ends_with_literals rest STATE_READ_OFFSET v tok = true) : v = 0 ∨ v = 1 := by
  obtain ⟨b, r, rfl, hb⟩ := ends_with_literals_cons h
  by_contra hv
  unfold ends_with_literals at h
  rw [if_neg (by omega), if_neg (by decide), if_neg (by decide), if_neg (by decide),
    if_pos rfl, if_neg (by omega), if_neg (by omega)] at h
  cases h

theorem ends_with_literals_state (rest : List Nat) (st v tok : Nat)
    (h : ends_with_literals rest st v tok = true) : st ≤ 5 := by
  obtain ⟨b, r, rfl, hb⟩ := ends_with_literals_cons h
  by_contra hst
  unfold ends_with_literals at h
  simp only [STATE_READ_TOKEN, STATE_COPY_MATCH, STATE_READ_LITERALS_LENGTH, STATE_COPY_LITERALS,
    STATE_READ_OFFSET, STATE_READ_MATCH_LENGTH] at h
  rw [if_neg (by omega), if_neg (by omega), if_neg (by omega), if_neg (by omega),
    if_neg (by omega), if_neg (by omega)] at h
  cases h

/-- A pending match copy and the start of a sequence read the same payload. -/
theorem ends_with_literals_after_match (rest : List Nat) (v tok : Nat)
    (h : ends_with_literals rest STATE_COPY_MATCH v tok = true) :
    ends_with_literals rest STATE_READ_TOKEN 0 0 = true := by
  obtain ⟨b, r, rfl, hb⟩ := ends_with_literals_cons h
  have h1 := ends_with_literals_token b r _ v tok (Or.inr rfl) h
  unfold ends_with_literals
  rw [if_neg (by omega), if_pos (Or.inl rfl)]
  exact h1

/-- Copying `k` of the `v` pending literals: the payload holds them, and what follows is
read as more literals, as an offset, or is the end of the block. -/
theorem ends_with_literals_drop (k : Nat) :
    ∀ (rest : List Nat) (v tok : Nat),
      ends_with_literals rest STATE_COPY_LITERALS v tok = true → k ≤ v →
      k ≤ rest.length ∧
      (k < v → ends_with_literals (rest.drop k) STATE_COPY_LITERALS (v - k) tok = true) ∧
      (k = v →
        rest.drop k = [] ∨ ends_with_literals (rest.drop k) STATE_READ_OFFSET 0 tok = true) := by
  induction k with
  | zero =>
    intro rest v tok h _
    refine ⟨Nat.zero_le _, fun _ => h, fun hv => Or.inr ?_⟩
    obtain ⟨b, r, rfl, hb⟩ := ends_with_literals_cons h
    subst hv
    rw [List.drop_zero]
    unfold ends_with_literals at h ⊢
    rw [if_neg (by omega), if_neg (by decide), if_neg (by decide), if_pos rfl, if_pos rfl] at h
    rw [if_neg (by omega), if_neg (by decide), if_neg (by decide),
      if_neg (by decide), if_pos rfl, if_pos rfl]
    exact h
  | succ k ih =>
    intro rest v tok h hk
    obtain ⟨b, r, rfl, hb⟩ := ends_with_literals_cons h
    unfold ends_with_literals at h
    rw [if_neg (by omega), if_neg (by decide), if_neg (by decide), if_pos rfl,
      if_neg (by omega)] at h
    by_cases h1 : v = 1
    · rw [if_pos h1] at h
      have hk0 : k = 0 := by omega
      subst hk0
      subst h1
      refine ⟨by simp, fun hlt => absurd hlt (by decide), fun _ => ?_⟩
      simp only [List.drop_succ_cons, List.drop_zero]
      rcases Bool.or_eq_true _ _ |>.mp h with hh | hh
      · exact Or.inl (List.isEmpty_iff.mp hh)
      · exact Or.inr hh
    · rw [if_neg h1] at h
      obtain ⟨a1, a2, a3⟩ := ih r (v - 1) tok h (by omega)
      refine ⟨by simp only [List.length_cons]; omega, fun hlt => ?_, fun he => ?_⟩
      · simp only [List.drop_succ_cons]
        have := a2 (by omega)
        rw [show v - 1 - k = v - (k + 1) by omega] at this
        exact this
      · simp only [List.drop_succ_cons]
        exact a3 (by omega)
theorem continues_cons {b b1 : Nat} {d r future more : List Nat}
    (h : (b :: d) ++ future = (b1 :: r) ++ more) : b = b1 ∧ d ++ future = r ++ more := by
  simp only [List.cons_append, List.cons.injEq] at h
  exact h

theorem step_read_token_in_block (ctx c : elz4_ctx) (src s : span) (dst d : wspan)
    (o : Option elz4_result) (rest future more : List Nat)
    (hss : ctx.scratch_size = STATE_READ_TOKEN ∨ ctx.scratch_size = STATE_COPY_MATCH)
    (hinv : ends_with_literals rest ctx.scratch_size (sub_state_count ctx) (sub_state_token ctx)
      = true)
    (hrel : src.data ++ future = rest ++ more) (hs : src.size ≠ 0)
    (h : step_read_token ctx src dst = .ret (o, c, s, d)) :
    step_stays_in_block ctx src rest future more o c s := by
  obtain ⟨b1, r, rfl, hb1⟩ := ends_with_literals_cons hinv
  have hE := ends_with_literals_token b1 r _ _ _ hss hinv
  unfold step_read_token span.next at h
  split at h
  · cases h
  · rename_i token s1 hn
    split at hn
    · cases hn
    · rename_i b dd hdata
      simp only [Option.some.injEq, Prod.mk.injEq] at hn
      obtain ⟨rfl, rfl⟩ := hn
      rw [hdata] at hrel
      obtain ⟨rfl, hrel2⟩ := continues_cons hrel
      simp only [Outcome.ret.injEq, Prod.mk.injEq] at h
      obtain ⟨rfl, rfl, rfl, -⟩ := h
      have hk : src.size - (src.size - 1) = 1 := by omega
      have hlit : rd32 (wr32 (List.replicate 15 0) 0 (b / 16)) 0 = b / 16 := by
        rw [rd32_wr32_same _ _ _ (by simp)]
        omega
      have h4 : rd32 (wr32 (List.replicate 15 0) 0 (b / 16)) 4 = 0 :=
        (scratch_words_before_offset (List.replicate 15 0) (b / 16) (by simp)).1
      refine ⟨by simp only [hk, List.length_cons]; omega, fun _ => ?_, fun r hr => by cases hr⟩
      simp only [hk, List.drop_succ_cons, List.drop_zero]
      refine ⟨⟨?_, fun _ => ?_, ?_⟩, hrel2⟩
      · simp only [account, wr32_length, List.length_replicate]
      · simpa only [account] using h4
      · by_cases hl : b / 16 < 15
        · simp only [hl, if_true] at hE
          simp only [account, sub_state_count, sub_state_token, hl, if_true, hlit, or_true,
            true_or]
          exact hE
        · simp only [hl, if_false] at hE
          simp only [account, sub_state_count, sub_state_token, hl, if_false, hlit, or_true,
            true_or]
          exact hE

theorem sub_state_view_plain (c : elz4_ctx)
    (h : c.scratch_size = STATE_READ_TOKEN ∨ c.scratch_size = STATE_READ_MATCH_LENGTH ∨
      c.scratch_size = STATE_COPY_MATCH) :
    sub_state_count c = 0 ∧ sub_state_token c = 0 := by
  simp only [STATE_READ_TOKEN, STATE_READ_MATCH_LENGTH, STATE_COPY_MATCH] at h
  simp only [sub_state_count, sub_state_token, STATE_READ_LITERALS_LENGTH, STATE_COPY_LITERALS,
    STATE_READ_OFFSET]
  rw [if_neg (by omega), if_neg (by omega), if_neg (by omega)]
  exact ⟨rfl, rfl⟩

theorem sub_state_view_literals (c : elz4_ctx)
    (h : c.scratch_size = STATE_READ_LITERALS_LENGTH ∨ c.scratch_size = STATE_COPY_LITERALS) :
    sub_state_count c = rd32 c.scratch 0 ∧ sub_state_token c = c.current_token := by
  simp only [sub_state_count, sub_state_token]
  rw [if_pos h, if_pos (by tauto)]
  exact ⟨rfl, rfl⟩

theorem sub_state_view_offset (c : elz4_ctx) (h : c.scratch_size = STATE_READ_OFFSET) :
    sub_state_count c = rd32 c.scratch 4 ∧ sub_state_token c = c.current_token := by
  simp only [sub_state_count, sub_state_token]
  rw [if_neg (by rw [h]; decide), if_pos h, if_pos (by tauto)]
  exact ⟨rfl, rfl⟩

theorem step_copy_match_in_block (ctx c : elz4_ctx) (src s : span) (dst d : wspan)
    (o : Option elz4_result) (rest future more : List Nat)
    (hss : ctx.scratch_size = STATE_COPY_MATCH) (hinv : inside_well_formed_block ctx rest)
    (hrel : src.data ++ future = rest ++ more)
    (h : step_copy_match ctx src dst = .ret (o, c, s, d)) :
    step_stays_in_block ctx src rest future more o c s := by
  obtain ⟨hlen, -, hE⟩ := hinv
  obtain ⟨v0, t0⟩ := sub_state_view_plain ctx (Or.inr (Or.inr hss))
  rw [v0, t0, hss] at hE
  unfold step_copy_match at h
  simp only at h
  split at h
  · cases h
  · split_ifs at h
    · simp only [Outcome.ret.injEq, Prod.mk.injEq] at h
      obtain ⟨rfl, rfl, rfl, -⟩ := h
      refine ⟨by simp, fun _ => ?_, fun r hr => by cases hr⟩
      simp only [Nat.sub_self, List.drop_zero]
      refine ⟨⟨?_, fun hc => ?_, ?_⟩, hrel⟩
      · simp only [account, wr32_length, hlen]
      · simp only [account, STATE_READ_TOKEN, STATE_READ_LITERALS_LENGTH,
          STATE_COPY_LITERALS] at hc
        omega
      · obtain ⟨v1, t1⟩ := sub_state_view_plain
          (account
            { ctx with
                scratch := wr32 (wr32 ctx.scratch 4
                  (sub32 (rd32 ctx.scratch 4) (min (rd32 ctx.scratch 4) dst.size))) 0 0,
                scratch_size := STATE_READ_TOKEN }
            src.size src) (Or.inl rfl)
        rw [v1, t1]
        exact ends_with_literals_after_match rest _ _ hE
    · simp only [Outcome.ret.injEq, Prod.mk.injEq] at h
      obtain ⟨rfl, rfl, rfl, -⟩ := h
      refine ⟨by simp, fun _ => ?_, fun r hr => by cases hr⟩
      simp only [Nat.sub_self, List.drop_zero]
      refine ⟨⟨?_, fun hc => ?_, ?_⟩, hrel⟩
      · simp only [account, wr32_length, hlen]
      · simp only [account, hss, STATE_COPY_MATCH, STATE_READ_LITERALS_LENGTH,
          STATE_COPY_LITERALS] at hc
        omega
      · obtain ⟨v1, t1⟩ := sub_state_view_plain
          (account
            { ctx with
                scratch := wr32 ctx.scratch 4
                  (sub32 (rd32 ctx.scratch 4) (min (rd32 ctx.scratch 4) dst.size)) }
            src.size src) (Or.inr (Or.inr hss))
        rw [v1, t1]
        simp only [account, hss]
        exact hE

theorem read_length_loop_literals_in_block (future more : List Nat) (data : List Nat) :
    ∀ (rest : List Nat) (pos size : Nat) (ctx c : elz4_ctx) (s : span),
      read_length_loop 0 STATE_COPY_LITERALS data pos size ctx = .ret (c, s) →
      data ++ future = rest ++ more → ctx.scratch.length = 15 → rd32 ctx.scratch 4 = 0 →
      ctx.scratch_size = STATE_READ_LITERALS_LENGTH →
      ends_with_literals rest STATE_READ_LITERALS_LENGTH (rd32 ctx.scratch 0) ctx.current_token =
        true →
      s.size ≤ size ∧ size - s.size ≤ rest.length ∧
        s.data ++ future = rest.drop (size - s.size) ++ more ∧
        c.scratch.length = 15 ∧ rd32 c.scratch 4 = 0 ∧
        (c.scratch_size = STATE_READ_LITERALS_LENGTH ∨ c.scratch_size = STATE_COPY_LITERALS) ∧
        ends_with_literals (rest.drop (size - s.size)) c.scratch_size (rd32 c.scratch 0)
          c.current_token = true := by
  induction data with
  | nil =>
    intro rest pos size ctx c s h hrel hlen h4 hss hE
    unfold read_length_loop at h
    split_ifs at h
    simp only [Outcome.ret.injEq, Prod.mk.injEq] at h
    obtain ⟨rfl, rfl⟩ := h
    simp only [Nat.sub_self, List.drop_zero]
    exact ⟨le_refl _, Nat.zero_le _, hrel, hlen, h4, Or.inl hss, by rw [hss]; exact hE⟩
  | cons b dd ih =>
    intro rest pos size ctx c s h hrel hlen h4 hss hE
    unfold read_length_loop at h
    split_ifs at h with hsz hb
    · -- a byte different from FF ends the length
      obtain ⟨b1, r, rfl, hb1⟩ := ends_with_literals_cons hE
      obtain ⟨rfl, hrel2⟩ := continues_cons hrel
      have hE2 := ends_with_literals_length b r _ _ hE
      rw [if_pos hb] at hE2
      simp only [Outcome.ret.injEq, Prod.mk.injEq] at h
      obtain ⟨rfl, rfl⟩ := h
      have hk : size - (size - 1) = 1 := by omega
      simp only [hk, List.drop_succ_cons, List.drop_zero, List.length_cons]
      refine ⟨Nat.sub_le _ _, by omega, hrel2, by rw [wr32_length]; exact hlen, ?_, Or.inr trivial, ?_⟩
      · rw [rd32_wr32_other _ _ _ _ (Or.inl (by decide))]
        exact h4
      · rw [rd32_wr32_same _ _ _ (by omega)]
        exact hE2
    · -- FF: the loop goes on
      obtain ⟨b1, r, rfl, hb1⟩ := ends_with_literals_cons hE
      obtain ⟨rfl, hrel2⟩ := continues_cons hrel
      have hE2 := ends_with_literals_length b r _ _ hE
      rw [if_neg hb] at hE2
      have hrec := ih r (pos + 1) (size - 1)
        { ctx with scratch := wr32 ctx.scratch 0 (rd32 ctx.scratch 0 + b) } c s h hrel2
        (by rw [wr32_length]; exact hlen)
        (by rw [rd32_wr32_other _ _ _ _ (Or.inl (by decide))]; exact h4)
        hss
        (by rw [rd32_wr32_same _ _ _ (by omega)]; exact hE2)
      obtain ⟨a1, a2, a3, a4, a5, a6, a7⟩ := hrec
      have hk : size - s.size = (size - 1 - s.size) + 1 := by omega
      rw [hk]
      simp only [List.drop_succ_cons, List.length_cons]
      exact ⟨by omega, by omega, a3, a4, a5, a6, a7⟩
    · simp only [Outcome.ret.injEq, Prod.mk.injEq] at h
      obtain ⟨rfl, rfl⟩ := h
      simp only [Nat.sub_self, List.drop_zero]
      exact ⟨le_refl _, Nat.zero_le _, hrel, hlen, h4, Or.inl hss, by rw [hss]; exact hE⟩

theorem read_length_loop_match_in_block (future more : List Nat) (data : List Nat) :
    ∀ (rest : List Nat) (pos size : Nat) (ctx c : elz4_ctx) (s : span),
      read_length_loop 4 STATE_COPY_MATCH data pos size ctx = .ret (c, s) →
      data ++ future = rest ++ more → ctx.scratch.length = 15 →
      ctx.scratch_size = STATE_READ_MATCH_LENGTH →
      ends_with_literals rest STATE_READ_MATCH_LENGTH 0 0 = true →
      s.size ≤ size ∧ size - s.size ≤ rest.length ∧
        s.data ++ future = rest.drop (size - s.size) ++ more ∧
        c.scratch.length = 15 ∧
        (c.scratch_size = STATE_READ_MATCH_LENGTH ∨ c.scratch_size = STATE_COPY_MATCH) ∧
        ends_with_literals (rest.drop (size - s.size)) c.scratch_size 0 0 = true := by
  induction data with
  | nil =>
    intro rest pos size ctx c s h hrel hlen hss hE
    unfold read_length_loop at h
    split_ifs at h
    simp only [Outcome.ret.injEq, Prod.mk.injEq] at h
    obtain ⟨rfl, rfl⟩ := h
    simp only [Nat.sub_self, List.drop_zero]
    exact ⟨le_refl _, Nat.zero_le _, hrel, hlen, Or.inl hss, by rw [hss]; exact hE⟩
  | cons b dd ih =>
    intro rest pos size ctx c s h hrel hlen hss hE
    unfold read_length_loop at h
    split_ifs at h with hsz hb
    · obtain ⟨b1, r, rfl, hb1⟩ := ends_with_literals_cons hE
      obtain ⟨rfl, hrel2⟩ := continues_cons hrel
      have hE2 := ends_with_literals_match_length b r _ _ hE
      rw [if_pos hb] at hE2
      simp only [Outcome.ret.injEq, Prod.mk.injEq] at h
      obtain ⟨rfl, rfl⟩ := h
      have hk : size - (size - 1) = 1 := by omega
      simp only [hk, List.drop_succ_cons, List.drop_zero, List.length_cons]
      exact ⟨Nat.sub_le _ _, by omega, hrel2, by rw [wr32_length]; exact hlen, Or.inr trivial, hE2⟩
    · obtain ⟨b1, r, rfl, hb1⟩ := ends_with_literals_cons hE
      obtain ⟨rfl, hrel2⟩ := continues_cons hrel
      have hE2 := ends_with_literals_match_length b r _ _ hE
      rw [if_neg hb] at hE2
      have hrec := ih r (pos + 1) (size - 1)
        { ctx with scratch := wr32 ctx.scratch 4 (rd32 ctx.scratch 4 + b) } c s h hrel2
        (by rw [wr32_length]; exact hlen) hss hE2
      obtain ⟨a1, a2, a3, a4, a5, a6⟩ := hrec
      have hk : size - s.size = (size - 1 - s.size) + 1 := by omega
      rw [hk]
      simp only [List.drop_succ_cons, List.length_cons]
      exact ⟨by omega, by omega, a3, a4, a5, a6⟩
    · simp only [Outcome.ret.injEq, Prod.mk.injEq] at h
      obtain ⟨rfl, rfl⟩ := h
      simp only [Nat.sub_self, List.drop_zero]
      exact ⟨le_refl _, Nat.zero_le _, hrel, hlen, Or.inl hss, by rw [hss]; exact hE⟩

theorem step_read_literals_length_in_block (ctx c : elz4_ctx) (src s : span) (dst d : wspan)
    (o : Option elz4_result) (rest future more : List Nat)
    (hss : ctx.scratch_size = STATE_READ_LITERALS_LENGTH)
    (hinv : inside_well_formed_block ctx rest) (hrel : src.data ++ future = rest ++ more)
    (h : step_read_literals_length ctx src dst = .ret (o, c, s, d)) :
    step_stays_in_block ctx src rest future more o c s := by
  obtain ⟨hlen, h4, hE⟩ := hinv
  obtain ⟨v0, t0⟩ := sub_state_view_literals ctx (Or.inl hss)
  rw [v0, t0, hss] at hE
  unfold step_read_literals_length at h
  cases h1 : read_length_loop 0 STATE_COPY_LITERALS src.data src.pos src.size ctx with
  | undef => rw [h1] at h; cases h
  | fuelOut => rw [h1] at h; cases h
  | ret p =>
    obtain ⟨c1, s1⟩ := p
    rw [h1] at h
    simp only [Outcome.ret.injEq, Prod.mk.injEq] at h
    obtain ⟨rfl, rfl, rfl, -⟩ := h
    obtain ⟨a1, a2, a3, a4, a5, a6, a7⟩ :=
      read_length_loop_literals_in_block future more src.data rest src.pos src.size ctx c1 s1
        h1 hrel hlen (h4 (Or.inl hss)) hss hE
    refine ⟨a2, fun _ => ⟨⟨a4, fun _ => a5, ?_⟩, a3⟩, fun r hr => by cases hr⟩
    obtain ⟨v1, t1⟩ := sub_state_view_literals (account c1 src.size s1) a6
    rw [v1, t1]
    exact a7

theorem step_read_match_length_in_block (ctx c : elz4_ctx) (src s : span) (dst d : wspan)
    (o : Option elz4_result) (rest future more : List Nat)
    (hss : ctx.scratch_size = STATE_READ_MATCH_LENGTH)
    (hinv : inside_well_formed_block ctx rest) (hrel : src.data ++ future = rest ++ more)
    (h : step_read_match_length ctx src dst = .ret (o, c, s, d)) :
    step_stays_in_block ctx src rest future more o c s := by
  obtain ⟨hlen, -, hE⟩ := hinv
  obtain ⟨v0, t0⟩ := sub_state_view_plain ctx (Or.inr (Or.inl hss))
  rw [v0, t0, hss] at hE
  unfold step_read_match_length at h
  cases h1 : read_length_loop 4 STATE_COPY_MATCH src.data src.pos src.size ctx with
  | undef => rw [h1] at h; cases h
  | fuelOut => rw [h1] at h; cases h
  | ret p =>
    obtain ⟨c1, s1⟩ := p
    rw [h1] at h
    simp only [Outcome.ret.injEq, Prod.mk.injEq] at h
    obtain ⟨rfl, rfl, rfl, -⟩ := h
    obtain ⟨a1, a2, a3, a4, a5, a6⟩ :=
      read_length_loop_match_in_block future more src.data rest src.pos src.size ctx c1 s1
        h1 hrel hlen hss hE
    refine ⟨a2, fun _ => ⟨⟨a4, fun hc => ?_, ?_⟩, a3⟩, fun r hr => by cases hr⟩
    · exfalso
      simp only [account, STATE_READ_LITERALS_LENGTH, STATE_COPY_LITERALS] at hc
      simp only [STATE_READ_MATCH_LENGTH, STATE_COPY_MATCH] at a5
      omega
    · obtain ⟨v1, t1⟩ := sub_state_view_plain (account c1 src.size s1)
        (a5.elim (fun e => Or.inr (Or.inl e)) (fun e => Or.inr (Or.inr e)))
      rw [v1, t1]
      exact a6

theorem continues_drop {data rest future more : List Nat} (k : Nat)
    (hrel : data ++ future = rest ++ more) (h1 : k ≤ data.length) (h2 : k ≤ rest.length) :
    data.drop k ++ future = rest.drop k ++ more := by
  rw [← List.drop_append_of_le_length h1, ← List.drop_append_of_le_length h2, hrel]

theorem inside_of_offset (c : elz4_ctx) (rest : List Nat)
    (hst : c.scratch_size = STATE_READ_OFFSET) (hlen : c.scratch.length = 15)
    (hE : ends_with_literals rest STATE_READ_OFFSET (rd32 c.scratch 4) c.current_token = true) :
    inside_well_formed_block c rest := by
  obtain ⟨v1, t1⟩ := sub_state_view_offset c hst
  refine ⟨hlen, fun hc => ?_, ?_⟩
  · exfalso
    rw [hst] at hc
    simp only [STATE_READ_OFFSET, STATE_READ_LITERALS_LENGTH, STATE_COPY_LITERALS] at hc
    omega
  · rw [v1, t1, hst]
    exact hE

theorem inside_of_literals (c : elz4_ctx) (rest : List Nat)
    (hst : c.scratch_size = STATE_READ_LITERALS_LENGTH ∨ c.scratch_size = STATE_COPY_LITERALS)
    (hlen : c.scratch.length = 15) (h4 : rd32 c.scratch 4 = 0)
    (hE : ends_with_literals rest c.scratch_size (rd32 c.scratch 0) c.current_token = true) :
    inside_well_formed_block c rest := by
  obtain ⟨v1, t1⟩ := sub_state_view_literals c hst
  refine ⟨hlen, fun _ => h4, ?_⟩
  rw [v1, t1]
  exact hE

theorem inside_of_plain (c : elz4_ctx) (rest : List Nat)
    (hst : c.scratch_size = STATE_READ_TOKEN ∨ c.scratch_size = STATE_READ_MATCH_LENGTH ∨
      c.scratch_size = STATE_COPY_MATCH)
    (hlen : c.scratch.length = 15)
    (hE : ends_with_literals rest c.scratch_size 0 0 = true) :
    inside_well_formed_block c rest := by
  obtain ⟨v1, t1⟩ := sub_state_view_plain c hst
  refine ⟨hlen, fun hc => ?_, ?_⟩
  · exfalso
    simp only [STATE_READ_TOKEN, STATE_READ_MATCH_LENGTH, STATE_COPY_MATCH] at hst
    simp only [STATE_READ_LITERALS_LENGTH, STATE_COPY_LITERALS] at hc
    omega
  · rw [v1, t1]
    exact hE

theorem step_copy_literals_in_block (ctx c : elz4_ctx) (src s : span) (dst d : wspan)
    (o : Option elz4_result) (rest future more : List Nat)
    (hss : ctx.scratch_size = STATE_COPY_LITERALS)
    (hinv : inside_well_formed_block ctx rest)
    (hcbs : ctx.current_block_size = rest.length) (hlt : rest.length < 4294967296)
    (hrel : src.data ++ future = rest ++ more)
    (h : step_copy_literals ctx src dst = .ret (o, c, s, d)) :
    step_stays_in_block ctx src rest future more o c s := by
  obtain ⟨hlen, h4, hE⟩ := hinv
  obtain ⟨v0, t0⟩ := sub_state_view_literals ctx (Or.inr hss)
  rw [v0, t0, hss] at hE
  have h40 := h4 (Or.inr hss)
  have hv := (ends_with_literals_drop (rd32 ctx.scratch 0) rest _ _ hE (le_refl _)).1
  obtain ⟨k1, k2, k3⟩ := ends_with_literals_drop
    (min (min (rd32 ctx.scratch 0) src.size) dst.size) rest _ _ hE (by omega)
  have hkk : src.size - (src.size - min (min (rd32 ctx.scratch 0) src.size) dst.size) =
      min (min (rd32 ctx.scratch 0) src.size) dst.size := by omega
  have hsub : sub32 (rd32 ctx.scratch 0) (min (min (rd32 ctx.scratch 0) src.size) dst.size) =
      rd32 ctx.scratch 0 - min (min (rd32 ctx.scratch 0) src.size) dst.size :=
    sub32_of_le _ _ (by omega) (by omega)
  unfold step_copy_literals at h
  simp only at h
  split_ifs at h with h1 h2 h3 h5
  · simp only [Outcome.ret.injEq, Prod.mk.injEq] at h
    obtain ⟨rfl, rfl, rfl, -⟩ := h
    unfold step_stays_in_block
    simp only [span.skip, hkk]
    refine ⟨k1, (fun hn => by cases hn), fun r _ => ?_⟩
    rw [hsub] at h2
    omega
  · simp only [Outcome.ret.injEq, Prod.mk.injEq] at h
    obtain ⟨rfl, rfl, rfl, -⟩ := h
    unfold step_stays_in_block
    simp only [span.skip, hkk]
    refine ⟨k1, (fun hn => by cases hn), fun r _ => ?_⟩
    rw [hsub] at h2
    omega
  · simp only [Outcome.ret.injEq, Prod.mk.injEq] at h
    obtain ⟨rfl, rfl, rfl, -⟩ := h
    unfold step_stays_in_block
    simp only [span.skip, hkk]
    rw [hsub] at h2
    refine ⟨k1, fun _ => ⟨inside_of_offset _ _ rfl ?_ ?_, continues_drop _ hrel (by omega) k1⟩,
      fun r hr => by cases hr⟩
    · simp only [account, wr32_length, hlen]
    · simp only [account]
      rw [rd32_wr32_other _ _ _ _ (Or.inl (by decide)), h40]
      rcases k3 (by omega) with hnil | hgo
      · exfalso
        apply h3
        simp only [account, span.skip, hkk, hcbs]
        have hl : rest.length ≤ min (min (rd32 ctx.scratch 0) src.size) dst.size := by
          have := congrArg List.length hnil
          simp only [List.length_drop, List.length_nil] at this
          omega
        unfold sub32
        omega
      · exact hgo
  · simp only [Outcome.ret.injEq, Prod.mk.injEq] at h
    obtain ⟨rfl, rfl, rfl, -⟩ := h
    unfold step_stays_in_block
    simp only [span.skip, hkk]
    rw [hsub] at h2
    refine ⟨k1,
      fun _ => ⟨inside_of_literals _ _ (Or.inr hss) ?_ ?_ ?_, continues_drop _ hrel (by omega) k1⟩,
      fun r hr => by cases hr⟩
    · simp only [account, wr32_length, hlen]
    · simp only [account]
      rw [rd32_wr32_other _ _ _ _ (Or.inl (by decide)), h40]
    · simp only [account]
      rw [rd32_wr32_same _ _ _ (by omega), hsub, Nat.mod_eq_of_lt (by omega), hss]
      exact k2 (by omega)

theorem step_read_offset_in_block (ctx c : elz4_ctx) (src s : span) (dst d : wspan)
    (o : Option elz4_result) (rest future more : List Nat)
    (hss : ctx.scratch_size = STATE_READ_OFFSET)
    (hinv : inside_well_formed_block ctx rest) (hrel : src.data ++ future = rest ++ more)
    (hs : src.size ≠ 0)
    (h : step_read_offset ctx src dst = .ret (o, c, s, d)) :
    step_stays_in_block ctx src rest future more o c s := by
  obtain ⟨hlen, -, hE⟩ := hinv
  obtain ⟨v0, t0⟩ := sub_state_view_offset ctx hss
  rw [v0, t0, hss] at hE
  have hseen := ends_with_literals_offset_seen rest _ _ hE
  obtain ⟨x, r, rfl, hx⟩ := ends_with_literals_cons hE
  unfold step_read_offset at h
  split_ifs at h with h1 h2
  · -- both bytes at once
    rw [h1.1] at hE
    have hE1 := ends_with_literals_offset_first x r _ hE
    obtain ⟨y, r2, rfl, hy⟩ := ends_with_literals_cons hE1
    have hE2 := ends_with_literals_offset_second y r2 _ hE1
    split at h
    · rename_i b0 b1 dd hdata
      rw [hdata] at hrel
      obtain ⟨rfl, hrel1⟩ := continues_cons hrel
      obtain ⟨rfl, hrel2⟩ := continues_cons hrel1
      simp only [Outcome.ret.injEq, Prod.mk.injEq] at h
      obtain ⟨rfl, rfl, rfl, -⟩ := h
      have h2w : rd32 (wr32 (wr32 ctx.scratch 0 (b0 + 256 * b1)) 4 2) 4 = 2 := by
        rw [rd32_wr32_same _ _ _ (by rw [wr32_length]; omega)]
      have hk : src.size - (src.size - 2) = 2 := by omega
      unfold step_stays_in_block
      simp only [span.skip, hk, hdata, List.drop_succ_cons, List.drop_zero, List.length_cons]
      rw [offset_done_two { ctx with scratch := wr32 (wr32 ctx.scratch 0 (b0 + 256 * b1)) 4 2 }
        h2w]
      refine ⟨by omega, fun _ => ⟨inside_of_plain _ _ ?_ ?_ ?_, hrel2⟩, fun r hr => by cases hr⟩
      · simp only [account]
        split_ifs
        · exact Or.inr (Or.inr rfl)
        · exact Or.inr (Or.inl rfl)
      · simp only [account, wr32_length, hlen]
      · simp only [account]
        exact hE2
    · cases h
  · -- one byte
    split at h
    · cases h
    · rename_i b s1 hn
      unfold span.next at hn
      split at hn
      · cases hn
      · rename_i b0 dd hdata
        simp only [Option.some.injEq, Prod.mk.injEq] at hn
        obtain ⟨rfl, rfl⟩ := hn
        rw [hdata] at hrel
        obtain ⟨rfl, hrel1⟩ := continues_cons hrel
        simp only at h
        split_ifs at h with h3
        simp only [Outcome.ret.injEq, Prod.mk.injEq] at h
        obtain ⟨rfl, rfl, rfl, -⟩ := h
        have hk : src.size - (src.size - 1) = 1 := by omega
        unfold step_stays_in_block
        simp only [hk, List.drop_succ_cons, List.drop_zero, List.length_cons]
        rcases hseen with h0 | h1s
        · -- first offset byte
          rw [h0] at hE
          have hE1 := ends_with_literals_offset_first b0 r _ hE
          have h1w : rd32 (wr32 (wr32 ctx.scratch 0
              (rd32 ctx.scratch 0 ||| b0 * 2 ^ (8 * rd32 ctx.scratch 4))) 4
              (rd32 ctx.scratch 4 + 1)) 4 = 1 := by
            rw [rd32_wr32_same _ _ _ (by rw [wr32_length]; omega), h0]
          rw [offset_done_other
            { ctx with
                scratch := wr32 (wr32 ctx.scratch 0
                  (rd32 ctx.scratch 0 ||| b0 * 2 ^ (8 * rd32 ctx.scratch 4))) 4
                  (rd32 ctx.scratch 4 + 1) }
            (by rw [h1w]; decide)]
          refine ⟨by omega, fun _ => ⟨inside_of_offset _ _ hss ?_ ?_, hrel1⟩,
            fun r hr => by cases hr⟩
          · simp only [account, wr32_length, hlen]
          · simp only [account]
            rw [h1w]
            exact hE1
        · -- second offset byte
          rw [h1s] at hE
          have hE2 := ends_with_literals_offset_second b0 r _ hE
          have h2w : rd32 (wr32 (wr32 ctx.scratch 0
              (rd32 ctx.scratch 0 ||| b0 * 2 ^ (8 * rd32 ctx.scratch 4))) 4
              (rd32 ctx.scratch 4 + 1)) 4 = 2 := by
            rw [rd32_wr32_same _ _ _ (by rw [wr32_length]; omega), h1s]
          rw [offset_done_two
            { ctx with
                scratch := wr32 (wr32 ctx.scratch 0
                  (rd32 ctx.scratch 0 ||| b0 * 2 ^ (8 * rd32 ctx.scratch 4))) 4
                  (rd32 ctx.scratch 4 + 1) }
            h2w]
          refine ⟨by omega, fun _ => ⟨inside_of_plain _ _ ?_ ?_ ?_, hrel1⟩,
            fun r hr => by cases hr⟩
          · simp only [account]
            split_ifs
            · exact Or.inr (Or.inr rfl)
            · exact Or.inr (Or.inl rfl)
          · simp only [account, wr32_length, hlen]
          · simp only [account]
            exact hE2
  · exact absurd (Nat.pos_of_ne_zero hs) h2

/-- Every sub-state step keeps a block whose unread payload ends with the last literal of a
sequence in that shape. -/
theorem block_step_in_block (ctx c : elz4_ctx) (src s : span) (dst d : wspan)
    (o : Option elz4_result) (rest future more : List Nat)
    (hinv : inside_well_formed_block ctx rest)
    (hcbs : ctx.current_block_size = rest.length) (hlt : rest.length < 4294967296)
    (hrel : src.data ++ future = rest ++ more) (hs : src.size ≠ 0)
    (h : block_step ctx src dst = .ret (o, c, s, d)) :
    step_stays_in_block ctx src rest future more o c s := by
  have hst := ends_with_literals_state rest _ _ _ hinv.2.2
  unfold block_step at h
  split_ifs at h with h0 h1 h2 h3 h4 h5
  · exact step_read_token_in_block _ _ _ _ _ _ _ _ _ _ (Or.inl h0) hinv.2.2 hrel hs h
  · exact step_read_literals_length_in_block _ _ _ _ _ _ _ _ _ _ h1 hinv hrel h
  · exact step_copy_literals_in_block _ _ _ _ _ _ _ _ _ _ h2 hinv hcbs hlt hrel h
  · exact step_read_offset_in_block _ _ _ _ _ _ _ _ _ _ h3 hinv hrel hs h
  · exact step_read_match_length_in_block _ _ _ _ _ _ _ _ _ _ h4 hinv hrel h
  · exact step_copy_match_in_block _ _ _ _ _ _ _ _ _ _ h5 hinv hrel h
  · exfalso
    simp only [STATE_READ_TOKEN, STATE_READ_LITERALS_LENGTH, STATE_COPY_LITERALS,
      STATE_READ_OFFSET, STATE_READ_MATCH_LENGTH, STATE_COPY_MATCH] at h0 h1 h2 h3 h4 h5
    omega

/-- At the start of a block the decoder is inside it. -/
theorem inside_at_block_start (ctx : elz4_ctx) (payload : List Nat)
    (hss : ctx.scratch_size = STATE_READ_TOKEN) (hlen : ctx.scratch.length = 15)
    (hw : well_formed_block payload = true) : inside_well_formed_block ctx payload := by
  refine inside_of_plain ctx payload (Or.inl hss) hlen ?_
  rw [hss]
  exact hw

/-- What `block_step_in_block` and `block_step_facts` give together for the block size. -/
theorem block_step_block_size (ctx c : elz4_ctx) (src s : span) (dst d : wspan)
    (o : Option elz4_result) (rest future more : List Nat)
    (hinv : inside_well_formed_block ctx rest)
    (hcbs : ctx.current_block_size = rest.length) (hlt : rest.length < 4294967296)
    (hrel : src.data ++ future = rest ++ more) (hs : src.size ≠ 0)
    (h : block_step ctx src dst = .ret (o, c, s, d)) :
    s.size ≤ src.size ∧ src.size - s.size ≤ ctx.current_block_size ∧
    c.current_block_size = ctx.current_block_size - (src.size - s.size) ∧
    (c.current_block_size = 0 ↔ o = some .ELZ4_RESULT_OK) ∧
    (o = some .ELZ4_RESULT_OK →
      ctx.scratch_size = STATE_COPY_LITERALS ∧ rd32 ctx.scratch 0 = src.size - s.size ∧
        src.size - s.size = rest.length ∧ c.scratch_size = 0 ∧
        c.phase_func =
          if ctx.flags &&& ELZ4_FLAG_BLOCK_CRC32 ≠ 0 then .phase_crc32 else .phase_block_size) ∧
    (o = none →
      c.phase_func = ctx.phase_func ∧ c.flags = ctx.flags ∧
        inside_well_formed_block c (rest.drop (src.size - s.size)) ∧
        c.current_block_size = (rest.drop (src.size - s.size)).length ∧
        s.data ++ future = rest.drop (src.size - s.size) ++ more) := by
  obtain ⟨q1, q2, q3⟩ := block_step_in_block _ _ _ _ _ _ _ _ _ _ hinv hcbs hlt hrel hs h
  obtain ⟨f1, f2, f3, f4, f5⟩ := block_step_facts _ _ _ _ _ _ _ h
  have hc : c.current_block_size = ctx.current_block_size - (src.size - s.size) := by
    rw [f2]
    exact sub32_of_le _ _ (by omega) (by omega)
  refine ⟨f3, by omega, hc, ⟨fun h0 => ?_, fun ho => (f5 _ ho).2.2.1⟩, fun ho => ?_, fun ho => ?_⟩
  · cases o with
    | none =>
      exfalso
      obtain ⟨b, r, e, -⟩ := ends_with_literals_cons (q2 rfl).1.2.2
      have := congrArg List.length e
      simp only [List.length_drop, List.length_cons] at this
      omega
    | some r => rw [(f5 r rfl).1]
  · obtain ⟨-, k2, k3, k4, k5⟩ := f5 _ ho
    exact ⟨k2, q3 _ ho, by omega, k4, k5⟩
  · refine ⟨f4 ho, f1, (q2 ho).1, ?_, (q2 ho).2⟩
    rw [hc, hcbs, List.length_drop]

/-- A whole run of the block decoder on a block whose unread payload ends with the last
literal of a sequence: the run consumes bytes of the payload only, the block size goes down
by the bytes consumed, and the run either stops inside the block, with the rest of the
payload still in that shape, or leaves the block with the payload used up and block size
0. -/
theorem phase_decompress_block_in_block (future more : List Nat) (fuel : Nat) :
    ∀ (ctx c : elz4_ctx) (src s : span) (dst d : wspan) (r : elz4_result) (rest : List Nat),
      inside_well_formed_block ctx rest → ctx.current_block_size = rest.length →
      rest.length < 4294967296 → src.data ++ future = rest ++ more →
      phase_decompress_block fuel ctx src dst = .ret (r, c, s, d) →
      s.size ≤ src.size ∧ src.size - s.size ≤ ctx.current_block_size ∧
      c.current_block_size = ctx.current_block_size - (src.size - s.size) ∧
      ((c.current_block_size ≠ 0 ∧ c.phase_func = ctx.phase_func ∧
          inside_well_formed_block c (rest.drop (src.size - s.size)) ∧
          s.data ++ future = rest.drop (src.size - s.size) ++ more) ∨
        (c.current_block_size = 0 ∧ src.size - s.size = rest.length ∧ c.scratch_size = 0 ∧
          c.phase_func =
            if ctx.flags &&& ELZ4_FLAG_BLOCK_CRC32 ≠ 0 then .phase_crc32
            else .phase_block_size)) := by
  have hstop : ∀ (ctx : elz4_ctx) (src : span) (rest : List Nat),
      inside_well_formed_block ctx rest → ctx.current_block_size = rest.length →
      src.data ++ future = rest ++ more →
      src.size ≤ src.size ∧ src.size - src.size ≤ ctx.current_block_size ∧
      ctx.current_block_size = ctx.current_block_size - (src.size - src.size) ∧
      ((ctx.current_block_size ≠ 0 ∧ ctx.phase_func = ctx.phase_func ∧
          inside_well_formed_block ctx (rest.drop (src.size - src.size)) ∧
          src.data ++ future = rest.drop (src.size - src.size) ++ more) ∨
        (ctx.current_block_size = 0 ∧ src.size - src.size = rest.length ∧ ctx.scratch_size = 0 ∧
          ctx.phase_func =
            if ctx.flags &&& ELZ4_FLAG_BLOCK_CRC32 ≠ 0 then .phase_crc32
            else .phase_block_size)) := by
    intro ctx src rest hinv hcbs hrel
    obtain ⟨b, r, e, -⟩ := ends_with_literals_cons hinv.2.2
    have hne : ctx.current_block_size ≠ 0 := by
      rw [hcbs, e]
      simp
    simp only [Nat.sub_self, List.drop_zero, Nat.sub_zero]
    exact ⟨le_refl _, Nat.zero_le _, trivial, Or.inl ⟨hne, trivial, hinv, hrel⟩⟩
  induction fuel with
  | zero =>
    intro ctx c src s dst d r rest hinv hcbs hlt hrel h
    unfold phase_decompress_block at h
    split_ifs at h
    simp only [Outcome.ret.injEq, Prod.mk.injEq] at h
    obtain ⟨-, rfl, rfl, -⟩ := h
    exact hstop _ _ _ hinv hcbs hrel
  | succ n ih =>
    intro ctx c src s dst d r rest hinv hcbs hlt hrel h
    by_cases hs : src.size = 0
    · rw [block_loop_done hs] at h
      simp only [Outcome.ret.injEq, Prod.mk.injEq] at h
      obtain ⟨-, rfl, rfl, -⟩ := h
      exact hstop _ _ _ hinv hcbs hrel
    · cases hb : block_step ctx src dst with
      | undef => rw [block_loop_undef hs hb] at h; cases h
      | fuelOut => simp [phase_decompress_block, hs, hb] at h
      | ret p =>
        obtain ⟨o, c1, s1, d1⟩ := p
        obtain ⟨g1, g2, g3, g4, g5, g6⟩ :=
          block_step_block_size _ _ _ _ _ _ _ _ _ _ hinv hcbs hlt hrel hs hb
        cases o with
        | none =>
          rw [block_loop_step hs hb] at h
          obtain ⟨e1, e2, e3, e4, e5⟩ := g6 rfl
          have hlt1 : (rest.drop (src.size - s1.size)).length < 4294967296 := by
            rw [List.length_drop]
            omega
          obtain ⟨a1, a2, a3, a4⟩ := ih _ _ _ _ _ _ _ _ e3 e4 hlt1 e5 h
          have hk : src.size - s.size = (src.size - s1.size) + (s1.size - s.size) := by omega
          refine ⟨by omega, by omega, by omega, ?_⟩
          rcases a4 with ⟨b1, b2, b3, b4⟩ | ⟨b1, b2, b3, b4⟩
          · left
            rw [List.drop_drop] at b3 b4
            rw [hk]
            exact ⟨b1, b2.trans e1, b3, b4⟩
          · right
            rw [List.length_drop] at b2
            rw [e2] at b4
            exact ⟨b1, by omega, b3, b4⟩
        | some r1 =>
          have hr1 : r1 = .ELZ4_RESULT_OK := ((block_step_facts _ _ _ _ _ _ _ hb).2.2.2.2 r1 rfl).1
          subst hr1
          rw [block_loop_return hs hb] at h
          simp only [Outcome.ret.injEq, Prod.mk.injEq] at h
          obtain ⟨-, rfl, rfl, -⟩ := h
          obtain ⟨-, -, k2, k3, k4⟩ := g5 rfl
          exact ⟨g1, g2, g3, Or.inr ⟨g4.mpr rfl, k2, k3, k4⟩⟩

/-! ## Claims about streaming, termination and accounting -/

/-- C1 (code defect).  Streaming equivalence fails when a chunk boundary falls inside the
optional header fields.  The frame `frame_content_size` fed in one call is decoded to the
end (`EOF`, 19 bytes consumed, no output).  Fed as a chunk of 7 bytes followed by a chunk
of 12 bytes, the first call returns `OK` and the second call never returns: the header
phase finds 7 bytes in the scratch area, fails its test `scratch_size != 6` and hands the
untouched input back to the driver loop, for every amount of fuel.  Feeding one byte per
call leads to the same context after seven calls, and the call that brings the eighth
byte never returns. -/
theorem streaming_split_inside_header_never_returns :
    (∀ k, elz4_decompress (k + 2) ctx_zero frame_content_size [] 16 =
        .ret { result := .ELZ4_RESULT_EOF, ctx := ctx_at_eof 72 0 [72, 64, 0, 0, 0, 0, 0, 0, 0, 0, 0],
               src_size := 19, dst_size := 0, dst := [] }) ∧
    (∀ k, elz4_decompress (k + 1) ctx_zero (frame_content_size.take 7) [] 16 =
        .ret { result := .ELZ4_RESULT_OK, ctx := ctx_in_header 7, src_size := 7, dst_size := 0,
               dst := [] }) ∧
    (∀ fuel, elz4_decompress fuel (ctx_in_header 7) (frame_content_size.drop 7) [] 16 =
        .fuelOut) ∧
    (session 1 ctx_zero ((frame_content_size.take 7).map fun b => ([b], [], 16))).getLast? =
        some (.ret { result := .ELZ4_RESULT_OK, ctx := ctx_in_header 7, src_size := 1,
                     dst_size := 0, dst := [] }) ∧
    (∀ fuel, elz4_decompress fuel (ctx_in_header 7) [0] [] 16 = .fuelOut) :=
  ⟨fun k => elz4_decompress_fuel_ret 2 _ _ _ _ _ (by rfl) k,
    fun k => elz4_decompress_fuel_ret 1 _ _ _ _ _ (by rfl) k,
    header_resume_stuck 7 (by decide) _ _ _ (by decide) _ rfl rfl,
    by rfl,
    header_resume_stuck 7 (by decide) _ _ _ (by decide) _ rfl rfl⟩

/-- C2 (code defect).  Offering the output buffer in slices does not work: the frame
`frame_two_literals` decodes to `41 42` when two bytes of output space are offered, and the
call that is offered only the first byte of that space never returns.  After one literal is
copied the sub-state `STATE_COPY_LITERALS` copies `min( 1, src.size, 0 ) = 0` bytes on
every pass through `while ( src )`, for every amount of fuel. -/
theorem output_slice_of_one_byte_never_returns :
    (∀ k, elz4_decompress (k + 5) ctx_zero frame_two_literals [] 2 =
        .ret { result := .ELZ4_RESULT_EOF, ctx := ctx_at_eof 64 32 [0, 0, 0, 0, 0, 0, 0, 0, 0, 0, 0],
               src_size := 18, dst_size := 2, dst := [0x41, 0x42] }) ∧
    (∀ fuel, elz4_decompress fuel ctx_zero frame_two_literals [] 1 = .fuelOut) := by
  refine ⟨fun k => elz4_decompress_fuel_ret 5 _ _ _ _ _ (by rfl) k, fun fuel => ?_⟩
  apply elz4_decompress_fuelOut
  rcases fuel with _ | _ | _ | k
  · rfl
  · rfl
  · rfl
  · refine (drive_step_ok (by decide) (by rfl)).trans ?_
    refine (drive_step_ok (by decide) (by rfl)).trans ?_
    refine drive_step_fuelOut ?_ (by decide)
    rcases k with _ | _ | k
    · rfl
    · rfl
    · refine (block_loop_step (by decide) (by rfl)).trans ?_
      refine (block_loop_step (by decide) (by rfl)).trans ?_
      exact block_stuck _ _ _ (by decide) (by rfl) k

/-- C3 (code defect).  Four calls on contexts reached from a zero-initialised one that
never return, for every amount of fuel: (1) a raw block with input after its descriptor
(`phase_memcpy_block` returns `OK` without consuming anything and the driver calls it
again); (2) `STATE_COPY_LITERALS` with a pending literal and no output space; (3)
`STATE_COPY_MATCH` with a pending match and no output space left; (4) the header phase
resumed with 10 of its 15 bytes in the scratch area. -/
theorem calls_that_never_return :
    (∀ fuel, elz4_decompress fuel ctx_zero frame_raw [] 16 = .fuelOut) ∧
    (∀ fuel, elz4_decompress fuel ctx_zero frame_one_literal [] 0 = .fuelOut) ∧
    (∀ fuel, elz4_decompress fuel ctx_zero frame_match [] 6 = .fuelOut) ∧
    ((∀ k, elz4_decompress (k + 1) ctx_zero (frame_content_size.take 10) [] 16 =
        .ret { result := .ELZ4_RESULT_OK, ctx := ctx_in_header 10, src_size := 10,
               dst_size := 0, dst := [] }) ∧
      ∀ fuel, elz4_decompress fuel (ctx_in_header 10) (frame_content_size.drop 10) [] 16 =
        .fuelOut) := by
  refine ⟨fun fuel => ?_, fun fuel => ?_, fun fuel => ?_,
    fun k => elz4_decompress_fuel_ret 1 _ _ _ _ _ (by rfl) k,
    header_resume_stuck 10 (by decide) _ _ _ (by decide) _ rfl rfl⟩
  · apply elz4_decompress_fuelOut
    rcases fuel with _ | _ | k
    · rfl
    · rfl
    · refine (drive_step_ok (by decide) (by rfl)).trans ?_
      refine (drive_step_ok (by decide) (by rfl)).trans ?_
      refine drive_stuck _ _ _ ?_ ?_ k _
      · decide
      · intro f; rfl
  · apply elz4_decompress_fuelOut
    rcases fuel with _ | _ | _ | k
    · rfl
    · rfl
    · rfl
    · refine (drive_step_ok (by decide) (by rfl)).trans ?_
      refine (drive_step_ok (by decide) (by rfl)).trans ?_
      refine drive_step_fuelOut ?_ (by decide)
      rcases k with _ | k
      · rfl
      · refine (block_loop_step (by decide) (by rfl)).trans ?_
        exact block_stuck _ _ _ (by decide) (by rfl) k
  · apply elz4_decompress_fuelOut
    rcases fuel with _ | _ | _ | k
    · rfl
    · rfl
    · rfl
    · refine (drive_step_ok (by decide) (by rfl)).trans ?_
      refine (drive_step_ok (by decide) (by rfl)).trans ?_
      refine drive_step_fuelOut ?_ (by decide)
      rcases k with _ | _ | _ | _ | k
      · rfl
      · rfl
      · rfl
      · rfl
      · refine (block_loop_step (by decide) (by rfl)).trans ?_
        refine (block_loop_step (by decide) (by rfl)).trans ?_
        refine (block_loop_step (by decide) (by rfl)).trans ?_
        refine (block_loop_step (by decide) (by rfl)).trans ?_
        exact block_stuck _ _ _ (by decide) (by rfl) k

/-- C4.  The loop of `elz4_decompress`, run on an input span of `n` bytes at the start of
any buffer `buf` (the buffer may go on past the span) and on `dst_size` bytes of free output
space: whenever it returns, the input pointer has moved by at most `n` and the output
pointer by at most `dst_size`; these are the counts `elz4_decompress` reports.  Every phase
keeps `pos + size` of both spans unchanged, so no scratch fill, two-byte offset read,
literal copy or match copy moves a pointer past the end of its span, for a single phase
call on any spans as for the whole loop.  In particular a returning call of
`elz4_decompress` reports at most `in_len` and at most `out_len`. -/
theorem consumed_produced_within_spans (fuel : Nat) (r0 r : elz4_result) (ctx c : elz4_ctx)
    (buf dst : List Nat) (n dst_size : Nat) (s : span) (d : wspan)
    (h : drive fuel r0 ctx { data := buf, pos := 0, size := n }
      { mem := dst, pos := 0, size := dst_size } = .ret (r, c, s, d)) :
    s.pos ≤ n ∧ d.pos ≤ dst_size ∧ s.pos + s.size = n ∧ d.pos + d.size = dst_size ∧
    (∀ (f : Nat) (c1 c2 : elz4_ctx) (s1 s2 : span) (d1 d2 : wspan) (r1 : elz4_result),
      call_phase f c1 s1 d1 = .ret (r1, c2, s2, d2) →
        s2.pos + s2.size = s1.pos + s1.size ∧ d2.pos + d2.size = d1.pos + d1.size) ∧
    (∀ (f : Nat) (c1 : elz4_ctx) (src : List Nat) (res : decompress_ret),
      elz4_decompress f c1 src dst dst_size = .ret res →
        res.src_size ≤ src.length ∧ res.dst_size ≤ dst_size) := by
  have e := drive_span _ _ _ _ _ _ _ _ _ h
  simp only at e
  refine ⟨by omega, by omega, by omega, by omega,
    fun f c1 c2 s1 s2 d1 d2 r1 hc => call_phase_span _ _ _ _ _ _ _ _ hc,
    fun f c1 src res hres => ?_⟩
  rw [elz4_decompress_of_drive] at hres
  split at hres
  · cases hres
  · cases hres
  · rename_i r1 c2 s1 d1 hd
    have e1 := drive_span _ _ _ _ _ _ _ _ _ hd
    simp only [Outcome.ret.injEq] at hres
    subst hres
    simp only at e1 ⊢
    omega

/-- The span ends after the token of `frame_one_literal`; the literal `41` and the end mark
lie in the buffer behind the span and are not read. -/
theorem consumed_produced_within_spans_witness :
    drive 4 .ELZ4_RESULT_OK { ctx_zero with phase_func := .phase_header }
        { data := frame_one_literal, pos := 0, size := 12 } { mem := [], pos := 0, size := 16 } =
      .ret (.ELZ4_RESULT_OK,
        { phase_func := .phase_decompress_block, current_block_size := 1,
          scratch := [1, 0, 0, 0, 0, 0, 0, 0, 0, 0, 0, 0, 0, 0, 0],
          scratch_size := STATE_COPY_LITERALS, flags := 0x40, current_token := 0x10 },
        { data := [0x41, 0, 0, 0, 0], pos := 12, size := 0 },
        { mem := [], pos := 0, size := 16 }) ∧
    frame_one_literal.length = 17 ∧
    (12 : Nat) ≤ 12 ∧ (0 : Nat) ≤ 16 ∧ (12 : Nat) + 0 = 12 ∧ (0 : Nat) + 16 = 16 :=
  have h := consumed_produced_within_spans 4 .ELZ4_RESULT_OK .ELZ4_RESULT_OK
    { ctx_zero with phase_func := .phase_header }
    { phase_func := .phase_decompress_block, current_block_size := 1,
      scratch := [1, 0, 0, 0, 0, 0, 0, 0, 0, 0, 0, 0, 0, 0, 0],
      scratch_size := STATE_COPY_LITERALS, flags := 0x40, current_token := 0x10 }
    frame_one_literal [] 12 16 { data := [0x41, 0, 0, 0, 0], pos := 12, size := 0 }
    { mem := [], pos := 0, size := 16 } rfl
  ⟨rfl, rfl, h.1, h.2.1, h.2.2.1, h.2.2.2.1⟩

/-! ## Claims about the header, the end of the frame and the block descriptor -/

/-- C5 (as the code has it).  The header phase accumulates six bytes before it looks at the
magic number: for a zero-initialised context and an input of at least six bytes whose
first four bytes are not `04 22 4D 18`, `elz4_decompress` returns
`ELZ4_RESULT_INVALID_HEADER` with exactly 6 bytes consumed and 0 bytes produced. -/
theorem bad_magic_rejected_after_six (k b0 b1 b2 b3 b4 b5 : Nat) (rest dst : List Nat)
    (dst_size : Nat) (h0 : b0 < 256) (h1 : b1 < 256) (h2 : b2 < 256)
    (hm : ¬ (b0 = 0x04 ∧ b1 = 0x22 ∧ b2 = 0x4D ∧ b3 = 0x18)) :
    elz4_decompress (k + 1) ctx_zero (b0 :: b1 :: b2 :: b3 :: b4 :: b5 :: rest) dst dst_size =
      .ret { result := .ELZ4_RESULT_INVALID_HEADER,
             ctx :=
              { phase_func := .phase_header, current_block_size := 0,
                scratch := [b0, b1, b2, b3, b4, b5, 0, 0, 0, 0, 0, 0, 0, 0, 0],
                scratch_size := 6, flags := 0, current_token := 0 },
             src_size := 6, dst_size := 0, dst := dst } := by
  have hmagic : b0 + 256 * b1 + 65536 * b2 + 16777216 * b3 ≠ 0x184D2204 := by
    intro h
    apply hm
    omega
  simp [elz4_decompress, drive, call_phase, phase_header, FILL_AND_CHECK_SCRATCH_AREA, fill_loop,
    fill_loop_full, ctx_zero, rd32, hmagic]

theorem bad_magic_rejected_after_six_witness :
    elz4_decompress 1 ctx_zero [0xDE, 0xAD, 0xBE, 0xEF, 0x01, 0x02, 0x03] [] 16 =
      .ret { result := .ELZ4_RESULT_INVALID_HEADER,
             ctx :=
              { phase_func := .phase_header, current_block_size := 0,
                scratch := [0xDE, 0xAD, 0xBE, 0xEF, 0x01, 0x02, 0, 0, 0, 0, 0, 0, 0, 0, 0],
                scratch_size := 6, flags := 0, current_token := 0 },
             src_size := 6, dst_size := 0, dst := [] } :=
  bad_magic_rejected_after_six 0 0xDE 0xAD 0xBE 0xEF 0x01 0x02 [0x03] [] 16
    (by decide) (by decide) (by decide) (by decide)

/-- C5 as stated fails: on the input `DE AD BE EF 01 02 03` no call returns
`ELZ4_RESULT_INVALID_HEADER` with 4 bytes consumed (six are), and on the four bytes
`DE AD BE EF` alone the call returns `ELZ4_RESULT_OK`. -/
theorem bad_magic_not_rejected_after_four :
    (¬ ∃ r, elz4_decompress 1 ctx_zero [0xDE, 0xAD, 0xBE, 0xEF, 0x01, 0x02, 0x03] [] 16 = .ret r ∧
          r.result = .ELZ4_RESULT_INVALID_HEADER ∧ r.src_size = 4 ∧ r.dst_size = 0) ∧
    (¬ ∃ r, elz4_decompress 1 ctx_zero [0xDE, 0xAD, 0xBE, 0xEF] [] 16 = .ret r ∧
          r.result = .ELZ4_RESULT_INVALID_HEADER ∧ r.src_size = 4 ∧ r.dst_size = 0) := by
  constructor
  · rintro ⟨r, h, -, h4, -⟩
    have h6 : elz4_decompress 1 ctx_zero [0xDE, 0xAD, 0xBE, 0xEF, 0x01, 0x02, 0x03] [] 16 =
        .ret { result := .ELZ4_RESULT_INVALID_HEADER,
               ctx :=
                { phase_func := .phase_header, current_block_size := 0,
                  scratch := [0xDE, 0xAD, 0xBE, 0xEF, 0x01, 0x02, 0, 0, 0, 0, 0, 0, 0, 0, 0],
                  scratch_size := 6, flags := 0, current_token := 0 },
               src_size := 6, dst_size := 0, dst := [] } := rfl
    rw [h6] at h
    injection h with h
    subst h
    exact absurd h4 (by decide)
  · rintro ⟨r, h, hr, -, -⟩
    have h4 : elz4_decompress 1 ctx_zero [0xDE, 0xAD, 0xBE, 0xEF] [] 16 =
        .ret { result := .ELZ4_RESULT_OK,
               ctx :=
                { phase_func := .phase_header, current_block_size := 0,
                  scratch := [0xDE, 0xAD, 0xBE, 0xEF, 0, 0, 0, 0, 0, 0, 0, 0, 0, 0, 0],
                  scratch_size := 4, flags := 0, current_token := 0 },
               src_size := 4, dst_size := 0, dst := [] } := rfl
    rw [h4] at h
    injection h with h
    subst h
    exact absurd hr (by decide)

/-- C6.  Once a call has returned `ELZ4_RESULT_EOF`, every later call on that context, in
any sequence, with any input and any output span, returns having consumed nothing and
produced nothing; the context stays as the `EOF` call left it. -/
theorem no_output_after_eof (fuel : Nat) (ctx : elz4_ctx) (src dst : List Nat) (dst_size : Nat)
    (r : decompress_ret) (h : elz4_decompress fuel ctx src dst dst_size = .ret r)
    (hr : r.result = .ELZ4_RESULT_EOF) (fuel2 : Nat) (calls : List (List Nat × List Nat × Nat)) :
    session (fuel2 + 1) r.ctx calls =
      calls.map fun call =>
        .ret { result := if call.1 = [] then .ELZ4_RESULT_OK else .ELZ4_RESULT_EOF,
               ctx := r.ctx, src_size := 0, dst_size := 0, dst := call.2.1 } := by
  have he := elz4_decompress_eof fuel ctx src dst dst_size r h hr
  induction calls with
  | nil => rfl
  | cons call rest ih =>
    obtain ⟨s2, d2, n2⟩ := call
    simp only [session, elz4_decompress_at_eof r.ctx he, List.map_cons, ih]

theorem no_output_after_eof_witness :
    session 1 (ctx_at_eof 64 16 [0, 0, 0, 0, 0, 0, 0, 0, 0, 0, 0])
        [([0x10, 0x41], [0x41], 15), ([], [0x41], 15), ([0x00], [0x41], 15)] =
      [.ret { result := .ELZ4_RESULT_EOF, ctx := ctx_at_eof 64 16 [0, 0, 0, 0, 0, 0, 0, 0, 0, 0, 0],
              src_size := 0, dst_size := 0, dst := [0x41] },
       .ret { result := .ELZ4_RESULT_OK, ctx := ctx_at_eof 64 16 [0, 0, 0, 0, 0, 0, 0, 0, 0, 0, 0],
              src_size := 0, dst_size := 0, dst := [0x41] },
       .ret { result := .ELZ4_RESULT_EOF, ctx := ctx_at_eof 64 16 [0, 0, 0, 0, 0, 0, 0, 0, 0, 0, 0],
              src_size := 0, dst_size := 0, dst := [0x41] }] :=
  no_output_after_eof 8 ctx_zero frame_one_literal [] 16
    { result := .ELZ4_RESULT_EOF, ctx := ctx_at_eof 64 16 [0, 0, 0, 0, 0, 0, 0, 0, 0, 0, 0],
      src_size := 17, dst_size := 1, dst := [0x41] }
    rfl rfl 0 [([0x10, 0x41], [0x41], 15), ([], [0x41], 15), ([0x00], [0x41], 15)]

/-- C7 (code defect).  The match copy is the library call
`memcpy( dst.data, dst.data - offset, numBytes )`; for the run of the claim (literal `41`,
offset 1, match length 5) source and destination overlap, which `memcpy` does not allow,
so decoding `frame_run` is undefined and no amount of fuel makes the call return.  A match
whose offset is at least its length (`frame_match`) is decoded as expected. -/
theorem run_expansion_is_an_overlapping_memcpy :
    memcpy_match [0x41] 1 5 = none ∧
    (∀ k, elz4_decompress (k + 7) ctx_zero frame_run [] 16 = .undef) ∧
    (∀ fuel r, elz4_decompress fuel ctx_zero frame_run [] 16 ≠ .ret r) ∧
    (∀ k, elz4_decompress (k + 9) ctx_zero frame_match [] 16 =
        .ret { result := .ELZ4_RESULT_EOF, ctx := ctx_at_eof 64 16 [0, 0, 0, 0, 0, 0, 0, 0, 0, 0, 0],
               src_size := 24, dst_size := 9,
               dst := [0x41, 0x42, 0x43, 0x44, 0x41, 0x42, 0x43, 0x44, 0x45] }) := by
  have hu : ∀ k, elz4_decompress (k + 7) ctx_zero frame_run [] 16 = .undef :=
    fun k => elz4_decompress_fuel_undef 7 _ _ _ _ (by rfl) k
  refine ⟨rfl, hu, fun fuel r h => ?_, fun k => elz4_decompress_fuel_ret 9 _ _ _ _ _ (by rfl) k⟩
  have h1 := elz4_decompress_fuel_ret fuel _ _ _ _ _ h 7
  rw [Nat.add_comm, hu fuel] at h1
  cases h1

/-- C8.  For every byte string `P` of length `L ≥ 1`, the frame `literals_frame P` (plain
header, descriptor with the block length below `2^31`, token with literal nibble
`min L 15` and match nibble 0, the length bytes of `L - 15` when `L ≥ 15`, the bytes of
`P`, end mark) fed in one call to a zero-initialised context with at least `L` bytes of
output space is decoded to exactly `P`: the call returns `ELZ4_RESULT_EOF`, has consumed
the whole frame and has appended `P` to the output. -/
theorem literals_only_block_decoded (P dst : List Nat) (dst_size k : Nat) (hL : 1 ≤ P.length)
    (hlen : (literals_block P).length < 2147483648) (hcap : P.length ≤ dst_size) :
    elz4_decompress (k + 6) ctx_zero (literals_frame P) dst dst_size =
      .ret { result := .ELZ4_RESULT_EOF,
             ctx := ctx_at_eof 0x40 (literals_token P.length) (List.replicate 11 0),
             src_size := (literals_frame P).length, dst_size := P.length, dst := dst ++ P } := by
  apply elz4_decompress_fuel_ret 6
  have hd := drive_literals_frame P dst dst_size hL hlen hcap
  have hz : (if ctx_zero.phase_func = .nullptr then { ctx_zero with phase_func := .phase_header }
      else ctx_zero) = { ctx_zero with phase_func := .phase_header } := rfl
  rw [elz4_decompress_of_drive, hz, hd]

set_option maxRecDepth 100000 in
theorem literals_only_block_decoded_witness :
    elz4_decompress 6 ctx_zero frame_one_literal [] 1 =
        .ret { result := .ELZ4_RESULT_EOF,
               ctx := ctx_at_eof 0x40 0x10 [0, 0, 0, 0, 0, 0, 0, 0, 0, 0, 0],
               src_size := 17, dst_size := 1, dst := [0x41] } ∧
    (literals_block (List.replicate 280 0x41)).take 3 = [0xF0, 0xFF, 0x0A] ∧
    elz4_decompress 6 ctx_zero (literals_frame (List.replicate 280 0x41)) [] 280 =
        .ret { result := .ELZ4_RESULT_EOF,
               ctx := ctx_at_eof 0x40 0xF0 [0, 0, 0, 0, 0, 0, 0, 0, 0, 0, 0],
               src_size := 298, dst_size := 280, dst := List.replicate 280 0x41 } :=
  ⟨literals_only_block_decoded [0x41] [] 1 0 (by decide) (by decide) (by decide),
    by simp [literals_block, literals_token, literal_length_bytes, List.replicate_succ],
    literals_only_block_decoded (List.replicate 280 0x41) [] 280 0 (by simp)
      (by simp [literals_block_length, literal_length_bytes]) (by simp)⟩

/-- C9 (code defect).  A flags byte with bit 3 and bit 1 both set asks for 19 header bytes,
but the scratch area holds 15: on `frame_both_fields` (flags `0x4A`) the accumulator
stores its 16th byte at `scratch[15]`, outside the array, and the call is undefined
instead of consuming 19 bytes and moving to the block-size phase.  (For every other flags
byte the header is read as claimed: `header_without_both_fields`.) -/
theorem header_with_both_fields_overruns_scratch :
    ∀ k, elz4_decompress (k + 1) ctx_zero frame_both_fields [] 16 = .undef :=
  fun k => elz4_decompress_fuel_undef 1 _ _ _ _ (by rfl) k

/-- C10.  In the block-size phase, with `k` descriptor bytes already in the scratch area
from earlier calls: input that leaves the descriptor short of four bytes is stored and the
phase returns `OK`; input `xs` that completes the four bytes, of little-endian value `d`,
gives `EOF` exactly when `d = 0`, and otherwise sets the block size to `d mod 2^31`,
resets `scratch_size` to 0 and selects `phase_memcpy_block` when bit 31 of `d` is set and
`phase_decompress_block` when it is clear.  And a call of `elz4_decompress` that returns
`EOF` ends in that state: block-size phase, four bytes accumulated, value 0. -/
theorem block_descriptor_dispatch (ctx : elz4_ctx) (xs rest : List Nat) (pos size : Nat)
    (dst : wspan) (hlen : ctx.scratch.length = 15) (hk : ctx.scratch_size + xs.length = 4)
    (hsz : xs.length ≤ size) (hb : ∀ b ∈ ctx.scratch.take ctx.scratch_size ++ xs, b < 256) :
    phase_block_size ctx { data := xs ++ rest, pos := pos, size := size } dst =
      .ret
        (if rd32 (ctx.scratch.take ctx.scratch_size ++ xs) 0 = 0 then
          (.ELZ4_RESULT_EOF,
            { ctx with scratch := ctx.scratch.take ctx.scratch_size ++ xs ++ ctx.scratch.drop 4,
                       scratch_size := 4 },
            { data := rest, pos := pos + xs.length, size := size - xs.length }, dst)
        else
          (.ELZ4_RESULT_OK,
            { ctx with
                scratch := ctx.scratch.take ctx.scratch_size ++ xs ++ ctx.scratch.drop 4,
                scratch_size := 0,
                current_block_size :=
                  rd32 (ctx.scratch.take ctx.scratch_size ++ xs) 0 % 2147483648,
                phase_func :=
                  if rd32 (ctx.scratch.take ctx.scratch_size ++ xs) 0 / 2147483648 % 2 = 1
                  then .phase_memcpy_block else .phase_decompress_block },
            { data := rest, pos := pos + xs.length, size := size - xs.length }, dst)) ∧
    (∀ (ys : List Nat) (pos2 : Nat), ctx.scratch_size + ys.length < 4 →
      phase_block_size ctx { data := ys, pos := pos2, size := ys.length } dst =
        .ret (.ELZ4_RESULT_OK,
          { ctx with
              scratch := ctx.scratch.take ctx.scratch_size ++ ys ++
                ctx.scratch.drop (ctx.scratch_size + ys.length),
              scratch_size := ctx.scratch_size + ys.length },
          { data := [], pos := pos2 + ys.length, size := 0 }, dst)) ∧
    (∀ (fuel : Nat) (c : elz4_ctx) (src2 dst2 : List Nat) (n : Nat) (r : decompress_ret),
      elz4_decompress fuel c src2 dst2 n = .ret r → r.result = .ELZ4_RESULT_EOF →
        r.ctx.phase_func = .phase_block_size ∧ r.ctx.scratch_size = 4 ∧
          rd32 r.ctx.scratch 0 = 0) := by
  exact ⟨phase_block_size_complete ctx xs rest pos size dst hlen hk hsz hb,
    fun ys pos2 hys => phase_block_size_partial ctx ys pos2 dst hlen hys,
    fun fuel c src2 dst2 n r h hr => elz4_decompress_eof fuel c src2 dst2 n r h hr⟩

theorem block_descriptor_dispatch_witness :
    phase_block_size
        { phase_func := .phase_block_size, current_block_size := 0,
          scratch := [0x02, 0x00, 0x00, 0x18, 0x40, 0x40, 0, 0, 0, 0, 0, 0, 0, 0, 0],
          scratch_size := 3, flags := 64, current_token := 0 }
        { data := [0x80] ++ [0x41], pos := 0, size := 2 } { mem := [], pos := 0, size := 16 } =
      .ret (.ELZ4_RESULT_OK,
        { phase_func := .phase_memcpy_block, current_block_size := 2,
          scratch := [0x02, 0x00, 0x00, 0x80, 0x40, 0x40, 0, 0, 0, 0, 0, 0, 0, 0, 0],
          scratch_size := 0, flags := 64, current_token := 0 },
        { data := [0x41], pos := 1, size := 1 }, { mem := [], pos := 0, size := 16 }) :=
  (block_descriptor_dispatch
    { phase_func := .phase_block_size, current_block_size := 0,
      scratch := [0x02, 0x00, 0x00, 0x18, 0x40, 0x40, 0, 0, 0, 0, 0, 0, 0, 0, 0],
      scratch_size := 3, flags := 64, current_token := 0 }
    [0x80] [0x41] 0 2 { mem := [], pos := 0, size := 16 } rfl rfl (by decide) (by decide)).1

/-! ## Claims about the results of a call -/

/-- C12.  Whenever `elz4_decompress` returns `ELZ4_RESULT_OK` the count it reports in
`*src_size` is the length of the input span.  When it returns with input left over, the
result is `ELZ4_RESULT_EOF` or `ELZ4_RESULT_INVALID_HEADER`, and it is the result of a phase
that was called on a non-empty span: the call reports that phase's result, the context and
the span positions as the phase left them. -/
theorem ok_means_input_drained (fuel : Nat) (ctx : elz4_ctx) (src dst : List Nat)
    (dst_size : Nat) (r : decompress_ret)
    (h : elz4_decompress fuel ctx src dst dst_size = .ret r) :
    (r.result = .ELZ4_RESULT_OK → r.src_size = src.length) ∧
    (r.src_size ≠ src.length →
      (r.result = .ELZ4_RESULT_EOF ∨ r.result = .ELZ4_RESULT_INVALID_HEADER) ∧
      ∃ (k : Nat) (c0 : elz4_ctx) (s0 s : span) (d0 d : wspan),
        s0.size ≠ 0 ∧ call_phase k c0 s0 d0 = .ret (r.result, r.ctx, s, d) ∧
          s.pos = r.src_size ∧ d.pos = r.dst_size ∧ d.mem = r.dst) := by
  rw [elz4_decompress_of_drive] at h
  split at h
  · cases h
  · cases h
  · rename_i r1 c1 s1 d1 hd
    have e := (drive_span _ _ _ _ _ _ _ _ _ hd).1
    have hset := (drive_result_set _ _ _ _ _ _ _ _ hd).1
    have hres := drive_result _ _ _ _ _ _ _ _ _ hd
    simp only [Outcome.ret.injEq] at h
    subst h
    simp only at e hres ⊢
    refine ⟨fun hr => ?_, fun hne => ?_⟩
    · rcases hres with ⟨a1, -, -, a4, -⟩ | ⟨-, -, a3⟩ | ⟨-, a2, -⟩
      · subst a4
        simp only at e ⊢
        omega
      · omega
      · exact absurd hr a2
    · rcases hres with ⟨a1, -, -, a4, -⟩ | ⟨-, -, a3⟩ | ⟨-, a2, k, c0, s0, d0, a3, a4⟩
      · subst a4
        simp only at hne
        omega
      · omega
      · refine ⟨?_, k, c0, s0, s1, d0, d1, a3, a4, rfl, rfl, rfl⟩
        rcases hset with hh | hh
        · exact absurd hh a2
        · exact hh

theorem ok_means_input_drained_witness :
    (elz4_decompress 8 ctx_zero (frame_one_literal ++ [0x99]) [] 16 =
        .ret { result := .ELZ4_RESULT_EOF,
               ctx := ctx_at_eof 64 16 [0, 0, 0, 0, 0, 0, 0, 0, 0, 0, 0],
               src_size := 17, dst_size := 1, dst := [0x41] }) ∧
      (frame_one_literal ++ [0x99]).length = 18 ∧
      ((elz4_result.ELZ4_RESULT_EOF = .ELZ4_RESULT_OK →
          (17 : Nat) = (frame_one_literal ++ [0x99]).length) ∧
        ((17 : Nat) ≠ (frame_one_literal ++ [0x99]).length →
          (elz4_result.ELZ4_RESULT_EOF = .ELZ4_RESULT_EOF ∨
            elz4_result.ELZ4_RESULT_EOF = .ELZ4_RESULT_INVALID_HEADER) ∧
          ∃ (k : Nat) (c0 : elz4_ctx) (s0 s : span) (d0 d : wspan),
            s0.size ≠ 0 ∧
              call_phase k c0 s0 d0 =
                .ret (.ELZ4_RESULT_EOF, ctx_at_eof 64 16 [0, 0, 0, 0, 0, 0, 0, 0, 0, 0, 0], s, d) ∧
              s.pos = 17 ∧ d.pos = 1 ∧ d.mem = [0x41])) :=
  ⟨rfl, rfl,
    ok_means_input_drained 8 ctx_zero (frame_one_literal ++ [0x99]) [] 16
      { result := .ELZ4_RESULT_EOF, ctx := ctx_at_eof 64 16 [0, 0, 0, 0, 0, 0, 0, 0, 0, 0, 0],
        src_size := 17, dst_size := 1, dst := [0x41] } rfl⟩

/-- C19.  Whenever `elz4_decompress` returns, its result is `ELZ4_RESULT_OK`,
`ELZ4_RESULT_EOF` or `ELZ4_RESULT_INVALID_HEADER`, never `ELZ4_RESULT_INVALID_BLOCK_SIZE`;
and when the call starts past the header (the phase pointer is neither null nor
`phase_header`) the result is `ELZ4_RESULT_OK` or `ELZ4_RESULT_EOF` and the context stays
past the header. -/
theorem invalid_block_size_never_returned (fuel : Nat) (ctx : elz4_ctx) (src dst : List Nat)
    (dst_size : Nat) (r : decompress_ret)
    (h : elz4_decompress fuel ctx src dst dst_size = .ret r) :
    r.result ≠ .ELZ4_RESULT_INVALID_BLOCK_SIZE ∧
    (r.result = .ELZ4_RESULT_OK ∨ r.result = .ELZ4_RESULT_EOF ∨
      r.result = .ELZ4_RESULT_INVALID_HEADER) ∧
    (past_header ctx →
      past_header r.ctx ∧ (r.result = .ELZ4_RESULT_OK ∨ r.result = .ELZ4_RESULT_EOF)) := by
  rw [elz4_decompress_of_drive] at h
  split at h
  · cases h
  · cases h
  · rename_i r1 c1 s1 d1 hd
    obtain ⟨a1, a2⟩ := drive_result_set _ _ _ _ _ _ _ _ hd
    simp only [Outcome.ret.injEq] at h
    subst h
    simp only
    refine ⟨?_, a1, fun hp => a2 ?_⟩
    · rcases a1 with hh | hh | hh <;> rw [hh] <;> decide
    · rw [if_neg hp.1]
      exact hp

/-- A sequence that overruns its block: the descriptor announces 1 byte, the token `10`
takes it, and the literal that follows is read all the same; the call returns `OK`. -/
theorem invalid_block_size_never_returned_witness :
    elz4_decompress 4 ctx_after_header [1, 0, 0, 0, 0x10, 0x41] [] 1 =
        .ret { result := .ELZ4_RESULT_OK,
               ctx :=
                { phase_func := .phase_decompress_block, current_block_size := 4294967295,
                  scratch := [0, 0, 0, 0, 0, 0, 0, 0, 0, 0, 0, 0, 0, 0, 0],
                  scratch_size := STATE_READ_OFFSET, flags := 64, current_token := 16 },
               src_size := 6, dst_size := 1, dst := [0x41] } ∧
      elz4_result.ELZ4_RESULT_OK ≠ .ELZ4_RESULT_INVALID_BLOCK_SIZE ∧
      (elz4_result.ELZ4_RESULT_OK = .ELZ4_RESULT_OK ∨
        elz4_result.ELZ4_RESULT_OK = .ELZ4_RESULT_EOF ∨
        elz4_result.ELZ4_RESULT_OK = .ELZ4_RESULT_INVALID_HEADER) ∧
      (past_header ctx_after_header →
        past_header
            { phase_func := .phase_decompress_block, current_block_size := 4294967295,
              scratch := [0, 0, 0, 0, 0, 0, 0, 0, 0, 0, 0, 0, 0, 0, 0],
              scratch_size := STATE_READ_OFFSET, flags := 64, current_token := 16 } ∧
          (elz4_result.ELZ4_RESULT_OK = .ELZ4_RESULT_OK ∨
            elz4_result.ELZ4_RESULT_OK = .ELZ4_RESULT_EOF)) :=
  ⟨rfl,
    invalid_block_size_never_returned 4 ctx_after_header [1, 0, 0, 0, 0x10, 0x41] [] 1
      { result := .ELZ4_RESULT_OK,
        ctx :=
          { phase_func := .phase_decompress_block, current_block_size := 4294967295,
            scratch := [0, 0, 0, 0, 0, 0, 0, 0, 0, 0, 0, 0, 0, 0, 0],
            scratch_size := STATE_READ_OFFSET, flags := 64, current_token := 16 },
        src_size := 6, dst_size := 1, dst := [0x41] } rfl⟩

/-- C20.  A call of `elz4_decompress` with an empty input span returns `ELZ4_RESULT_OK` for
every context, every output span and every amount of fuel, reports 0 bytes consumed and 0
bytes produced, and leaves the context as it was apart from replacing a null phase pointer
by `phase_header`.  In particular the 4-byte match that is waiting in `ctx_match_pending`
(reached on the first 18 bytes of `frame_match`) is not emitted by a call without input
although 12 bytes of output space are offered; the call that brings the next input byte
emits it. -/
theorem call_without_input_is_a_no_op (fuel : Nat) (ctx : elz4_ctx) (dst : List Nat)
    (dst_size : Nat) :
    elz4_decompress fuel ctx [] dst dst_size =
        .ret { result := .ELZ4_RESULT_OK,
               ctx := if ctx.phase_func = .nullptr then { ctx with phase_func := .phase_header }
                      else ctx,
               src_size := 0, dst_size := 0, dst := dst } ∧
    (∀ k, elz4_decompress (k + 6) ctx_zero (frame_match.take 18) [] 16 =
        .ret { result := .ELZ4_RESULT_OK, ctx := ctx_match_pending, src_size := 18,
               dst_size := 4, dst := [0x41, 0x42, 0x43, 0x44] }) ∧
    (∀ k, elz4_decompress k ctx_match_pending [] [0x41, 0x42, 0x43, 0x44] 12 =
        .ret { result := .ELZ4_RESULT_OK, ctx := ctx_match_pending, src_size := 0,
               dst_size := 0, dst := [0x41, 0x42, 0x43, 0x44] }) ∧
    (∀ k, elz4_decompress (k + 3) ctx_match_pending [0x10] [0x41, 0x42, 0x43, 0x44] 12 =
        .ret { result := .ELZ4_RESULT_OK,
               ctx :=
                { phase_func := .phase_decompress_block, current_block_size := 1,
                  scratch := [1, 0, 0, 0, 0, 0, 0, 0, 0, 0, 0, 0, 0, 0, 0],
                  scratch_size := STATE_COPY_LITERALS, flags := 0x40, current_token := 0x10 },
               src_size := 1, dst_size := 4,
               dst := [0x41, 0x42, 0x43, 0x44, 0x41, 0x42, 0x43, 0x44] }) := by
  have hgen : ∀ (f : Nat) (c : elz4_ctx) (m : List Nat) (n : Nat),
      elz4_decompress f c [] m n =
        .ret { result := .ELZ4_RESULT_OK,
               ctx := if c.phase_func = .nullptr then { c with phase_func := .phase_header }
                      else c,
               src_size := 0, dst_size := 0, dst := m } := by
    intro f c m n
    rw [elz4_decompress_of_drive, drive_done (by rfl)]
  exact ⟨hgen _ _ _ _, fun k => elz4_decompress_fuel_ret 6 _ _ _ _ _ (by rfl) k,
    fun k => hgen k ctx_match_pending _ _,
    fun k => elz4_decompress_fuel_ret 3 _ _ _ _ _ (by rfl) k⟩

/-! ## Claims about the block size accounting -/

/-- C14 (for well-formed blocks).  Let the unread part `rest` of the block payload be
accepted by `ends_with_literals` from the current sub-state (read the way the decoder reads
it, it ends with the last literal of a sequence), let the block size be its length, and let
the input span continue it, wherever the chunk ends (`future` are the bytes of later calls,
`more` the bytes after the block).  Then every sub-state step that returns consumes at most
`current_block_size` bytes and leaves the block size reduced by exactly that number, so the
block size does not increase; the block size is 0 after the step exactly when the step
returns `OK` out of the block decoder, and that step is a literal copy in
`STATE_COPY_LITERALS` that copied all pending literals and used up the payload; any other
step stays in the phase with the rest of the payload in the same shape, so the same holds
for the next step and the next call.  The same over a whole run of the block decoder on
the span; and the decoder is in this situation at the start of every block whose payload
`well_formed_block` accepts. -/
theorem block_size_in_well_formed_block (ctx c : elz4_ctx) (src s : span) (dst d : wspan)
    (o : Option elz4_result) (rest future more : List Nat)
    (hinv : inside_well_formed_block ctx rest)
    (hcbs : ctx.current_block_size = rest.length) (hlt : rest.length < 4294967296)
    (hrel : src.data ++ future = rest ++ more) (hs : src.size ≠ 0)
    (h : block_step ctx src dst = .ret (o, c, s, d)) :
    (s.size ≤ src.size ∧ src.size - s.size ≤ ctx.current_block_size ∧
      c.current_block_size = ctx.current_block_size - (src.size - s.size) ∧
      (c.current_block_size = 0 ↔ o = some .ELZ4_RESULT_OK) ∧
      (o = some .ELZ4_RESULT_OK →
        ctx.scratch_size = STATE_COPY_LITERALS ∧ rd32 ctx.scratch 0 = src.size - s.size ∧
          src.size - s.size = rest.length ∧ c.scratch_size = 0 ∧
          c.phase_func =
            if ctx.flags &&& ELZ4_FLAG_BLOCK_CRC32 ≠ 0 then .phase_crc32
            else .phase_block_size) ∧
      (o = none →
        c.phase_func = ctx.phase_func ∧ c.flags = ctx.flags ∧
          inside_well_formed_block c (rest.drop (src.size - s.size)) ∧
          c.current_block_size = (rest.drop (src.size - s.size)).length ∧
          s.data ++ future = rest.drop (src.size - s.size) ++ more)) ∧
    (∀ (fuel : Nat) (r : elz4_result) (c2 : elz4_ctx) (s2 : span) (d2 : wspan),
      phase_decompress_block fuel ctx src dst = .ret (r, c2, s2, d2) →
        s2.size ≤ src.size ∧ src.size - s2.size ≤ ctx.current_block_size ∧
        c2.current_block_size = ctx.current_block_size - (src.size - s2.size) ∧
        ((c2.current_block_size ≠ 0 ∧ c2.phase_func = ctx.phase_func ∧
            inside_well_formed_block c2 (rest.drop (src.size - s2.size)) ∧
            s2.data ++ future = rest.drop (src.size - s2.size) ++ more) ∨
          (c2.current_block_size = 0 ∧ src.size - s2.size = rest.length ∧
            c2.scratch_size = 0 ∧
            c2.phase_func =
              if ctx.flags &&& ELZ4_FLAG_BLOCK_CRC32 ≠ 0 then .phase_crc32
              else .phase_block_size))) ∧
    (∀ (ctx0 : elz4_ctx) (payload : List Nat),
      ctx0.scratch_size = STATE_READ_TOKEN → ctx0.scratch.length = 15 →
      well_formed_block payload = true → inside_well_formed_block ctx0 payload) :=
  ⟨block_step_block_size ctx c src s dst d o rest future more hinv hcbs hlt hrel hs h,
    fun fuel r c2 s2 d2 hrun =>
      phase_decompress_block_in_block future more fuel ctx c2 src s2 dst d2 r rest hinv hcbs hlt
        hrel hrun,
    fun ctx0 payload h0 h15 hw => inside_at_block_start ctx0 payload h0 h15 hw⟩

/-- Two steps inside well-formed blocks.  In `ctx_offset_pending` the payload that is left is
`04 00 10 45` and a chunk brings the byte `04` alone: the step takes the block size from 4
to 3 and stays in the block.  In `ctx_last_literal` the payload that is left is the literal
`41`: the step copies it, takes the block size from 1 to 0 and returns `OK`, with the
checksum bytes behind it unread.  The payload of `frame_match` is well-formed, the one of
`frame_block_ends_in_match` is not. -/
theorem block_size_in_well_formed_block_witness :
    well_formed_block [0x40, 0x41, 0x42, 0x43, 0x44, 0x04, 0x00, 0x10, 0x45] = true ∧
    well_formed_block [0x40, 0x41, 0x42, 0x43, 0x44, 0x04, 0x00] = false ∧
    (inside_well_formed_block ctx_offset_pending [0x04, 0x00, 0x10, 0x45] ∧
      block_step ctx_offset_pending { data := [0x04], pos := 16, size := 1 }
          { mem := [0x41, 0x42, 0x43, 0x44], pos := 4, size := 12 } =
        .ret (none,
          { phase_func := .phase_decompress_block, current_block_size := 3,
            scratch := [4, 0, 0, 0, 1, 0, 0, 0, 0, 0, 0, 0, 0, 0, 0],
            scratch_size := STATE_READ_OFFSET, flags := 0x40, current_token := 0x40 },
          { data := [], pos := 17, size := 0 },
          { mem := [0x41, 0x42, 0x43, 0x44], pos := 4, size := 12 }) ∧
      (3 : Nat) = 4 - (1 - 0) ∧
      ((3 : Nat) = 0 ↔ (none : Option elz4_result) = some .ELZ4_RESULT_OK) ∧
      inside_well_formed_block
        { phase_func := .phase_decompress_block, current_block_size := 3,
          scratch := [4, 0, 0, 0, 1, 0, 0, 0, 0, 0, 0, 0, 0, 0, 0],
          scratch_size := STATE_READ_OFFSET, flags := 0x40, current_token := 0x40 }
        [0x00, 0x10, 0x45]) ∧
    (inside_well_formed_block ctx_last_literal [0x41] ∧
      block_step ctx_last_literal
          { data := [0x41, 0xAA, 0xBB, 0xCC, 0xDD, 0], pos := 12, size := 6 }
          { mem := [], pos := 0, size := 16 } =
        .ret (some .ELZ4_RESULT_OK, ctx_block_checksum,
          { data := [0xAA, 0xBB, 0xCC, 0xDD, 0], pos := 13, size := 5 },
          { mem := [0x41], pos := 1, size := 15 }) ∧
      (0 : Nat) = 1 - (6 - 5) ∧
      ((0 : Nat) = 0 ↔ some elz4_result.ELZ4_RESULT_OK = some .ELZ4_RESULT_OK) ∧
      (6 : Nat) - 5 = [0x41].length) :=
  have i1 : inside_well_formed_block ctx_offset_pending [0x04, 0x00, 0x10, 0x45] :=
    ⟨rfl, fun _ => rfl, rfl⟩
  have i2 : inside_well_formed_block ctx_last_literal [0x41] := ⟨rfl, fun _ => rfl, rfl⟩
  have h1 := (block_size_in_well_formed_block ctx_offset_pending
    { phase_func := .phase_decompress_block, current_block_size := 3,
      scratch := [4, 0, 0, 0, 1, 0, 0, 0, 0, 0, 0, 0, 0, 0, 0],
      scratch_size := STATE_READ_OFFSET, flags := 0x40, current_token := 0x40 }
    { data := [0x04], pos := 16, size := 1 } { data := [], pos := 17, size := 0 }
    { mem := [0x41, 0x42, 0x43, 0x44], pos := 4, size := 12 }
    { mem := [0x41, 0x42, 0x43, 0x44], pos := 4, size := 12 }
    none [0x04, 0x00, 0x10, 0x45] [0x00, 0x10, 0x45, 0, 0, 0, 0] [0, 0, 0, 0] i1 rfl (by decide)
    rfl (by decide) rfl).1
  have h2 := (block_size_in_well_formed_block ctx_last_literal ctx_block_checksum
    { data := [0x41, 0xAA, 0xBB, 0xCC, 0xDD, 0], pos := 12, size := 6 }
    { data := [0xAA, 0xBB, 0xCC, 0xDD, 0], pos := 13, size := 5 }
    { mem := [], pos := 0, size := 16 } { mem := [0x41], pos := 1, size := 15 }
    (some .ELZ4_RESULT_OK) [0x41] [] [0xAA, 0xBB, 0xCC, 0xDD, 0] i2 rfl (by decide)
    rfl (by decide) rfl).1
  ⟨rfl, rfl, ⟨i1, rfl, h1.2.2.1, h1.2.2.2.1, (h1.2.2.2.2.2 rfl).2.2.1⟩,
    ⟨i2, rfl, h2.2.2.1, h2.2.2.2.1, (h2.2.2.2.2.1 rfl).2.2.1⟩⟩

/-- C14 as stated fails.  On `frame_block_ends_in_match` (descriptor 7; token `40`, four
literals, offset `04 00`) the call returns `OK` with block size 0 while the sub-state is
`STATE_COPY_MATCH`: the block size has reached 0 inside a match, not at the end of a
literal copy.  The decoder carries on in the same block: the match copy leaves the block
size at 0, and the step that reads the next byte as a token takes it from 0 to
4294967295. -/
theorem block_size_increases_after_zero :
    (∀ k, elz4_decompress (k + 6) ctx_zero frame_block_ends_in_match [] 16 =
        .ret { result := .ELZ4_RESULT_OK, ctx := ctx_block_spent, src_size := 18, dst_size := 4,
               dst := [0x41, 0x42, 0x43, 0x44] }) ∧
    ctx_block_spent.current_block_size = 0 ∧
    ctx_block_spent.scratch_size = STATE_COPY_MATCH ∧
    block_step ctx_block_spent { data := [0], pos := 0, size := 1 }
        { mem := [0x41, 0x42, 0x43, 0x44], pos := 0, size := 12 } =
      .ret (none,
        { phase_func := .phase_decompress_block, current_block_size := 0,
          scratch := [0, 0, 0, 0, 0, 0, 0, 0, 0, 0, 0, 0, 0, 0, 0],
          scratch_size := STATE_READ_TOKEN, flags := 0x40, current_token := 0x40 },
        { data := [0], pos := 0, size := 1 },
        { mem := [0x41, 0x42, 0x43, 0x44, 0x41, 0x42, 0x43, 0x44], pos := 4, size := 8 }) ∧
    block_step
        { phase_func := .phase_decompress_block, current_block_size := 0,
          scratch := [0, 0, 0, 0, 0, 0, 0, 0, 0, 0, 0, 0, 0, 0, 0],
          scratch_size := STATE_READ_TOKEN, flags := 0x40, current_token := 0x40 }
        { data := [0], pos := 0, size := 1 }
        { mem := [0x41, 0x42, 0x43, 0x44, 0x41, 0x42, 0x43, 0x44], pos := 4, size := 8 } =
      .ret (none,
        { phase_func := .phase_decompress_block, current_block_size := 4294967295,
          scratch := [0, 0, 0, 0, 0, 0, 0, 0, 0, 0, 0, 0, 0, 0, 0],
          scratch_size := STATE_COPY_LITERALS, flags := 0x40, current_token := 0 },
        { data := [], pos := 1, size := 0 },
        { mem := [0x41, 0x42, 0x43, 0x44, 0x41, 0x42, 0x43, 0x44], pos := 4, size := 8 }) ∧
    (∀ k, elz4_decompress (k + 3) ctx_block_spent [0] [0x41, 0x42, 0x43, 0x44] 12 =
        .ret { result := .ELZ4_RESULT_OK,
               ctx :=
                { phase_func := .phase_decompress_block, current_block_size := 4294967295,
                  scratch := [0, 0, 0, 0, 0, 0, 0, 0, 0, 0, 0, 0, 0, 0, 0],
                  scratch_size := STATE_COPY_LITERALS, flags := 0x40, current_token := 0 },
               src_size := 1, dst_size := 4,
               dst := [0x41, 0x42, 0x43, 0x44, 0x41, 0x42, 0x43, 0x44] }) :=
  ⟨fun k => elz4_decompress_fuel_ret 6 _ _ _ _ _ (by rfl) k, rfl, rfl, rfl, rfl,
    fun k => elz4_decompress_fuel_ret 3 _ _ _ _ _ (by rfl) k⟩

/-- C15.  A sub-state step of the block decoder that moves the input span from `src` to
`s` consumes `src.size - s.size` bytes and leaves the block size at its old value minus
that number, modulo `2^32`; this holds in every sub-state, `STATE_COPY_LITERALS` with its
early subtraction included, and `STATE_COPY_MATCH` consumes no input and subtracts 0.  So
if the block size stands at `(D - n) mod 2^32` before a step (`D` the descriptor size, `n`
the bytes consumed since the descriptor) it stands at `(D - (n + consumed)) mod 2^32`
after it, and likewise after any run of the block decoder that returns. -/
theorem exact_block_accounting (ctx c : elz4_ctx) (src s : span) (dst d : wspan)
    (o : Option elz4_result) (hstep : block_step ctx src dst = .ret (o, c, s, d)) :
    s.size ≤ src.size ∧
    c.current_block_size = sub32 ctx.current_block_size (src.size - s.size) ∧
    (∀ D n : Nat, ctx.current_block_size = sub32 D n →
      c.current_block_size = sub32 D (n + (src.size - s.size))) ∧
    (ctx.scratch_size = STATE_COPY_MATCH →
      s = src ∧ c.current_block_size = sub32 ctx.current_block_size 0 ∧
        (ctx.current_block_size < 4294967296 →
          c.current_block_size = ctx.current_block_size)) ∧
    (∀ (fuel : Nat) (ctx2 c2 : elz4_ctx) (src2 s2 : span) (dst2 d2 : wspan) (r : elz4_result)
        (D n : Nat),
      ctx2.current_block_size = sub32 D n →
      phase_decompress_block fuel ctx2 src2 dst2 = .ret (r, c2, s2, d2) →
        s2.size ≤ src2.size ∧ c2.current_block_size = sub32 D (n + (src2.size - s2.size))) := by
  obtain ⟨-, f2, f3, -, -⟩ := block_step_facts _ _ _ _ _ _ _ hstep
  refine ⟨f3, f2, fun D n hD => ?_, fun hm => ?_, fun fuel ctx2 c2 src2 s2 dst2 d2 r D n hD hrun => ?_⟩
  · rw [f2, hD, sub32_sub32]
  · have hb : step_copy_match ctx src dst = .ret (o, c, s, d) := by
      rw [← hstep]
      unfold block_step
      rw [hm]
      rfl
    have e := (step_copy_match_span _ _ _ _ _ _ _ hb).1
    subst e
    rw [f2, Nat.sub_self]
    exact ⟨rfl, rfl, fun hlt => sub32_zero _ hlt⟩
  · obtain ⟨-, g2, g3, -⟩ := phase_decompress_block_facts _ _ _ _ _ _ _ _ hrun
    have hlt : ctx2.current_block_size < 4294967296 := by
      rw [hD]
      exact sub32_lt _ _
    refine ⟨g3, ?_⟩
    rw [g2 hlt, hD, sub32_sub32]

/-- A step whose run never returns: two literals are pending, one byte of output space is
offered.  The step copies one literal and takes the block size from 2 to 1. -/
theorem exact_block_accounting_witness :
    block_step ctx_two_literals_pending { data := [0x41, 0x42, 0, 0, 0, 0], pos := 12, size := 6 }
        { mem := [], pos := 0, size := 1 } =
      .ret (none,
        { phase_func := .phase_decompress_block, current_block_size := 1,
          scratch := [1, 0, 0, 0, 0, 0, 0, 0, 0, 0, 0, 0, 0, 0, 0],
          scratch_size := STATE_COPY_LITERALS, flags := 0x40, current_token := 0x20 },
        { data := [0x42, 0, 0, 0, 0], pos := 13, size := 5 },
        { mem := [0x41], pos := 1, size := 0 }) ∧
    (5 : Nat) ≤ 6 ∧ (1 : Nat) = sub32 2 (6 - 5) ∧
    ((2 : Nat) = sub32 3 1 → (1 : Nat) = sub32 3 (1 + (6 - 5))) :=
  have h := exact_block_accounting ctx_two_literals_pending
    { phase_func := .phase_decompress_block, current_block_size := 1,
      scratch := [1, 0, 0, 0, 0, 0, 0, 0, 0, 0, 0, 0, 0, 0, 0],
      scratch_size := STATE_COPY_LITERALS, flags := 0x40, current_token := 0x20 }
    { data := [0x41, 0x42, 0, 0, 0, 0], pos := 12, size := 6 }
    { data := [0x42, 0, 0, 0, 0], pos := 13, size := 5 }
    { mem := [], pos := 0, size := 1 } { mem := [0x41], pos := 1, size := 0 } none rfl
  ⟨rfl, h.1, h.2.1, h.2.2.1 3 1⟩

/-! ## Claims about the end of a block -/

/-- C13.  In `STATE_COPY_LITERALS`, when the `L` remaining literals are all in the input
span and fit the output span, the copy completes and the block size goes down by `L`.  If
the block size is then 0 the block decoder returns `OK` at once, with the input span just
past the literals (no offset byte is read), `scratch_size = 0`, and the phase set to
`phase_crc32` if bit 4 of the flags is set and to `phase_block_size` otherwise.  If the
block size is not 0 the step goes round the loop with the sub-state `STATE_READ_OFFSET`.
The phase `phase_crc32` with `k` bytes already accumulated takes the `4 - k` bytes `xs`
that complete the four from the input, leaves the output span alone, and sets the phase to
`phase_block_size` with `scratch_size = 0`; input that leaves it short of four bytes is
stored and the phase stays. -/
theorem block_ends_at_literal_boundary (f : Nat) (ctx cc : elz4_ctx) (src : span)
    (dst d : wspan) (xs rest : List Nat) (pos size : Nat)
    (hp : ctx.phase_func = .phase_decompress_block)
    (hss : ctx.scratch_size = STATE_COPY_LITERALS) (hs : src.size ≠ 0)
    (h1 : rd32 ctx.scratch 0 ≤ src.size) (h2 : rd32 ctx.scratch 0 ≤ dst.size)
    (h3 : rd32 ctx.scratch 0 ≤ src.data.length)
    (hcp : cc.phase_func = .phase_crc32) (hlen : cc.scratch.length = 15)
    (hk : cc.scratch_size + xs.length = 4) (hsz : xs.length ≤ size) :
    (sub32 ctx.current_block_size (rd32 ctx.scratch 0) = 0 →
      call_phase (f + 1) ctx src dst =
        .ret (.ELZ4_RESULT_OK,
          { ctx with
              scratch := wr32 ctx.scratch 0 0, current_block_size := 0, scratch_size := 0,
              phase_func :=
                if ctx.flags &&& ELZ4_FLAG_BLOCK_CRC32 ≠ 0 then .phase_crc32
                else .phase_block_size },
          src.skip (rd32 ctx.scratch 0),
          dst.skip (src.data.take (rd32 ctx.scratch 0)) (rd32 ctx.scratch 0))) ∧
    (sub32 ctx.current_block_size (rd32 ctx.scratch 0) ≠ 0 →
      block_step ctx src dst =
        .ret (none,
          { ctx with
              scratch := wr32 ctx.scratch 0 0,
              current_block_size := sub32 ctx.current_block_size (rd32 ctx.scratch 0),
              scratch_size := STATE_READ_OFFSET },
          src.skip (rd32 ctx.scratch 0),
          dst.skip (src.data.take (rd32 ctx.scratch 0)) (rd32 ctx.scratch 0))) ∧
    call_phase f cc { data := xs ++ rest, pos := pos, size := size } d =
      .ret (.ELZ4_RESULT_OK,
        { cc with scratch := cc.scratch.take cc.scratch_size ++ xs ++ cc.scratch.drop 4,
                  scratch_size := 0, phase_func := .phase_block_size },
        { data := rest, pos := pos + xs.length, size := size - xs.length }, d) ∧
    (∀ (ys : List Nat) (pos2 : Nat), cc.scratch_size + ys.length < 4 →
      call_phase f cc { data := ys, pos := pos2, size := ys.length } d =
        .ret (.ELZ4_RESULT_OK,
          { cc with
              scratch := cc.scratch.take cc.scratch_size ++ ys ++
                cc.scratch.drop (cc.scratch_size + ys.length),
              scratch_size := cc.scratch_size + ys.length },
          { data := [], pos := pos2 + ys.length, size := 0 }, d)) := by
  have hb : block_step ctx src dst = step_copy_literals ctx src dst := by
    unfold block_step
    rw [hss]
    rfl
  have hstep := step_copy_literals_complete ctx src dst h1 h2 h3
  have hc : ∀ (s : span), call_phase f cc s d = phase_crc32 cc s d := by
    intro s
    unfold call_phase
    rw [hcp]
  refine ⟨fun hz => ?_, fun hz => ?_, ?_, fun ys pos2 hys => ?_⟩
  · have hcall : call_phase (f + 1) ctx src dst = phase_decompress_block (f + 1) ctx src dst := by
      unfold call_phase
      rw [hp]
    rw [hcall]
    refine (block_loop_return hs ?_)
    rw [hb, hstep]
    simp only [hz, if_true]
  · rw [hb, hstep]
    simp only [hz, if_false]
  · rw [hc]
    exact phase_crc32_complete cc xs rest pos size d hlen hk hsz
  · rw [hc]
    exact phase_crc32_partial cc ys pos2 d hlen hys

theorem block_ends_at_literal_boundary_witness :
    call_phase 1 ctx_last_literal { data := [0x41, 0xAA, 0xBB, 0xCC, 0xDD, 0], pos := 12, size := 6 }
        { mem := [], pos := 0, size := 16 } =
      .ret (.ELZ4_RESULT_OK, ctx_block_checksum,
        { data := [0xAA, 0xBB, 0xCC, 0xDD, 0], pos := 13, size := 5 },
        { mem := [0x41], pos := 1, size := 15 }) ∧
    call_phase 0 ctx_block_checksum { data := [0xAA, 0xBB, 0xCC, 0xDD] ++ [0], pos := 13, size := 5 }
        { mem := [0x41], pos := 1, size := 15 } =
      .ret (.ELZ4_RESULT_OK,
        { phase_func := .phase_block_size, current_block_size := 0,
          scratch := [0xAA, 0xBB, 0xCC, 0xDD, 0, 0, 0, 0, 0, 0, 0, 0, 0, 0, 0],
          scratch_size := 0, flags := 0x50, current_token := 0x10 },
        { data := [0], pos := 17, size := 1 },
        { mem := [0x41], pos := 1, size := 15 }) :=
  have h := block_ends_at_literal_boundary 0 ctx_last_literal ctx_block_checksum
    { data := [0x41, 0xAA, 0xBB, 0xCC, 0xDD, 0], pos := 12, size := 6 }
    { mem := [], pos := 0, size := 16 } { mem := [0x41], pos := 1, size := 15 }
    [0xAA, 0xBB, 0xCC, 0xDD] [0] 13 5 rfl rfl (by decide) (by decide) (by decide) (by decide)
    rfl rfl rfl (by decide)
  ⟨h.1 rfl, h.2.2.1⟩

/-! ## Claims about the match offset -/

/-- C17.  In `STATE_READ_OFFSET` with both scratch words at 0 (as they are when the state is
entered), the offset bytes `b0`, `b1` lead to the same context whether they come in one
call (the two-byte path) or one per call (the byte-at-a-time path with the bytes-seen
counter): the offset word is `b0 + 256 * b1`, the match length word is
`(current_token & 0x0F) + 4`, the sub-state is `STATE_COPY_MATCH` when that is below 19 and
`STATE_READ_MATCH_LENGTH` otherwise, the block size has gone down by 2, and in total 2
input bytes are consumed and nothing is written. -/
theorem offset_fast_path_equals_slow_path (k : Nat) (ctx : elz4_ctx) (b0 b1 : Nat)
    (dst : List Nat) (n : Nat) (hp : ctx.phase_func = .phase_decompress_block)
    (hss : ctx.scratch_size = STATE_READ_OFFSET) (h0 : rd32 ctx.scratch 0 = 0)
    (h4 : rd32 ctx.scratch 4 = 0) (hlen : ctx.scratch.length = 15) (hb0 : b0 < 256)
    (hb1 : b1 < 256) :
    elz4_decompress (k + 2) ctx [b0, b1] dst n =
      .ret { result := .ELZ4_RESULT_OK,
             ctx :=
              { ctx with
                  scratch := wr32 (wr32 ctx.scratch 0 (b0 + 256 * b1)) 4
                    ((ctx.current_token &&& 0x0F) + 4),
                  scratch_size := if (ctx.current_token &&& 0x0F) + 4 < 19 then STATE_COPY_MATCH
                                  else STATE_READ_MATCH_LENGTH,
                  current_block_size := sub32 ctx.current_block_size 2 },
             src_size := 2, dst_size := 0, dst := dst } ∧
    elz4_decompress (k + 2) ctx [b0] dst n =
      .ret { result := .ELZ4_RESULT_OK,
             ctx :=
              { ctx with
                  scratch := wr32 (wr32 ctx.scratch 0 b0) 4 1,
                  current_block_size := sub32 ctx.current_block_size 1 },
             src_size := 1, dst_size := 0, dst := dst } ∧
    elz4_decompress (k + 2)
        { ctx with
            scratch := wr32 (wr32 ctx.scratch 0 b0) 4 1,
            current_block_size := sub32 ctx.current_block_size 1 }
        [b1] dst n =
      .ret { result := .ELZ4_RESULT_OK,
             ctx :=
              { ctx with
                  scratch := wr32 (wr32 ctx.scratch 0 (b0 + 256 * b1)) 4
                    ((ctx.current_token &&& 0x0F) + 4),
                  scratch_size := if (ctx.current_token &&& 0x0F) + 4 < 19 then STATE_COPY_MATCH
                                  else STATE_READ_MATCH_LENGTH,
                  current_block_size := sub32 ctx.current_block_size 2 },
             src_size := 1, dst_size := 0, dst := dst } ∧
    rd32 (wr32 (wr32 ctx.scratch 0 (b0 + 256 * b1)) 4 ((ctx.current_token &&& 0x0F) + 4)) 0 =
      b0 + 256 * b1 ∧
    rd32 (wr32 (wr32 ctx.scratch 0 (b0 + 256 * b1)) 4 ((ctx.current_token &&& 0x0F) + 4)) 4 =
      (ctx.current_token &&& 0x0F) + 4 := by
  have hml : (ctx.current_token &&& 0x0F) + 4 < 4294967296 := by
    have := @Nat.and_le_right ctx.current_token 0x0F
    omega
  refine ⟨?_, ?_, ?_, ?_, ?_⟩
  · exact elz4_decompress_one_step k ctx _ [b0, b1] dst n _ _ hp (by simp)
      (block_step_offset_fast ctx b0 b1 [] 0 2 _ hss h4 (by decide) hlen) rfl
  · exact elz4_decompress_one_step k ctx _ [b0] dst n _ _ hp (by simp)
      (block_step_offset_first ctx b0 [] 0 _ hss h0 h4 hlen) rfl
  · have hstep := block_step_offset_second
      { ctx with
          scratch := wr32 (wr32 ctx.scratch 0 b0) 4 1,
          current_block_size := sub32 ctx.current_block_size 1 }
      b0 b1 [] 0 1 { mem := dst, pos := 0, size := n } hss
      (by
        show rd32 (wr32 (wr32 ctx.scratch 0 b0) 4 1) 0 = b0
        rw [rd32_wr32_other _ _ _ _ (Or.inr (by decide)), rd32_wr32_same _ _ _ (by omega)]
        omega)
      (by
        show rd32 (wr32 (wr32 ctx.scratch 0 b0) 4 1) 4 = 1
        rw [rd32_wr32_same _ _ _ (by rw [wr32_length]; omega)])
      hb0 (by decide)
      (by
        show (wr32 (wr32 ctx.scratch 0 b0) 4 1).length = 15
        rw [wr32_length, wr32_length, hlen])
    rw [wr32_offset_words, sub32_sub32, show (1 : Nat) + 1 = 2 from rfl] at hstep
    exact elz4_decompress_one_step k
      { ctx with
          scratch := wr32 (wr32 ctx.scratch 0 b0) 4 1,
          current_block_size := sub32 ctx.current_block_size 1 }
      _ [b1] dst n _ _ hp (by simp) hstep rfl
  · rw [rd32_wr32_other _ _ _ _ (Or.inr (by decide)), rd32_wr32_same _ _ _ (by omega)]
    omega
  · rw [rd32_wr32_same _ _ _ (by rw [wr32_length]; omega)]
    omega

theorem offset_fast_path_equals_slow_path_witness :
    elz4_decompress 5 ctx_zero (frame_match.take 16) [] 16 =
      .ret { result := .ELZ4_RESULT_OK, ctx := ctx_offset_pending, src_size := 16,
             dst_size := 4, dst := [0x41, 0x42, 0x43, 0x44] } ∧
    elz4_decompress 2 ctx_offset_pending [0x04, 0x00] [0x41, 0x42, 0x43, 0x44] 12 =
      .ret { result := .ELZ4_RESULT_OK, ctx := ctx_match_pending, src_size := 2, dst_size := 0,
             dst := [0x41, 0x42, 0x43, 0x44] } ∧
    elz4_decompress 2 ctx_offset_pending [0x04] [0x41, 0x42, 0x43, 0x44] 12 =
      .ret { result := .ELZ4_RESULT_OK,
             ctx :=
              { phase_func := .phase_decompress_block, current_block_size := 3,
                scratch := [4, 0, 0, 0, 1, 0, 0, 0, 0, 0, 0, 0, 0, 0, 0],
                scratch_size := STATE_READ_OFFSET, flags := 0x40, current_token := 0x40 },
             src_size := 1, dst_size := 0, dst := [0x41, 0x42, 0x43, 0x44] } ∧
    elz4_decompress 2
        { phase_func := .phase_decompress_block, current_block_size := 3,
          scratch := [4, 0, 0, 0, 1, 0, 0, 0, 0, 0, 0, 0, 0, 0, 0],
          scratch_size := STATE_READ_OFFSET, flags := 0x40, current_token := 0x40 }
        [0x00] [0x41, 0x42, 0x43, 0x44] 12 =
      .ret { result := .ELZ4_RESULT_OK, ctx := ctx_match_pending, src_size := 1, dst_size := 0,
             dst := [0x41, 0x42, 0x43, 0x44] } :=
  have h := offset_fast_path_equals_slow_path 0 ctx_offset_pending 0x04 0x00
    [0x41, 0x42, 0x43, 0x44] 12 rfl rfl (by decide) (by decide) rfl (by decide) (by decide)
  ⟨rfl, h.1, h.2.1, h.2.2.1⟩

/-! ## Claims the code does not meet: raw blocks, long matches, the scratch bound -/

/-- C11 (code defect).  A raw block is not copied.  The descriptor `01 00 00 80` selects
`phase_memcpy_block` with block size 1, and that phase hands back the context and both
spans untouched for every input, so nothing is copied, the block size never goes down and
the phase never changes to `phase_crc32` or `phase_block_size`; any call that brings input
for a raw block never returns, for every amount of fuel. -/
theorem raw_block_is_not_copied :
    (∀ k, elz4_decompress (k + 2) ctx_zero (header_plain ++ [1, 0, 0, 0x80]) [] 16 =
        .ret { result := .ELZ4_RESULT_OK, ctx := ctx_raw_block, src_size := 11, dst_size := 0,
               dst := [] }) ∧
    (∀ (fuel : Nat) (ctx : elz4_ctx) (src : span) (dst : wspan),
      ctx.phase_func = .phase_memcpy_block →
        call_phase fuel ctx src dst = .ret (.ELZ4_RESULT_OK, ctx, src, dst)) ∧
    (∀ (fuel : Nat) (ctx : elz4_ctx) (src dst : List Nat) (n : Nat),
      ctx.phase_func = .phase_memcpy_block → src ≠ [] →
        elz4_decompress fuel ctx src dst n = .fuelOut) ∧
    (∀ fuel, elz4_decompress fuel ctx_raw_block [0x41] [] 16 = .fuelOut) := by
  have hcall : ∀ (fuel : Nat) (ctx : elz4_ctx) (src : span) (dst : wspan),
      ctx.phase_func = .phase_memcpy_block →
        call_phase fuel ctx src dst = .ret (.ELZ4_RESULT_OK, ctx, src, dst) := by
    intro fuel ctx src dst hp
    unfold call_phase
    rw [hp]
    rfl
  have hgen : ∀ (fuel : Nat) (ctx : elz4_ctx) (src dst : List Nat) (n : Nat),
      ctx.phase_func = .phase_memcpy_block → src ≠ [] →
        elz4_decompress fuel ctx src dst n = .fuelOut := by
    intro fuel ctx src dst n hp hsrc
    have hnn : ¬ ctx.phase_func = .nullptr := by
      rw [hp]
      decide
    apply elz4_decompress_fuelOut
    rw [if_neg hnn]
    refine drive_stuck ctx _ _ ?_ (fun f => hcall f ctx _ _ hp) fuel _
    simpa using hsrc
  exact ⟨fun k => elz4_decompress_fuel_ret 2 _ _ _ _ _ (by rfl) k, hcall, hgen,
    fun fuel => hgen fuel ctx_raw_block [0x41] [] 16 rfl (by decide)⟩

/-- C16 (code defect).  The match length is decoded as claimed: in
`STATE_READ_MATCH_LENGTH` the bytes up to and including the first one different from `FF`
are added to the match length word and the sub-state becomes `STATE_COPY_MATCH`; and
`frame_long_match` (20 literals, then a match of offset 20 and length 15 + 4 + 1 = 20)
decodes to 41 bytes when 41 bytes of output space are offered.  But the match is not
emitted over several output slices: offered 30 bytes, `STATE_COPY_MATCH` copies 10 bytes of
the match, finds no space for the other 10 and goes round `while ( src )` for ever, so the
call never returns, for every amount of fuel. -/
theorem match_longer_than_output_slice_never_returns :
    (∀ (ctx : elz4_ctx) (q r : Nat) (rest : List Nat) (pos size : Nat) (dst : wspan),
      ctx.scratch_size = STATE_READ_MATCH_LENGTH → r ≠ 255 → q + 1 ≤ size →
      ctx.scratch.length = 15 →
        block_step ctx { data := List.replicate q 255 ++ r :: rest, pos := pos, size := size }
            dst =
          .ret (none,
            { ctx with scratch := wr32 ctx.scratch 4 (rd32 ctx.scratch 4 + 255 * q + r),
                       scratch_size := STATE_COPY_MATCH,
                       current_block_size := sub32 ctx.current_block_size (q + 1) },
            { data := rest, pos := pos + (q + 1), size := size - (q + 1) }, dst)) ∧
    (∀ k, elz4_decompress (k + 11) ctx_zero frame_long_match [] 41 =
        .ret { result := .ELZ4_RESULT_EOF,
               ctx := ctx_at_eof 64 16 [0, 0, 0, 0, 0, 0, 0, 0, 0, 0, 0],
               src_size := 42, dst_size := 41,
               dst := twenty_literals ++ twenty_literals ++ [0x5A] }) ∧
    (∀ fuel, elz4_decompress fuel ctx_zero frame_long_match [] 30 = .fuelOut) := by
  refine ⟨fun ctx q r rest pos size dst hss hr hs hl =>
      block_step_read_match_length ctx q r rest pos size dst hss hr hs hl,
    fun k => elz4_decompress_fuel_ret 11 _ _ _ _ _ (by rfl) k, fun fuel => ?_⟩
  apply elz4_decompress_fuelOut
  rcases fuel with _ | _ | _ | k
  · rfl
  · rfl
  · rfl
  · refine (drive_step_ok (by decide) (by rfl)).trans ?_
    refine (drive_step_ok (by decide) (by rfl)).trans ?_
    refine drive_step_fuelOut ?_ (by decide)
    rcases k with _ | _ | _ | _ | _ | _ | k
    · rfl
    · rfl
    · rfl
    · rfl
    · rfl
    · rfl
    · refine (block_loop_step (by decide) (by rfl)).trans ?_
      refine (block_loop_step (by decide) (by rfl)).trans ?_
      refine (block_loop_step (by decide) (by rfl)).trans ?_
      refine (block_loop_step (by decide) (by rfl)).trans ?_
      refine (block_loop_step (by decide) (by rfl)).trans ?_
      refine (block_loop_step (by decide) (by rfl)).trans ?_
      exact block_stuck _ _ _ (by decide) (by rfl) k

/-- C18 (code defect).  The scratch accumulator stores past the end of the scratch area.
On the first 15 bytes of `frame_both_fields` (flags `0x4A`, bits 3 and 1 both set) the
call returns with `scratch_size = 15` in the header phase, which asks for 19 bytes; in that
state the accumulator's next store goes to index 15 of the 15-byte array whenever a byte
is requested, and the call that is given the first 16 bytes of the frame makes that store:
it is undefined, for every amount of fuel. -/
theorem scratch_store_at_index_15 :
    (∀ k, elz4_decompress (k + 1) ctx_zero (frame_both_fields.take 15) [] 16 =
        .ret { result := .ELZ4_RESULT_OK, ctx := ctx_scratch_full, src_size := 15,
               dst_size := 0, dst := [] }) ∧
    ctx_scratch_full.phase_func = .phase_header ∧ ctx_scratch_full.scratch_size = 15 ∧
    ctx_scratch_full.scratch.length = 15 ∧
    (∀ (n b : Nat) (rest : List Nat) (pos size : Nat) (ctx : elz4_ctx),
      ctx.scratch_size = 15 → 15 < n → 0 < size →
        FILL_AND_CHECK_SCRATCH_AREA n ctx { data := b :: rest, pos := pos, size := size } =
          .undef) ∧
    (∀ k, elz4_decompress (k + 1) ctx_zero (frame_both_fields.take 16) [] 16 = .undef) :=
  ⟨fun k => elz4_decompress_fuel_ret 1 _ _ _ _ _ (by rfl) k, rfl, rfl, rfl,
    fun n b rest pos size ctx h15 hn hs => fill_loop_past_the_end n b rest pos size ctx h15 hn hs,
    fun k => elz4_decompress_fuel_undef 1 _ _ _ _ (by rfl) k⟩

end Elz4
